import Mathlib

/-!
Verification of the RESP (REdis Serialization Protocol) frame codec of
`simple-redis` (`src/resp/mod.rs`, `src/resp/encode.rs`) against its
natural-language specification.

Modelling conventions (shallow embedding):
* Rust `String` and `Vec<u8>` values are modelled as `List ℕ`, holding the
  UTF-8 bytes of the string (each entry < 256).  Rust's `Ord` on `String`
  is bytewise lexicographic, which the byte-list order below mirrors.
* Rust `i64` is modelled as `ℤ`; the i64 range is carried as hypotheses.
* A Rust panic (e.g. `String::from_utf8(..).unwrap()` on invalid UTF-8,
  or `i64::abs` overflow on `i64::MIN`) is modelled as `none` in an
  `Option` result: the function returns no byte sequence there.
* `BTreeMap<String, RespFrame>` is modelled as an association list that is
  strictly sorted by key — exactly the iteration order the Rust map has —
  built by `insertSorted`, which mirrors `BTreeMap::insert` (replacing the
  value when the key is already present).
-/

namespace SimpleRedis

/-- Carriage return byte. -/
def CR : ℕ := 13

/-- Line feed byte. -/
def LF : ℕ := 10

/-- The CRLF terminator `\r\n` as bytes. -/
def CRLF : List ℕ := [13, 10]

/-- Bytes of an ASCII string literal (used only in statements, on literals
that are plain ASCII, where `Char.toNat` is the byte value). -/
def b (s : String) : List ℕ := s.data.map Char.toNat

/-- Strict bytewise lexicographic order on byte lists: the order `Ord` on
Rust `String` (and hence `BTreeMap<String, _>` iteration) uses. -/
def lexLt : List ℕ → List ℕ → Bool
  | [], [] => false
  | [], _ :: _ => true
  | _ :: _, [] => false
  | a :: as, c :: cs => if a < c then true else if a = c then lexLt as cs else false

/-- Decimal digits of a natural number, least significant first, as digit
values (`[]` for 0).  Fuel-based so that it reduces by kernel computation;
the first argument is fuel, which is sufficient whenever it is `≥ n`. -/
def natDigitsRevAux : ℕ → ℕ → List ℕ
  | 0, _ => []
  | _ + 1, 0 => []
  | fuel + 1, n + 1 => (n + 1) % 10 :: natDigitsRevAux fuel ((n + 1) / 10)

/-- ASCII decimal representation of a natural number, most significant digit
first — the bytes `format!` produces for a nonnegative integer. -/
def natToDec (n : ℕ) : List ℕ :=
  if n = 0 then [48] else ((natDigitsRevAux n n).reverse).map (fun d => d + 48)

/-- One byte of a UTF-8 continuation sequence: `0x80 ..= 0xBF`. -/
def utf8Cont (x : ℕ) : Bool := 128 ≤ x ∧ x ≤ 191

/-- UTF-8 validity of a byte sequence, following RFC 3629 (the exact check
`std::str::from_utf8` / `String::from_utf8` performs). -/
def isValidUtf8 : List ℕ → Bool
  | [] => true
  | x :: rest =>
    if x < 128 then isValidUtf8 rest
    else if 194 ≤ x ∧ x ≤ 223 then
      match rest with
      | y :: rest2 => utf8Cont y && isValidUtf8 rest2
      | [] => false
    else if x = 224 then
      match rest with
      | y :: z :: rest2 => (160 ≤ y ∧ y ≤ 191 : Bool) && utf8Cont z && isValidUtf8 rest2
      | _ => false
    else if (225 ≤ x ∧ x ≤ 236) ∨ x = 238 ∨ x = 239 then
      match rest with
      | y :: z :: rest2 => utf8Cont y && utf8Cont z && isValidUtf8 rest2
      | _ => false
    else if x = 237 then
      match rest with
      | y :: z :: rest2 => (128 ≤ y ∧ y ≤ 159 : Bool) && utf8Cont z && isValidUtf8 rest2
      | _ => false
    else if x = 240 then
      match rest with
      | y :: z :: w :: rest2 =>
        (144 ≤ y ∧ y ≤ 191 : Bool) && utf8Cont z && utf8Cont w && isValidUtf8 rest2
      | _ => false
    else if 241 ≤ x ∧ x ≤ 243 then
      match rest with
      | y :: z :: w :: rest2 => utf8Cont y && utf8Cont z && utf8Cont w && isValidUtf8 rest2
      | _ => false
    else if x = 244 then
      match rest with
      | y :: z :: w :: rest2 =>
        (128 ≤ y ∧ y ≤ 143 : Bool) && utf8Cont z && utf8Cont w && isValidUtf8 rest2
      | _ => false
    else false

/-- A finite IEEE-754 double, as stored sign/significand/exponent: the value
is `(-1)^sign * m * 2^e`.  `F64.IsValid` below pins the canonical ranges. -/
structure F64 where
  sign : Bool
  m : ℕ
  e : ℤ
deriving DecidableEq, Repr

/-- Magnitude of a finite double, as an exact rational. -/
def F64.absVal (x : F64) : ℚ := (x.m : ℚ) * (2 : ℚ) ^ x.e

/-- Signed value of a finite double, as an exact rational. -/
def F64.val (x : F64) : ℚ := (if x.sign then -1 else 1) * x.absVal

/-- Canonical-form predicate for a finite double: either subnormal/zero
(`e = -1074`, `m < 2^52`) or normal (`2^52 ≤ m < 2^53`, `-1074 ≤ e ≤ 971`). -/
def F64.IsValid (x : F64) : Prop :=
  (x.e = -1074 ∧ x.m < 2 ^ 52) ∨
  (2 ^ 52 ≤ x.m ∧ x.m < 2 ^ 53 ∧ -1074 ≤ x.e ∧ x.e ≤ 971)

instance (x : F64) : Decidable x.IsValid := by
  unfold F64.IsValid; infer_instance

/-- The RESP frame value model, following `enum RespFrame` in
`src/resp/mod.rs`.  `map` and `set` both carry the contents of a
`BTreeMap<String, RespFrame>` (see `mod.rs`: `struct Map` and `struct Set`
wrap the same map type), as a key-sorted association list. -/
inductive RespFrame where
  | simpleString (s : List ℕ)
  | simpleError (s : List ℕ)
  | integer (n : ℤ)
  | bulkString (p : List ℕ)
  | array (xs : List RespFrame)
  | null
  | nullArray
  | nullBulkString
  | boolean (v : Bool)
  | double (x : F64)
  | bulkError (s : List ℕ)
  | map (entries : List (List ℕ × RespFrame))
  | set (entries : List (List ℕ × RespFrame))

/-! ### Exact fraction arithmetic

The double formatter below needs exact rational arithmetic that the kernel
can evaluate fast.  `QR` is a raw (unnormalised) fraction `n / d`: every
operation is a couple of integer multiplications, which the kernel computes
natively, and `QR.toQ` interprets a fraction as the rational it denotes for
the correctness lemmas.  All constructions keep the denominator positive. -/

structure QR where
  n : ℤ
  d : ℕ
deriving DecidableEq, Repr

/-- The rational a raw fraction denotes. -/
def QR.toQ (x : QR) : ℚ := (x.n : ℚ) / (x.d : ℚ)

/-- Embed an integer. -/
def QR.ofInt (z : ℤ) : QR := ⟨z, 1⟩

/-- Fraction comparison by cross-multiplication (sound when both
denominators are positive). -/
def QR.blt (x y : QR) : Bool := decide (x.n * (y.d : ℤ) < y.n * (x.d : ℤ))

/-- Non-strict fraction comparison by cross-multiplication. -/
def QR.ble (x y : QR) : Bool := decide (x.n * (y.d : ℤ) ≤ y.n * (x.d : ℤ))

/-- Fraction sum. -/
def QR.add (x y : QR) : QR := ⟨x.n * (y.d : ℤ) + y.n * (x.d : ℤ), x.d * y.d⟩

/-- Fraction difference. -/
def QR.sub (x y : QR) : QR := ⟨x.n * (y.d : ℤ) - y.n * (x.d : ℤ), x.d * y.d⟩

/-- Multiply a fraction by `b^i` for a positive base `b` and `i : ℤ`. -/
def QR.scale (b : ℕ) (i : ℤ) (x : QR) : QR :=
  if 0 ≤ i then ⟨x.n * (b : ℤ) ^ i.toNat, x.d⟩ else ⟨x.n, x.d * b ^ (-i).toNat⟩

/-- `⌊x + 1/2⌋`: round to nearest, halves up (this development only rounds
values that are provably not at a half, so the tie rule never matters). -/
def QR.round (x : QR) : ℤ := Int.fdiv (2 * x.n + (x.d : ℤ)) (2 * (x.d : ℤ))

/-! ### Double formatting

`impl RespEncode for f64` calls Rust's `format!("{}", x)` (when the plain
branch is taken) and `format!("{:e}", x)` (exponential branch).  Both print
the *shortest* decimal significand that rounds back to exactly `x`:
`Display` positionally, `LowerExp` as `d.ddd` + `e` + exponent (lowercase
`e`, no leading zeros, no `+`).  That semantics is embedded exactly below:
`shortestDigits` searches for the fewest significant digits whose nearest
decimal of that length lies strictly inside the rounding interval of `x`
(the set of reals that round to `x` under round-to-nearest). -/

/-- Base-`bb` logarithm, upward loop: for `1 ≤ q`, returns `t` (accumulated
in `acc`) with `bb^t ≤ q < bb^(t+1)`; fuel-based so it computes by kernel
reduction.  Fuel `≥ log` suffices. -/
def logUpB (bb : ℕ) : ℕ → QR → ℤ → ℤ
  | 0, _, acc => acc
  | fuel + 1, q, acc =>
    if QR.blt q (.ofInt bb) then acc else logUpB bb fuel (QR.scale bb (-1) q) (acc + 1)

/-- Base-`bb` logarithm, downward loop: called with `q * bb` and `-1` when
`q < 1`; stops at the first exponent whose base-`bb` decade contains the
original. -/
def logDownB (bb : ℕ) : ℕ → QR → ℤ → ℤ
  | 0, _, acc => acc
  | fuel + 1, q, acc =>
    if QR.ble (.ofInt 1) q then acc else logDownB bb fuel (QR.scale bb 1 q) (acc - 1)

/-- Base-`bb` logarithm of a positive fraction: the `t` with
`bb^t ≤ q < bb^(t+1)` (when the fuel covers the magnitude). -/
def logB (bb fuel : ℕ) (q : QR) : ℤ :=
  if QR.ble (.ofInt 1) q then logUpB bb fuel q 0
  else logDownB bb fuel (QR.scale bb 1 q) (-1)

/-- Decimal logarithm of a positive fraction (fuel 1200 covers every
magnitude a finite double can take). -/
def decLog (q : QR) : ℤ := logB 10 1200 q

/-- Magnitude of a finite double as a raw fraction: `m * 2^e`. -/
def F64.absQR (x : F64) : QR := QR.scale 2 x.e (.ofInt x.m)

/-- Half-gap from `x` down to the previous representable double (`2^(e-1)`,
except `2^(e-2)` just above a power of two where the spacing halves),
as a raw fraction. -/
def F64.deltaLo (x : F64) : QR :=
  if x.m = 2 ^ 52 ∧ -1074 < x.e then QR.scale 2 (x.e - 2) (.ofInt 1)
  else QR.scale 2 (x.e - 1) (.ofInt 1)

/-- Half-gap from `x` up to the next representable double: `2^(e-1)`. -/
def F64.deltaHi (x : F64) : QR := QR.scale 2 (x.e - 1) (.ofInt 1)

/-- Whether the fraction `q` lies strictly inside the rounding interval of
the magnitude of `x`: every such value rounds back to `x` under
round-to-nearest. -/
def F64.inInterval (x : F64) (q : QR) : Bool :=
  QR.blt (QR.sub x.absQR x.deltaLo) q && QR.blt q (QR.add x.absQR x.deltaHi)

/-- A decimal significand: `k` significant digits `d` (`10^(k-1) ≤ d < 10^k`)
and decimal exponent `t`; the denoted magnitude is `d * 10^(t-k+1)`. -/
structure DecDigits where
  d : ℕ
  k : ℕ
  t : ℤ
deriving DecidableEq, Repr

/-- The magnitude a `DecDigits` denotes, as a raw fraction. -/
def DecDigits.valQR (dd : DecDigits) : QR :=
  QR.scale 10 (dd.t - dd.k + 1) (.ofInt dd.d)

/-- The magnitude a `DecDigits` denotes, as a rational. -/
def DecDigits.value (dd : DecDigits) : ℚ :=
  (dd.d : ℚ) * (10 : ℚ) ^ (dd.t - dd.k + 1)

/-- Try `k` significant digits: round the magnitude to the nearest `k`-digit
decimal and accept it iff it lies inside the rounding interval (a rounded
value of `10^k` means the next decade: normalise it to the single digit 1). -/
def tryK (x : F64) (v : QR) (t : ℤ) (k : ℕ) : Option DecDigits :=
  let c : ℤ := QR.round (QR.scale 10 (-(t - k + 1)) v)
  if c = 10 ^ k then
    if x.inInterval (DecDigits.valQR ⟨1, 1, t + 1⟩) then some ⟨1, 1, t + 1⟩ else none
  else if x.inInterval (DecDigits.valQR ⟨c.toNat, k, t⟩) then some ⟨c.toNat, k, t⟩
  else none

/-- Search upward from `k` significant digits (second argument is fuel).
60 digits always suffice (17 do, but 60 admits a crude sufficiency proof);
the fuel-exhausted fallback is never reached. -/
def searchLoop (x : F64) (v : QR) (t : ℤ) : ℕ → ℕ → DecDigits
  | k, 0 => ⟨(QR.round (QR.scale 10 (-(t - k + 1)) v)).toNat, k, t⟩
  | k, fuel + 1 =>
    match tryK x v t k with
    | some r => r
    | none => searchLoop x v t (k + 1) fuel

/-- Shortest round-tripping decimal significand of a nonzero finite double's
magnitude. -/
def shortestDigits (x : F64) : DecDigits :=
  searchLoop x x.absQR (decLog x.absQR) 1 60

/-- Positional (Rust `Display`) rendering of a decimal significand, as ASCII
bytes: digits padded with zeros, or split by a decimal point, or prefixed
`0.00…` — never an exponent, never a trailing `.0`. -/
def renderPos (dd : DecDigits) : List ℕ :=
  let ds := natToDec dd.d
  if (dd.k : ℤ) - 1 ≤ dd.t then ds ++ List.replicate (dd.t - dd.k + 1).toNat 48
  else if 0 ≤ dd.t then ds.take (dd.t.toNat + 1) ++ [46] ++ ds.drop (dd.t.toNat + 1)
  else [48, 46] ++ List.replicate (-dd.t - 1).toNat 48 ++ ds

/-- ASCII decimal of an integer, `-` prefixed when negative. -/
def intToDec (z : ℤ) : List ℕ :=
  if z < 0 then 45 :: natToDec z.natAbs else natToDec z.toNat

/-- Scientific (Rust `LowerExp`, i.e. `{:e}`) rendering: leading digit, a
point and the remaining digits when there are any, then `e` and the decimal
exponent with no leading zeros and no `+`. -/
def renderExp (dd : DecDigits) : List ℕ :=
  let ds := natToDec dd.d
  ds.take 1 ++ (if dd.k ≤ 1 then [] else 46 :: ds.drop 1) ++ [101] ++ intToDec dd.t

/-- Bytes `format!("{}", x)` produces for a finite double `x`
(Rust prints `0` / `-0` for zeroes). -/
def fmtDisplay (x : F64) : List ℕ :=
  (if x.sign then [45] else []) ++
    (if x.m = 0 then [48] else renderPos (shortestDigits x))

/-- Bytes `format!("{:e}", x)` produces for a finite double `x`
(`0e0` / `-0e0` for zeroes). -/
def fmtExp (x : F64) : List ℕ :=
  (if x.sign then [45] else []) ++
    (if x.m = 0 then [48, 101, 48] else renderExp (shortestDigits x))

/-- The exact value of the Rust literal `1e-8` as an `f64`: the double
nearest `10^-8`, namely `6044629098073146 * 2^-79` (slightly above
`10^-8`), as a raw fraction. -/
def f64Lit1em8 : QR := ⟨6044629098073146, 2 ^ 79⟩

/-- `impl RespEncode for f64` (`encode.rs` lines 109–118): `,` then
`format!("{:e}")` when `self.abs() > 1e+8 || self.abs() < 1e-8`, else
`format!("{}")`, then CRLF.  (`f64::abs` of the modelled finite doubles is
`absQR`; the comparisons with the two `f64` constants are exact.) -/
def f64encode (x : F64) : List ℕ :=
  if QR.blt (.ofInt (10 ^ 8)) x.absQR || QR.blt x.absQR f64Lit1em8
  then [44] ++ fmtExp x ++ CRLF
  else [44] ++ fmtDisplay x ++ CRLF

/-! ### The encoder (`src/resp/encode.rs`) -/

/-- `impl RespEncode for SimpleString`: `format!("+{}\r\n", self.0)`. -/
def simpleStringEncode (s : List ℕ) : List ℕ := [43] ++ s ++ CRLF

/-- `impl RespEncode for SimpleError`: `format!("-{}\r\n", self.0)`. -/
def simpleErrorEncode (s : List ℕ) : List ℕ := [45] ++ s ++ CRLF

/-- `impl RespEncode for i64`: `format!(":{}{}\r\n", sign, self.abs())` with
sign `-` for negatives, `+` otherwise.  `i64::abs` overflows at `i64::MIN`
(a panic with overflow checks on), modelled as `none`. -/
def i64encode (n : ℤ) : Option (List ℕ) :=
  if n = -(2 ^ 63) then none
  else some ([58] ++ (if n < 0 then [45] else [43]) ++ natToDec n.natAbs ++ CRLF)

/-- `impl RespEncode for BulkString`:
`format!("${}\r\n{}\r\n", self.len(), String::from_utf8(self.0).unwrap())`.
`String::from_utf8(..).unwrap()` panics (modelled `none`) exactly when the
payload is not valid UTF-8; when it is valid the bytes pass through
unchanged (`String::into_bytes` of `from_utf8 v` is `v`). -/
def bulkStringEncode (p : List ℕ) : Option (List ℕ) :=
  if isValidUtf8 p then some ([36] ++ natToDec p.length ++ CRLF ++ p ++ CRLF)
  else none

/-- `impl RespEncode for BulkError`: `!` + length + CRLF + bytes + CRLF.
The payload is a Rust `String` (always valid UTF-8); `self.len()` is its
byte length. -/
def bulkErrorEncode (s : List ℕ) : List ℕ :=
  [33] ++ natToDec s.length ++ CRLF ++ s ++ CRLF

/-- `impl RespEncode for bool`: `#t\r\n` / `#f\r\n`. -/
def boolEncode (v : Bool) : List ℕ := [35] ++ (if v then [116] else [102]) ++ CRLF

mutual

/-- `RespEncode` over the whole frame enum (dispatched by `enum_dispatch` in
the source).  `none` models the panics of the bulk-string and integer
encoders; every other arm always yields bytes. -/
def RespFrame.encode : RespFrame → Option (List ℕ)
  | .simpleString s => some (simpleStringEncode s)
  | .simpleError s => some (simpleErrorEncode s)
  | .integer n => i64encode n
  | .bulkString p => bulkStringEncode p
  | .array xs =>
    match encodeFrames xs with
    | some body => some ([42] ++ natToDec xs.length ++ CRLF ++ body)
    | none => none
  | .null => some ([95] ++ CRLF)
  | .nullArray => some ([42, 45, 49] ++ CRLF)
  | .nullBulkString => some ([36, 45, 49] ++ CRLF)
  | .boolean v => some (boolEncode v)
  | .double x => some (f64encode x)
  | .bulkError s => some (bulkErrorEncode s)
  | .map entries =>
    match encodeEntries entries with
    | some body => some ([37] ++ natToDec entries.length ++ CRLF ++ body)
    | none => none
  | .set entries =>
    match encodeValues entries with
    | some body => some ([126] ++ natToDec entries.length ++ CRLF ++ body)
    | none => none

/-- `impl RespEncode for Array`, element loop: each element's own encoding,
concatenated in order. -/
def encodeFrames : List RespFrame → Option (List ℕ)
  | [] => some []
  | x :: xs =>
    match x.encode, encodeFrames xs with
    | some ex, some exs => some (ex ++ exs)
    | _, _ => none

/-- `impl RespEncode for Map`, entry loop: each key encoded as a
SimpleString frame, then the value's own encoding, in the map's (key-sorted)
iteration order. -/
def encodeEntries : List (List ℕ × RespFrame) → Option (List ℕ)
  | [] => some []
  | (k, v) :: rest =>
    match v.encode, encodeEntries rest with
    | some ev, some er => some (simpleStringEncode k ++ ev ++ er)
    | _, _ => none

/-- `impl RespEncode for Set`, element loop: only the mapped value of each
entry is encoded (`frame.1.encode()`), in key order; the key itself is
dropped. -/
def encodeValues : List (List ℕ × RespFrame) → Option (List ℕ)
  | [] => some []
  | (_, v) :: rest =>
    match v.encode, encodeValues rest with
    | some ev, some er => some (ev ++ er)
    | _, _ => none

end

example : RespFrame.encode (.array [.bulkString (b "get"), .bulkString (b "hello")]) =
    some (b "*2\r\n$3\r\nget\r\n$5\r\nhello\r\n") := by decide

example : RespFrame.encode (.integer 123) = some (b ":+123\r\n") := by decide

/-! ### Construction (`From` impls) and the map representation -/

/-- `impl From<String> for SimpleString` / `From<&str>` (`mod.rs` 192–202):
wraps the text unchanged — no validation of any kind. -/
def simpleStringFromStr (s : List ℕ) : RespFrame := .simpleString s

/-- `impl From<String> for SimpleError` / `From<&str>` (`mod.rs` 204–214):
wraps the text unchanged — no validation of any kind. -/
def simpleErrorFromStr (s : List ℕ) : RespFrame := .simpleError s

/-- `BTreeMap::insert` on the sorted-association-list representation:
place the binding at its key's position, replacing the value if the key is
already present. -/
def insertSorted (k : List ℕ) (v : RespFrame) :
    List (List ℕ × RespFrame) → List (List ℕ × RespFrame)
  | [] => [(k, v)]
  | (k2, v2) :: rest =>
    if lexLt k k2 then (k, v) :: (k2, v2) :: rest
    else if k = k2 then (k, v) :: rest
    else (k2, v2) :: insertSorted k v rest

/-- A `BTreeMap` built by inserting the given bindings in order (the
observable content of a map after any insertion sequence). -/
def mapFromList (l : List (List ℕ × RespFrame)) : List (List ℕ × RespFrame) :=
  l.foldl (fun acc p => insertSorted p.1 p.2 acc) []

/-- Keys strictly increasing in the byte-lexicographic order: the invariant
of the sorted-association-list representation of `BTreeMap`. -/
def keysSorted : List (List ℕ × RespFrame) → Bool
  | [] => true
  | [_] => true
  | p :: q :: rest => lexLt p.1 q.1 && keysSorted (q :: rest)

/-- No CR and no LF byte occurs: the condition under which a payload can
live on a single protocol line. -/
def noCRLF (s : List ℕ) : Bool := !(s.contains 13) && !(s.contains 10)

/-- The variant-determined tag byte, as the specification tabulates it:
`+ - : $ * _ # , ! % ~` with the null variants under their legacy tags. -/
def tagByte : RespFrame → ℕ
  | .simpleString _ => 43
  | .simpleError _ => 45
  | .integer _ => 58
  | .bulkString _ => 36
  | .array _ => 42
  | .null => 95
  | .nullArray => 42
  | .nullBulkString => 36
  | .boolean _ => 35
  | .double _ => 44
  | .bulkError _ => 33
  | .map _ => 37
  | .set _ => 126

mutual

/-- Frames on which the encoder is total and which survive a wire
round-trip: line payloads free of CR/LF and valid UTF-8, bulk-string
payloads valid UTF-8 (the encoder's `from_utf8(..).unwrap()` panics
otherwise), integers strictly inside the `i64` range (the encoder's
`abs()` overflows at `i64::MIN`), doubles finite and canonical, map keys
line-safe and strictly sorted (the `BTreeMap` invariant), and sets empty —
a nonempty `Set` stores auxiliary string keys that never reach the wire,
so no decoder can rebuild them. -/
def RespFrame.wf : RespFrame → Bool
  | .simpleString s => noCRLF s && isValidUtf8 s
  | .simpleError s => noCRLF s && isValidUtf8 s
  | .integer n => decide (-(2 ^ 63) < n ∧ n < 2 ^ 63)
  | .bulkString p => isValidUtf8 p
  | .array xs => wfFrames xs
  | .null => true
  | .nullArray => true
  | .nullBulkString => true
  | .boolean _ => true
  | .double x => decide x.IsValid
  | .bulkError s => isValidUtf8 s
  | .map entries => keysSorted entries && wfEntries entries
  | .set entries => entries.isEmpty

/-- All frames of a list well formed. -/
def wfFrames : List RespFrame → Bool
  | [] => true
  | x :: xs => x.wf && wfFrames xs

/-- All map entries well formed: keys line-safe and valid UTF-8 (they are
encoded as SimpleString frames), values well formed. -/
def wfEntries : List (List ℕ × RespFrame) → Bool
  | [] => true
  | (k, v) :: rest => noCRLF k && isValidUtf8 k && v.wf && wfEntries rest

end

mutual

/-- Decoding cost of a frame: an upper bound on the call depth the decoder
needs, used to discharge its fuel. -/
def RespFrame.weight : RespFrame → ℕ
  | .array xs => 1 + weightFrames xs
  | .map entries => 1 + weightEntries entries
  | .set entries => 1 + weightEntries entries
  | _ => 1

/-- Summed decoding cost of a frame list (one extra unit per element for
the list-walking call). -/
def weightFrames : List RespFrame → ℕ
  | [] => 1
  | x :: xs => 1 + x.weight + weightFrames xs

/-- Summed decoding cost of map entries (two units per entry: the key
frame and the walking call). -/
def weightEntries : List (List ℕ × RespFrame) → ℕ
  | [] => 1
  | (_, v) :: rest => 2 + v.weight + weightEntries rest

end

/-! ### The decoder

`mod.rs` declares `mod decode` and `trait RespDecode`, but `decode.rs`
itself is not part of the sources; everything in this section is therefore
modelled from the spec (§4.3 Decoder): outcome type
`Complete (frame, consumed) | Incomplete | Malformed` (failure reasons are
abstracted away), tag-byte dispatch, single-line scan to the first CRLF,
explicit-sign integer parsing, `-1` sentinels for `$` and `*`, UTF-8
validation where text is required, recursive child decoding for `* % ~`
threading the consumed-byte offset, and a recursion-depth guard whose
exhaustion is a Malformed outcome (§5: exceeding a configured depth limit
is Malformed, not a crash). -/

/-- Modelled from the spec: the three decode outcomes of §4.3/§6
(`decode.rs` is absent from the sources). -/
inductive DecodeResult where
  | complete (f : RespFrame) (consumed : ℕ)
  | incomplete
  | malformed

/-- Modelled from the spec: outcome of decoding a counted run of child
frames of an aggregate. -/
inductive FramesResult where
  | ok (xs : List RespFrame) (used : ℕ)
  | incomplete
  | malformed

/-- Modelled from the spec: outcome of decoding a counted run of key/value
entry pairs of a map (or of set elements, with their wire bytes as keys). -/
inductive EntriesResult where
  | ok (entries : List (List ℕ × RespFrame)) (used : ℕ)
  | incomplete
  | malformed

/-- Modelled from the spec: scan for the first CRLF; `none` when no CRLF
has arrived yet (Incomplete), otherwise the line and the remaining bytes. -/
def splitLine : List ℕ → Option (List ℕ × List ℕ)
  | [] => none
  | [_] => none
  | x :: y :: rest =>
    if x = 13 ∧ y = 10 then some ([], rest)
    else
      match splitLine (y :: rest) with
      | some (line, rest2) => some (x :: line, rest2)
      | none => none

/-- Modelled from the spec: decimal digit-run parser (rejects empty input
and any non-digit byte). -/
def parseNatAux : List ℕ → ℕ → Option ℕ
  | [], acc => some acc
  | c :: cs, acc => if 48 ≤ c ∧ c ≤ 57 then parseNatAux cs (acc * 10 + (c - 48)) else none

/-- Modelled from the spec: decimal natural-number parser. -/
def parseNat (l : List ℕ) : Option ℕ :=
  match l with
  | [] => none
  | _ => parseNatAux l 0

/-- Modelled from the spec: integer-line parser — an optional explicit
sign followed by decimal digits, anything else rejected. -/
def parseIntLine (l : List ℕ) : Option ℤ :=
  match l with
  | [] => none
  | c :: rest =>
    if c = 45 then (parseNat rest).map (fun v => -(v : ℤ))
    else if c = 43 then (parseNat rest).map (fun v => (v : ℤ))
    else (parseNat (c :: rest)).map (fun v => (v : ℤ))

/-- Split a byte list at the first occurrence of `sep`: the part before
and, when `sep` occurs, the part after. -/
def splitOnByte (sep : ℕ) : List ℕ → List ℕ × Option (List ℕ)
  | [] => ([], none)
  | c :: cs =>
    if c = sep then ([], some cs)
    else
      let r := splitOnByte sep cs
      (c :: r.1, r.2)

/-- Modelled from the spec: magnitude of a float literal
`digits [. digits] [e [sign] digits]` as an exact fraction (the lexical
forms the encoder emits are all accepted; a leading digit run is
required). -/
def parseF64Mag (l : List ℕ) : Option QR :=
  let mantExp := splitOnByte 101 l
  let ipFp := splitOnByte 46 mantExp.1
  match parseNat ipFp.1 with
  | none => none
  | some ipv =>
    let ex : Option ℤ :=
      match mantExp.2 with
      | none => some 0
      | some exBytes => parseIntLine exBytes
    match ex with
    | none => none
    | some e =>
      match ipFp.2 with
      | none => some (QR.scale 10 e (.ofInt ipv))
      | some fp =>
        match parseNat fp with
        | none => none
        | some fpv =>
          some (QR.scale 10 (e - fp.length) (.ofInt (ipv * 10 ^ fp.length + fpv)))

/-- Binary logarithm of a positive fraction (fuel 2200 covers every
magnitude relevant here). -/
def log2QR (q : QR) : ℤ := logB 2 2200 q

/-- Modelled from the spec: round a positive magnitude to the nearest
representable double (the value `str::parse::<f64>` returns), `none` when
it overflows to infinity (outside the finite model). -/
def nearestF64 (sign : Bool) (q : QR) : Option F64 :=
  if q.n = 0 then some ⟨sign, 0, -1074⟩
  else
    let e2 := log2QR q - 52
    if e2 < -1074 then some ⟨sign, (QR.round (QR.scale 2 1074 q)).toNat, -1074⟩
    else
      let m := QR.round (QR.scale 2 (-e2) q)
      if m = 2 ^ 53 then
        if e2 + 1 ≤ 971 then some ⟨sign, 2 ^ 52, e2 + 1⟩ else none
      else if e2 ≤ 971 then some ⟨sign, m.toNat, e2⟩ else none

/-- Modelled from the spec: double-line parser — optional sign, then a
standard decimal or exponential float literal, rounded to the nearest
double. -/
def parseF64Line (l : List ℕ) : Option F64 :=
  match l with
  | [] => none
  | c :: rest =>
    if c = 45 then (parseF64Mag rest).bind (nearestF64 true)
    else if c = 43 then (parseF64Mag rest).bind (nearestF64 false)
    else (parseF64Mag (c :: rest)).bind (nearestF64 false)

mutual

/-- Modelled from the spec (§4.3): decode one frame from the front of the
buffer.  The first argument is the recursion-depth guard; its exhaustion
is a Malformed outcome (§5).  Dispatch on the tag byte; single-line scan
for the line-based types; `-1` sentinels for `$`/`*`; payload bytes of `$`
returned exactly as given; UTF-8 validated where text is required
(`+ - !` and map keys); recursive child decoding for `* % ~`.  A set is
rebuilt into the source's `Set(BTreeMap<String, RespFrame>)` by keying
each element with the wire bytes it occupied — the auxiliary keys of the
original map are not on the wire, so *some* such choice is forced. -/
def decodeFrame : ℕ → List ℕ → DecodeResult
  | 0, _ => .malformed
  | _ + 1, [] => .incomplete
  | fuel + 1, tag :: rest =>
    if tag = 43 then
      match splitLine rest with
      | none => .incomplete
      | some (line, _) =>
        if isValidUtf8 line then .complete (.simpleString line) (1 + line.length + 2)
        else .malformed
    else if tag = 45 then
      match splitLine rest with
      | none => .incomplete
      | some (line, _) =>
        if isValidUtf8 line then .complete (.simpleError line) (1 + line.length + 2)
        else .malformed
    else if tag = 58 then
      match splitLine rest with
      | none => .incomplete
      | some (line, _) =>
        match parseIntLine line with
        | some z =>
          if -(2 ^ 63) ≤ z ∧ z < 2 ^ 63 then .complete (.integer z) (1 + line.length + 2)
          else .malformed
        | none => .malformed
    else if tag = 35 then
      match splitLine rest with
      | none => .incomplete
      | some (line, _) =>
        if line = [116] then .complete (.boolean true) (1 + line.length + 2)
        else if line = [102] then .complete (.boolean false) (1 + line.length + 2)
        else .malformed
    else if tag = 95 then
      match splitLine rest with
      | none => .incomplete
      | some (line, _) =>
        if line = [] then .complete .null (1 + line.length + 2) else .malformed
    else if tag = 44 then
      match splitLine rest with
      | none => .incomplete
      | some (line, _) =>
        match parseF64Line line with
        | some x => .complete (.double x) (1 + line.length + 2)
        | none => .malformed
    else if tag = 36 then
      match splitLine rest with
      | none => .incomplete
      | some (line, rest2) =>
        match parseIntLine line with
        | none => .malformed
        | some len =>
          if len = -1 then .complete .nullBulkString (1 + line.length + 2)
          else if len < 0 then .malformed
          else if rest2.length < len.toNat + 2 then .incomplete
          else if (rest2.drop len.toNat).take 2 = CRLF then
            .complete (.bulkString (rest2.take len.toNat))
              (1 + line.length + 2 + len.toNat + 2)
          else .malformed
    else if tag = 33 then
      match splitLine rest with
      | none => .incomplete
      | some (line, rest2) =>
        match parseIntLine line with
        | none => .malformed
        | some len =>
          if len < 0 then .malformed
          else if rest2.length < len.toNat + 2 then .incomplete
          else if (rest2.drop len.toNat).take 2 = CRLF then
            if isValidUtf8 (rest2.take len.toNat) then
              .complete (.bulkError (rest2.take len.toNat))
                (1 + line.length + 2 + len.toNat + 2)
            else .malformed
          else .malformed
    else if tag = 42 then
      match splitLine rest with
      | none => .incomplete
      | some (line, rest2) =>
        match parseIntLine line with
        | none => .malformed
        | some cnt =>
          if cnt = -1 then .complete .nullArray (1 + line.length + 2)
          else if cnt < 0 then .malformed
          else
            match decodeFrames fuel cnt.toNat rest2 with
            | .ok xs used => .complete (.array xs) (1 + line.length + 2 + used)
            | .incomplete => .incomplete
            | .malformed => .malformed
    else if tag = 37 then
      match splitLine rest with
      | none => .incomplete
      | some (line, rest2) =>
        match parseIntLine line with
        | none => .malformed
        | some cnt =>
          if cnt < 0 then .malformed
          else
            match decodeEntries fuel cnt.toNat rest2 with
            | .ok entries used =>
              .complete (.map (mapFromList entries)) (1 + line.length + 2 + used)
            | .incomplete => .incomplete
            | .malformed => .malformed
    else if tag = 126 then
      match splitLine rest with
      | none => .incomplete
      | some (line, rest2) =>
        match parseIntLine line with
        | none => .malformed
        | some cnt =>
          if cnt < 0 then .malformed
          else
            match decodeSetElems fuel cnt.toNat rest2 with
            | .ok entries used =>
              .complete (.set (mapFromList entries)) (1 + line.length + 2 + used)
            | .incomplete => .incomplete
            | .malformed => .malformed
    else .malformed

/-- Modelled from the spec: decode `count` child frames in sequence,
threading the consumed-byte offset; a child's Incomplete or Malformed
short-circuits the whole run. -/
def decodeFrames : ℕ → ℕ → List ℕ → FramesResult
  | _, 0, _ => .ok [] 0
  | 0, _ + 1, _ => .malformed
  | fuel + 1, cnt + 1, input =>
    match decodeFrame fuel input with
    | .complete x used =>
      match decodeFrames fuel cnt (input.drop used) with
      | .ok xs used2 => .ok (x :: xs) (used + used2)
      | .incomplete => .incomplete
      | .malformed => .malformed
    | .incomplete => .incomplete
    | .malformed => .malformed

/-- Modelled from the spec: decode `count` key/value entry pairs of a map —
the stream is the interleaving key₁ value₁ … keyₙ valueₙ, each key must
arrive as a SimpleString frame (anything else is Malformed). -/
def decodeEntries : ℕ → ℕ → List ℕ → EntriesResult
  | _, 0, _ => .ok [] 0
  | 0, _ + 1, _ => .malformed
  | fuel + 1, cnt + 1, input =>
    match decodeFrame fuel input with
    | .complete (.simpleString k) used =>
      match decodeFrame fuel (input.drop used) with
      | .complete v used2 =>
        match decodeEntries fuel cnt (input.drop (used + used2)) with
        | .ok entries used3 => .ok ((k, v) :: entries) (used + used2 + used3)
        | .incomplete => .incomplete
        | .malformed => .malformed
      | .incomplete => .incomplete
      | .malformed => .malformed
    | .complete _ _ => .malformed
    | .incomplete => .incomplete
    | .malformed => .malformed

/-- Modelled from the spec: decode `count` set elements; each element is
keyed by the wire bytes it occupied to rebuild the source's string-keyed
set representation. -/
def decodeSetElems : ℕ → ℕ → List ℕ → EntriesResult
  | _, 0, _ => .ok [] 0
  | 0, _ + 1, _ => .malformed
  | fuel + 1, cnt + 1, input =>
    match decodeFrame fuel input with
    | .complete x used =>
      match decodeSetElems fuel cnt (input.drop used) with
      | .ok entries used2 => .ok ((input.take used, x) :: entries) (used + used2)
      | .incomplete => .incomplete
      | .malformed => .malformed
    | .incomplete => .incomplete
    | .malformed => .malformed

end

/-- Modelled from the spec: the decoder entry point
`decode(ByteSequence) -> Complete(Frame, bytesConsumed) | Incomplete |
Malformed`.  The depth guard is set from the buffer length, which always
dominates any nesting the buffer can express. -/
def respDecode (input : List ℕ) : DecodeResult :=
  decodeFrame (input.length + 1) input

example : respDecode (b "+OK\r\n") = .complete (.simpleString (b "OK")) 5 := rfl

/-! ## Lemmas and claim theorems -/

set_option maxRecDepth 200000
set_option exponentiation.threshold 2000

/-- C1: the claim that a non-UTF-8 bulk payload is never an encode-time
fault fails on the code: `String::from_utf8(self.0).unwrap()` in
`impl RespEncode for BulkString` panics on the one-byte payload `[0xFF]`,
so no byte sequence is produced there; on a valid-UTF-8 payload the claimed
`$` + length + CRLF + payload + CRLF shape does come out. -/
theorem bulkString_encode_panics_on_non_utf8 :
    bulkStringEncode [255] = none ∧
    bulkStringEncode (b "hello") = some (b "$5\r\nhello\r\n") :=
  ⟨rfl, by decide⟩

/-- C2: the claim that encode never fails on a well-formed frame fails on
the code: the BulkString frame with payload `[0xFF]` (arbitrary bytes are
well formed for a bulk string) and the Integer frame `i64::MIN` (inside
the full signed 64-bit range) both make encode panic — no byte sequence is
returned. -/
theorem respFrame_encode_has_failure_paths :
    RespFrame.encode (.bulkString [255]) = none ∧
    RespFrame.encode (.integer (-(2 ^ 63))) = none :=
  ⟨rfl, rfl⟩

/-- C7: the integer encoding does emit `:`, an explicit sign and the
absolute value for `123` and `-123` exactly as claimed, but at
`n = i64::MIN` the claim fails on the code: `self.abs()` overflows
(`abs` of `-2^63` is not representable), so that integer produces no byte
sequence at all instead of `:-9223372036854775808\r\n`. -/
theorem i64encode_sign_and_min_overflow :
    i64encode 123 = some (b ":+123\r\n") ∧
    i64encode (-123) = some (b ":-123\r\n") ∧
    i64encode (-(2 ^ 63)) = none :=
  ⟨by decide, by decide, rfl⟩

/-- C6 counterexample: constructing a SimpleString from text containing CR
and LF is not rejected — `From<&str>` wraps the text unchanged and encode
then emits it verbatim, so the only CRLF-containing input the claim could
hope to see rejected sails through both construction and encoding. -/
theorem simpleString_construction_accepts_crlf :
    simpleStringFromStr (b "a\r\nb") = RespFrame.simpleString (b "a\r\nb") ∧
    (b "a\r\nb").contains 13 = true ∧
    RespFrame.encode (simpleStringFromStr (b "a\r\nb")) = some (b "+a\r\nb\r\n") :=
  ⟨rfl, by decide, rfl⟩

/-- C6 amended: the `From` constructors of SimpleString and SimpleError
perform no validation at all — any text, CR/LF included, is stored
unchanged and encoded verbatim; rejection happens neither at construction
nor at encode time. -/
theorem simpleString_construction_never_validates (s : List ℕ) :
    simpleStringFromStr s = RespFrame.simpleString s ∧
    simpleErrorFromStr s = RespFrame.simpleError s ∧
    RespFrame.encode (simpleStringFromStr s) = some ([43] ++ s ++ CRLF) ∧
    RespFrame.encode (simpleErrorFromStr s) = some ([45] ++ s ++ CRLF) :=
  ⟨rfl, rfl, rfl, rfl⟩

/-- C4: the claim that Set elements are distinct and emitted in the frame
order fails on the code: `Set` wraps `BTreeMap<String, RespFrame>` and its
encoder walks the map in *auxiliary-key* order emitting only the mapped
values, so two distinct keys may carry the same element (encoded twice),
and the emission order follows the keys, not the frames (Integer 2 comes
out before Integer 1 below). -/
theorem set_encode_follows_auxiliary_keys :
    RespFrame.encode (.set [(b "a", .integer 1), (b "b", .integer 1)]) =
      some (b "~2\r\n:+1\r\n:+1\r\n") ∧
    RespFrame.encode (.set [(b "a", .integer 2), (b "b", .integer 1)]) =
      some (b "~2\r\n:+2\r\n:+1\r\n") :=
  ⟨by decide, by decide⟩

/-- C3 counterexample: the claim says `x = 0` encodes in plain decimal
(`,0\r\n`), but `0.abs() < 1e-8` sends zero down the exponential branch:
the code emits `,0e0\r\n`. -/
theorem f64encode_zero_takes_exponential_branch :
    f64encode ⟨false, 0, -1074⟩ = b ",0e0\r\n" ∧
    f64encode ⟨false, 0, -1074⟩ ≠ b ",0\r\n" :=
  ⟨by decide, by decide⟩

/-! ### Soundness of the raw-fraction arithmetic -/

theorem QR.toQ_ofInt (z : ℤ) : (QR.ofInt z).toQ = (z : ℚ) := by
  simp [QR.toQ, QR.ofInt]

theorem QR.blt_iff {x y : QR} (hx : 0 < x.d) (hy : 0 < y.d) :
    QR.blt x y = true ↔ x.toQ < y.toQ := by
  have hx2 : (0 : ℚ) < (x.d : ℚ) := by exact_mod_cast hx
  have hy2 : (0 : ℚ) < (y.d : ℚ) := by exact_mod_cast hy
  rw [QR.blt, decide_eq_true_eq, QR.toQ, QR.toQ, div_lt_div_iff hx2 hy2]
  constructor <;> intro h <;> exact_mod_cast h

theorem QR.ble_iff {x y : QR} (hx : 0 < x.d) (hy : 0 < y.d) :
    QR.ble x y = true ↔ x.toQ ≤ y.toQ := by
  have hx2 : (0 : ℚ) < (x.d : ℚ) := by exact_mod_cast hx
  have hy2 : (0 : ℚ) < (y.d : ℚ) := by exact_mod_cast hy
  rw [QR.ble, decide_eq_true_eq, QR.toQ, QR.toQ, div_le_div_iff hx2 hy2]
  constructor <;> intro h <;> exact_mod_cast h

theorem QR.add_toQ {x y : QR} (hx : 0 < x.d) (hy : 0 < y.d) :
    (QR.add x y).toQ = x.toQ + y.toQ := by
  have hx2 : ((x.d : ℚ)) ≠ 0 := by exact_mod_cast hx.ne'
  have hy2 : ((y.d : ℚ)) ≠ 0 := by exact_mod_cast hy.ne'
  simp only [QR.add, QR.toQ]
  push_cast
  field_simp
  try ring

theorem QR.sub_toQ {x y : QR} (hx : 0 < x.d) (hy : 0 < y.d) :
    (QR.sub x y).toQ = x.toQ - y.toQ := by
  have hx2 : ((x.d : ℚ)) ≠ 0 := by exact_mod_cast hx.ne'
  have hy2 : ((y.d : ℚ)) ≠ 0 := by exact_mod_cast hy.ne'
  simp only [QR.sub, QR.toQ]
  push_cast
  field_simp
  try ring

theorem QR.scale_toQ {x : QR} (bb : ℕ) (i : ℤ) (hb : 0 < bb) (hx : 0 < x.d) :
    (QR.scale bb i x).toQ = x.toQ * (bb : ℚ) ^ i := by
  have hb2 : ((bb : ℚ)) ≠ 0 := by exact_mod_cast hb.ne'
  have hx2 : ((x.d : ℚ)) ≠ 0 := by exact_mod_cast hx.ne'
  rcases le_or_lt 0 i with hi | hi
  · rw [QR.scale, if_pos hi]
    have hzp : ((bb : ℚ)) ^ i = ((bb : ℚ)) ^ (i.toNat : ℕ) := by
      rw [← zpow_natCast ((bb : ℚ)) i.toNat, Int.toNat_of_nonneg hi]
    simp only [QR.toQ, hzp]
    push_cast
    field_simp
  · rw [QR.scale, if_neg (not_le.mpr hi)]
    have hzp : ((bb : ℚ)) ^ i = (((bb : ℚ)) ^ ((-i).toNat : ℕ))⁻¹ := by
      rw [← zpow_natCast ((bb : ℚ)) (-i).toNat, Int.toNat_of_nonneg (by omega : (0:ℤ) ≤ -i),
        zpow_neg, inv_inv]
    have hp : (((bb : ℚ)) ^ ((-i).toNat : ℕ)) ≠ 0 := pow_ne_zero _ hb2
    simp only [QR.toQ, hzp]
    push_cast
    field_simp

theorem QR.ofInt_d_pos (z : ℤ) : 0 < (QR.ofInt z).d := one_pos

theorem QR.add_d_pos {x y : QR} (hx : 0 < x.d) (hy : 0 < y.d) : 0 < (QR.add x y).d :=
  Nat.mul_pos hx hy

theorem QR.sub_d_pos {x y : QR} (hx : 0 < x.d) (hy : 0 < y.d) : 0 < (QR.sub x y).d :=
  Nat.mul_pos hx hy

theorem QR.scale_d_pos {x : QR} (bb : ℕ) (i : ℤ) (hb : 0 < bb) (hx : 0 < x.d) :
    0 < (QR.scale bb i x).d := by
  rw [QR.scale]
  split
  · exact hx
  · exact Nat.mul_pos hx (Nat.pos_pow_of_pos _ hb)

theorem QR.round_eq {x : QR} (hx : 0 < x.d) : QR.round x = ⌊x.toQ + 1 / 2⌋ := by
  have hd : (0 : ℤ) ≤ 2 * (x.d : ℤ) := by positivity
  have hdq : ((x.d : ℚ)) ≠ 0 := by exact_mod_cast hx.ne'
  have hcast : (2 * (x.d : ℤ)) = (((2 * x.d : ℕ) : ℕ) : ℤ) := by push_cast; ring
  rw [QR.round, Int.fdiv_eq_ediv _ hd, hcast]
  have : x.toQ + 1 / 2 = ((2 * x.n + (x.d : ℤ) : ℤ) : ℚ) / (((2 * x.d : ℕ) : ℕ) : ℚ) := by
    rw [QR.toQ]
    push_cast
    field_simp
    ring
  rw [this, Rat.floor_intCast_div_natCast]

/-! ### The double-encoder branch over exact rationals -/

theorem F64.absQR_d_pos (x : F64) : 0 < x.absQR.d :=
  QR.scale_d_pos 2 x.e two_pos (QR.ofInt_d_pos _)

theorem F64.absQR_toQ (x : F64) : x.absQR.toQ = x.absVal := by
  rw [F64.absQR, QR.scale_toQ 2 x.e two_pos (QR.ofInt_d_pos _), QR.toQ_ofInt, F64.absVal]
  push_cast
  ring

theorem f64Lit1em8_toQ : f64Lit1em8.toQ = (6044629098073146 : ℚ) / 2 ^ 79 := by
  rw [f64Lit1em8, QR.toQ]
  norm_num

theorem f64Lit1em8_d_pos : 0 < f64Lit1em8.d := by
  rw [f64Lit1em8]
  positivity

theorem f64encode_cond (x : F64) :
    (QR.blt (.ofInt (10 ^ 8)) x.absQR || QR.blt x.absQR f64Lit1em8) = true ↔
      ((10 : ℚ) ^ 8 < x.absVal ∨ x.absVal < (6044629098073146 : ℚ) / 2 ^ 79) := by
  rw [Bool.or_eq_true,
    QR.blt_iff (QR.ofInt_d_pos _) x.absQR_d_pos,
    QR.blt_iff x.absQR_d_pos f64Lit1em8_d_pos,
    QR.toQ_ofInt, F64.absQR_toQ, f64Lit1em8_toQ]
  norm_num

/-- C3 amended: the exponential/plain boundary of the double encoder is
`|x| > 1e8 || |x| < 1e-8` with *strict* comparisons against the exact
values of those two `f64` constants (`1e8 = 10^8` exactly; `1e-8` is the
double `6044629098073146 * 2^-79`, slightly above `10^-8`): plain decimal
is used for `1e-8 ≤ |x| ≤ 1e8` — the boundary `|x| = 1e8` itself included —
and the exponential form everywhere else, which catches `x = 0`.  In
particular `123.0` encodes as `,123\r\n`, `1.23456e8` as `,1.23456e8\r\n`,
`1e8` as plain `,100000000\r\n`, and `0.0` as `,0e0\r\n`. -/
theorem f64encode_branch_boundary :
    (∀ x : F64,
      f64encode x =
        if (10 : ℚ) ^ 8 < x.absVal ∨ x.absVal < (6044629098073146 : ℚ) / 2 ^ 79
        then [44] ++ fmtExp x ++ CRLF
        else [44] ++ fmtDisplay x ++ CRLF) ∧
    f64encode ⟨false, 123 * 2 ^ 46, -46⟩ = b ",123\r\n" ∧
    f64encode ⟨false, 123456000 * 2 ^ 26, -26⟩ = b ",1.23456e8\r\n" ∧
    f64encode ⟨false, 100000000 * 2 ^ 26, -26⟩ = b ",100000000\r\n" ∧
    f64encode ⟨false, 0, -1074⟩ = b ",0e0\r\n" := by
  refine ⟨fun x => ?_, by decide, by decide, by decide, by decide⟩
  by_cases h : ((10 : ℚ) ^ 8 < x.absVal ∨ x.absVal < (6044629098073146 : ℚ) / 2 ^ 79)
  · rw [f64encode, if_pos ((f64encode_cond x).mpr h), if_pos h]
  · rw [f64encode, if_neg (fun hc => h ((f64encode_cond x).mp hc)), if_neg h]

/-! ### Tag bytes and CRLF suffix (C10) -/

theorem RespFrame.weight_pos (v : RespFrame) : 1 ≤ v.weight := by
  cases v <;> simp [RespFrame.weight]

theorem weightFrames_pos (xs : List RespFrame) : 1 ≤ weightFrames xs := by
  cases xs <;> simp [weightFrames] <;> omega

theorem weightEntries_pos (es : List (List ℕ × RespFrame)) : 1 ≤ weightEntries es := by
  cases es with
  | nil => simp [weightEntries]
  | cons p rest =>
    rcases p with ⟨k, v⟩
    simp [weightEntries]
    omega

/-- Combined induction for the tag-byte/CRLF invariant: a produced frame
encoding is nonempty, starts with the variant tag and ends with CRLF, and
a produced child-list body is empty or ends with CRLF. -/
theorem encodeShapeAux : ∀ n : ℕ,
    (∀ v : RespFrame, v.weight ≤ n → ∀ out, RespFrame.encode v = some out →
      out ≠ [] ∧ out.head? = some (tagByte v) ∧ ∃ pre, out = pre ++ CRLF) ∧
    (∀ xs : List RespFrame, weightFrames xs ≤ n → ∀ body, encodeFrames xs = some body →
      body = [] ∨ ∃ pre, body = pre ++ CRLF) ∧
    (∀ es, weightEntries es ≤ n → ∀ body, encodeEntries es = some body →
      body = [] ∨ ∃ pre, body = pre ++ CRLF) ∧
    (∀ es, weightEntries es ≤ n → ∀ body, encodeValues es = some body →
      body = [] ∨ ∃ pre, body = pre ++ CRLF) := by
  intro n
  induction n with
  | zero =>
    refine ⟨fun v hw => absurd hw (by have := v.weight_pos; omega),
      fun xs hw => absurd hw (by have := weightFrames_pos xs; omega),
      fun es hw => absurd hw (by have := weightEntries_pos es; omega),
      fun es hw => absurd hw (by have := weightEntries_pos es; omega)⟩
  | succ n ih =>
    obtain ⟨ihV, ihF, ihE, ihW⟩ := ih
    refine ⟨?_, ?_, ?_, ?_⟩
    · intro v hw out henc
      cases v with
      | simpleString s =>
        simp only [RespFrame.encode, Option.some.injEq] at henc
        subst henc
        refine ⟨by simp [simpleStringEncode], by simp [simpleStringEncode, tagByte],
          [43] ++ s, by simp [simpleStringEncode]⟩
      | simpleError s =>
        simp only [RespFrame.encode, Option.some.injEq] at henc
        subst henc
        refine ⟨by simp [simpleErrorEncode], by simp [simpleErrorEncode, tagByte],
          [45] ++ s, by simp [simpleErrorEncode]⟩
      | integer z =>
        simp only [RespFrame.encode, i64encode] at henc
        split at henc
        · exact absurd henc (by simp)
        · simp only [Option.some.injEq] at henc
          subst henc
          refine ⟨by simp, by simp [tagByte], [58] ++ (if z < 0 then [45] else [43]) ++
            natToDec z.natAbs, by simp⟩
      | bulkString p =>
        simp only [RespFrame.encode, bulkStringEncode] at henc
        split at henc
        · simp only [Option.some.injEq] at henc
          subst henc
          refine ⟨by simp, by simp [tagByte],
            [36] ++ natToDec p.length ++ CRLF ++ p, by simp⟩
        · exact absurd henc (by simp)
      | array xs =>
        simp only [RespFrame.encode] at henc
        cases hb : encodeFrames xs with
        | none => rw [hb] at henc; exact absurd henc (by simp)
        | some body =>
          rw [hb] at henc
          simp only [Option.some.injEq] at henc
          subst henc
          have hxs : weightFrames xs ≤ n := by
            simp only [RespFrame.weight] at hw; omega
          refine ⟨by simp, by simp [tagByte], ?_⟩
          rcases ihF xs hxs body hb with hnil | ⟨pre, hpre⟩
          · subst hnil
            exact ⟨[42] ++ natToDec xs.length, by simp⟩
          · subst hpre
            exact ⟨[42] ++ natToDec xs.length ++ CRLF ++ pre, by simp⟩
      | null =>
        simp only [RespFrame.encode, Option.some.injEq] at henc
        subst henc
        exact ⟨by simp, by simp [tagByte], [95], by simp [CRLF]⟩
      | nullArray =>
        simp only [RespFrame.encode, Option.some.injEq] at henc
        subst henc
        exact ⟨by simp, by simp [tagByte], [42, 45, 49], by simp [CRLF]⟩
      | nullBulkString =>
        simp only [RespFrame.encode, Option.some.injEq] at henc
        subst henc
        exact ⟨by simp, by simp [tagByte], [36, 45, 49], by simp [CRLF]⟩
      | boolean bv =>
        simp only [RespFrame.encode, boolEncode, Option.some.injEq] at henc
        subst henc
        refine ⟨by simp, by cases bv <;> simp [tagByte],
          [35] ++ (if bv then [116] else [102]), by simp⟩
      | double x =>
        simp only [RespFrame.encode, f64encode, Option.some.injEq] at henc
        split at henc <;> subst henc
        · exact ⟨by simp, by simp [tagByte], [44] ++ fmtExp x, by simp⟩
        · exact ⟨by simp, by simp [tagByte], [44] ++ fmtDisplay x, by simp⟩
      | bulkError s =>
        simp only [RespFrame.encode, bulkErrorEncode, Option.some.injEq] at henc
        subst henc
        exact ⟨by simp, by simp [tagByte], [33] ++ natToDec s.length ++ CRLF ++ s, by simp⟩
      | map es =>
        simp only [RespFrame.encode] at henc
        cases hb : encodeEntries es with
        | none => rw [hb] at henc; exact absurd henc (by simp)
        | some body =>
          rw [hb] at henc
          simp only [Option.some.injEq] at henc
          subst henc
          have hes : weightEntries es ≤ n := by
            simp only [RespFrame.weight] at hw; omega
          refine ⟨by simp, by simp [tagByte], ?_⟩
          rcases ihE es hes body hb with hnil | ⟨pre, hpre⟩
          · subst hnil
            exact ⟨[37] ++ natToDec es.length, by simp⟩
          · subst hpre
            exact ⟨[37] ++ natToDec es.length ++ CRLF ++ pre, by simp⟩
      | set es =>
        simp only [RespFrame.encode] at henc
        cases hb : encodeValues es with
        | none => rw [hb] at henc; exact absurd henc (by simp)
        | some body =>
          rw [hb] at henc
          simp only [Option.some.injEq] at henc
          subst henc
          have hes : weightEntries es ≤ n := by
            simp only [RespFrame.weight] at hw; omega
          refine ⟨by simp, by simp [tagByte], ?_⟩
          rcases ihW es hes body hb with hnil | ⟨pre, hpre⟩
          · subst hnil
            exact ⟨[126] ++ natToDec es.length, by simp⟩
          · subst hpre
            exact ⟨[126] ++ natToDec es.length ++ CRLF ++ pre, by simp⟩
    · intro xs hw body henc
      cases xs with
      | nil =>
        simp only [encodeFrames, Option.some.injEq] at henc
        exact Or.inl henc.symm
      | cons x rest =>
        simp only [encodeFrames] at henc
        cases hx : RespFrame.encode x with
        | none => rw [hx] at henc; exact absurd henc (by simp)
        | some ex =>
          cases hrest : encodeFrames rest with
          | none => rw [hx, hrest] at henc; exact absurd henc (by simp)
          | some erest =>
            rw [hx, hrest] at henc
            simp only [Option.some.injEq] at henc
            subst henc
            have hwx : x.weight ≤ n := by
              simp only [weightFrames] at hw; omega
            have hwr : weightFrames rest ≤ n := by
              simp only [weightFrames] at hw
              have := x.weight_pos; omega
            obtain ⟨-, -, pre, hpre⟩ := ihV x hwx ex hx
            rcases ihF rest hwr erest hrest with hnil | ⟨pre2, hpre2⟩
            · subst hnil hpre
              exact Or.inr ⟨pre, by simp⟩
            · subst hpre2
              exact Or.inr ⟨ex ++ pre2, by simp⟩
    · intro es hw body henc
      cases es with
      | nil =>
        simp only [encodeEntries, Option.some.injEq] at henc
        exact Or.inl henc.symm
      | cons p rest =>
        rcases p with ⟨k, v⟩
        simp only [encodeEntries] at henc
        cases hv : RespFrame.encode v with
        | none => rw [hv] at henc; exact absurd henc (by simp)
        | some ev =>
          cases hrest : encodeEntries rest with
          | none => rw [hv, hrest] at henc; exact absurd henc (by simp)
          | some erest =>
            rw [hv, hrest] at henc
            simp only [Option.some.injEq] at henc
            subst henc
            have hwv : v.weight ≤ n := by
              simp only [weightEntries] at hw; omega
            have hwr : weightEntries rest ≤ n := by
              simp only [weightEntries] at hw
              have := v.weight_pos; omega
            obtain ⟨-, -, pre, hpre⟩ := ihV v hwv ev hv
            rcases ihE rest hwr erest hrest with hnil | ⟨pre2, hpre2⟩
            · subst hnil hpre
              exact Or.inr ⟨simpleStringEncode k ++ pre, by simp⟩
            · subst hpre2
              exact Or.inr ⟨simpleStringEncode k ++ ev ++ pre2, by simp⟩
    · intro es hw body henc
      cases es with
      | nil =>
        simp only [encodeValues, Option.some.injEq] at henc
        exact Or.inl henc.symm
      | cons p rest =>
        rcases p with ⟨k, v⟩
        simp only [encodeValues] at henc
        cases hv : RespFrame.encode v with
        | none => rw [hv] at henc; exact absurd henc (by simp)
        | some ev =>
          cases hrest : encodeValues rest with
          | none => rw [hv, hrest] at henc; exact absurd henc (by simp)
          | some erest =>
            rw [hv, hrest] at henc
            simp only [Option.some.injEq] at henc
            subst henc
            have hwv : v.weight ≤ n := by
              simp only [weightEntries] at hw; omega
            have hwr : weightEntries rest ≤ n := by
              simp only [weightEntries] at hw
              have := v.weight_pos; omega
            obtain ⟨-, -, pre, hpre⟩ := ihV v hwv ev hv
            rcases ihW rest hwr erest hrest with hnil | ⟨pre2, hpre2⟩
            · subst hnil hpre
              exact Or.inr ⟨pre, by simp⟩
            · subst hpre2
              exact Or.inr ⟨ev ++ pre2, by simp⟩

/-- C10: whenever encode returns a byte sequence for a frame, that sequence
is nonempty, its first byte is the tag byte determined by the variant alone
(`+ - : $ ! * _ # , % ~`, with NullBulkString under `$` and NullArray under
`*`), and its last two bytes are CRLF — recursively encoded aggregates
included. -/
theorem encode_starts_with_tag_ends_with_crlf (v : RespFrame) (out : List ℕ)
    (henc : RespFrame.encode v = some out) :
    out ≠ [] ∧ out.head? = some (tagByte v) ∧ ∃ pre, out = pre ++ CRLF :=
  (encodeShapeAux v.weight).1 v le_rfl out henc

/-- C10 witness: the invariant instantiated on the concrete nested frame
`Array [Integer 5]`. -/
theorem encode_starts_with_tag_ends_with_crlf_witness :
    b "*1\r\n:+5\r\n" ≠ [] ∧
    (b "*1\r\n:+5\r\n").head? = some (tagByte (.array [.integer 5])) ∧
    ∃ pre, b "*1\r\n:+5\r\n" = pre ++ CRLF :=
  encode_starts_with_tag_ends_with_crlf (.array [.integer 5]) (b "*1\r\n:+5\r\n") (by decide)

/-! ### Decimal digits: printing and parsing round-trip -/

/-- Value of a least-significant-first digit list. -/
def digitsVal : List ℕ → ℕ
  | [] => 0
  | d :: ds => d + 10 * digitsVal ds

theorem natDigitsRevAux_val : ∀ (fuel n : ℕ), n ≤ fuel →
    digitsVal (natDigitsRevAux fuel n) = n := by
  intro fuel
  induction fuel with
  | zero =>
    intro n hn
    interval_cases n
    simp [natDigitsRevAux, digitsVal]
  | succ fuel ih =>
    intro n hn
    match n with
    | 0 => simp [natDigitsRevAux, digitsVal]
    | m + 1 =>
      have hdiv : (m + 1) / 10 ≤ fuel := by
        have := Nat.div_le_self (m + 1) 10
        have h2 : (m + 1) / 10 < m + 1 := Nat.div_lt_self (Nat.succ_pos m) (by norm_num)
        omega
      simp only [natDigitsRevAux, digitsVal, ih _ hdiv]
      omega

theorem natDigitsRevAux_lt_ten : ∀ (fuel n : ℕ), ∀ d ∈ natDigitsRevAux fuel n, d < 10 := by
  intro fuel
  induction fuel with
  | zero => intro n d hd; simp [natDigitsRevAux] at hd
  | succ fuel ih =>
    intro n d hd
    match n with
    | 0 => simp [natDigitsRevAux] at hd
    | m + 1 =>
      simp only [natDigitsRevAux, List.mem_cons] at hd
      rcases hd with h | h
      · subst h; exact Nat.mod_lt _ (by norm_num)
      · exact ih _ d h

theorem natDigitsRevAux_ne_nil (fuel n : ℕ) (hn : 0 < n) (hf : 0 < fuel) :
    natDigitsRevAux fuel n ≠ [] := by
  match fuel, n with
  | f + 1, m + 1 => simp [natDigitsRevAux]

theorem parseNatAux_digits : ∀ (ds : List ℕ) (acc : ℕ), (∀ d ∈ ds, d < 10) →
    parseNatAux (ds.map (fun d => d + 48)) acc =
      some (ds.foldl (fun a d => a * 10 + d) acc) := by
  intro ds
  induction ds with
  | nil => intro acc _; simp [parseNatAux]
  | cons d ds ih =>
    intro acc hd
    have hd0 : d < 10 := hd d (by simp)
    simp only [List.map_cons, parseNatAux, List.foldl_cons]
    rw [if_pos (by omega)]
    rw [show d + 48 - 48 = d from by omega]
    exact ih _ (fun x hx => hd x (by simp [hx]))

theorem foldl_reverse_digitsVal : ∀ (ds : List ℕ) (acc : ℕ),
    ds.reverse.foldl (fun a d => a * 10 + d) acc = acc * 10 ^ ds.length + digitsVal ds := by
  intro ds
  induction ds with
  | nil => intro acc; simp [digitsVal]
  | cons d ds ih =>
    intro acc
    simp only [List.reverse_cons, List.foldl_append, List.foldl_cons, List.foldl_nil, ih,
      digitsVal, List.length_cons]
    ring

/-- Printing a natural number in decimal and parsing the digits back is the
identity. -/
theorem parseNat_natToDec (n : ℕ) : parseNat (natToDec n) = some n := by
  rcases Nat.eq_zero_or_pos n with h0 | hpos
  · subst h0
    rfl
  · rw [natToDec, if_neg hpos.ne']
    have hne : natDigitsRevAux n n ≠ [] := natDigitsRevAux_ne_nil n n hpos hpos
    have hlt : ∀ d ∈ (natDigitsRevAux n n).reverse, d < 10 := fun d hd =>
      natDigitsRevAux_lt_ten n n d (List.mem_reverse.mp hd)
    have key : parseNatAux ((natDigitsRevAux n n).reverse.map (fun d => d + 48)) 0 =
        some n := by
      rw [parseNatAux_digits _ 0 hlt, foldl_reverse_digitsVal]
      simp [natDigitsRevAux_val n n le_rfl]
    obtain ⟨c, cs, hl⟩ := List.exists_cons_of_ne_nil
      (show ((natDigitsRevAux n n).reverse.map (fun d => d + 48)) ≠ [] by simp [hne])
    rw [hl] at key ⊢
    simpa [parseNat] using key

/-- Decimal digit bytes never contain CR or LF. -/
theorem natToDec_no_cr_lf (n : ℕ) : ∀ c ∈ natToDec n, 48 ≤ c ∧ c ≤ 57 := by
  intro c hc
  rw [natToDec] at hc
  split at hc
  · simp at hc; omega
  · simp only [List.mem_map, List.mem_reverse] at hc
    obtain ⟨d, hd, hdc⟩ := hc
    have := natDigitsRevAux_lt_ten n n d hd
    omega

/-- Scanning a line that contains no CR finds exactly the appended CRLF. -/
theorem splitLine_append (line rest : List ℕ) (hcr : ∀ c ∈ line, c ≠ 13) :
    splitLine (line ++ 13 :: 10 :: rest) = some (line, rest) := by
  induction line with
  | nil => simp [splitLine]
  | cons c cs ih =>
    have hc : c ≠ 13 := hcr c (by simp)
    have ihh := ih (fun x hx => hcr x (by simp [hx]))
    obtain ⟨y, rest2, hy⟩ := List.exists_cons_of_ne_nil
      (show cs ++ 13 :: 10 :: rest ≠ [] by simp)
    rw [List.cons_append, hy]
    simp only [splitLine]
    rw [if_neg (by simp [hc]), ← hy, ihh]

/-- C8: the decimal run between the tag byte and the first CRLF of a
produced BulkString encoding parses back to exactly the payload's byte
count, and the payload bytes follow it verbatim; the same holds for every
BulkError encoding, whose `String` payload is measured in UTF-8 bytes
(`String::len`), not characters. -/
theorem bulk_length_prefix_is_payload_byte_length :
    (∀ p out, bulkStringEncode p = some out →
      splitLine (out.drop 1) = some (natToDec p.length, p ++ CRLF) ∧
      parseNat (natToDec p.length) = some p.length) ∧
    (∀ s, splitLine ((bulkErrorEncode s).drop 1) = some (natToDec s.length, s ++ CRLF) ∧
      parseNat (natToDec s.length) = some s.length) := by
  constructor
  · intro p out henc
    rw [bulkStringEncode] at henc
    split at henc
    · simp only [Option.some.injEq] at henc
      subst henc
      refine ⟨?_, parseNat_natToDec _⟩
      have : ([36] ++ natToDec p.length ++ CRLF ++ p ++ CRLF).drop 1 =
          natToDec p.length ++ (13 :: 10 :: (p ++ CRLF)) := by
        simp [CRLF]
      rw [this, splitLine_append _ _ (fun c hc => by have := natToDec_no_cr_lf p.length c hc; omega)]
    · exact absurd henc (by simp)
  · intro s
    refine ⟨?_, parseNat_natToDec _⟩
    have : ((bulkErrorEncode s)).drop 1 = natToDec s.length ++ (13 :: 10 :: (s ++ CRLF)) := by
      simp [bulkErrorEncode, CRLF]
    rw [this, splitLine_append _ _ (fun c hc => by have := natToDec_no_cr_lf s.length c hc; omega)]

/-- C8 witness: for the two-byte UTF-8 payload `[0xC3, 0xA9]` (the letter
e-acute, one character), the emitted length prefix reads back as 2 —
the byte count, not the character count. -/
theorem bulk_length_prefix_witness :
    (splitLine ((b "$2\r\n" ++ [195, 169] ++ CRLF).drop 1) =
      some (natToDec ([195, 169] : List ℕ).length, [195, 169] ++ CRLF) ∧
      parseNat (natToDec ([195, 169] : List ℕ).length) = some ([195, 169] : List ℕ).length) ∧
    (splitLine ((bulkErrorEncode [195, 169]).drop 1) =
      some (natToDec ([195, 169] : List ℕ).length, [195, 169] ++ CRLF) ∧
      parseNat (natToDec ([195, 169] : List ℕ).length) = some ([195, 169] : List ℕ).length) :=
  ⟨bulk_length_prefix_is_payload_byte_length.1 [195, 169] (b "$2\r\n" ++ [195, 169] ++ CRLF)
      (by decide),
    bulk_length_prefix_is_payload_byte_length.2 [195, 169]⟩

/-! ### The byte-lexicographic key order -/

theorem lexLt_irrefl : ∀ l : List ℕ, lexLt l l = false := by
  intro l
  induction l with
  | nil => rfl
  | cons c cs ih => simp [lexLt, ih]

theorem lexLt_ne {a c : List ℕ} (h : lexLt a c = true) : a ≠ c := by
  intro hac
  subst hac
  rw [lexLt_irrefl] at h
  exact absurd h (by simp)

theorem lexLt_trans : ∀ a c e : List ℕ, lexLt a c = true → lexLt c e = true →
    lexLt a e = true := by
  intro a
  induction a with
  | nil =>
    intro c e h1 h2
    cases c with
    | nil => exact absurd h1 (by simp [lexLt])
    | cons y ys =>
      cases e with
      | nil => exact absurd h2 (by simp [lexLt])
      | cons z zs => simp [lexLt]
  | cons x xs ih =>
    intro c e h1 h2
    cases c with
    | nil => exact absurd h1 (by simp [lexLt])
    | cons y ys =>
      cases e with
      | nil => exact absurd h2 (by simp [lexLt])
      | cons z zs =>
        simp only [lexLt] at h1 h2 ⊢
        split at h1
        · rename_i hxy
          split at h2
          · rename_i hyz
            rw [if_pos (by omega)]
          · split at h2
            · rename_i hyz
              subst hyz
              rw [if_pos hxy]
            · exact absurd h2 (by simp)
        · split at h1
          · rename_i hxy
            subst hxy
            split at h2
            · rename_i hyz
              rw [if_pos hyz]
            · split at h2
              · rename_i hyz
                subst hyz
                rw [if_neg (by omega), if_pos rfl]
                exact ih ys zs h1 h2
              · exact absurd h2 (by simp)
          · exact absurd h1 (by simp)

theorem lexLt_total : ∀ a c : List ℕ, a ≠ c →
    lexLt a c = true ∨ lexLt c a = true := by
  intro a
  induction a with
  | nil =>
    intro c hne
    cases c with
    | nil => exact absurd rfl hne
    | cons y ys => left; simp [lexLt]
  | cons x xs ih =>
    intro c hne
    cases c with
    | nil => right; simp [lexLt]
    | cons y ys =>
      rcases Nat.lt_trichotomy x y with h | h | h
      · left; simp [lexLt, h]
      · subst h
        have hys : xs ≠ ys := by
          intro he
          exact hne (by rw [he])
        rcases ih ys hys with h2 | h2
        · left; simp [lexLt, h2]
        · right; simp [lexLt, h2]
      · right
        simp only [lexLt]
        rw [if_pos h]

/-- The entry order used by the sorted-map representation. -/
def entryLt (p q : List ℕ × RespFrame) : Prop := lexLt p.1 q.1 = true

theorem keysSorted_iff_pairwise : ∀ l : List (List ℕ × RespFrame),
    keysSorted l = true ↔ l.Pairwise entryLt := by
  intro l
  match l with
  | [] => simp [keysSorted]
  | [p] => simp [keysSorted]
  | p :: q :: rest =>
    rw [keysSorted, Bool.and_eq_true, keysSorted_iff_pairwise (q :: rest)]
    constructor
    · rintro ⟨h1, h2⟩
      refine List.Pairwise.cons ?_ h2
      intro x hx
      rcases List.mem_cons.mp hx with hxq | hxr
      · subst hxq; exact h1
      · rcases h2 with - | ⟨hq, -⟩
        · exact lexLt_trans _ _ _ h1 (by exact hq x hxr)
    · intro hp
      rcases hp with - | ⟨hq, h2⟩
      exact ⟨hq q (by simp), h2⟩

/-! ### Map determinism (C5) -/

theorem insertSorted_pairwise (k : List ℕ) (v : RespFrame) :
    ∀ l : List (List ℕ × RespFrame), l.Pairwise entryLt →
      (insertSorted k v l).Pairwise entryLt := by
  intro l
  induction l with
  | nil => intro _; simp [insertSorted, entryLt]
  | cons p rest ih =>
    rcases p with ⟨k2, v2⟩
    intro hs
    rcases hs with - | ⟨hk2, hrest⟩
    rw [insertSorted]
    split
    · rename_i hlt
      refine List.Pairwise.cons ?_ (List.Pairwise.cons hk2 hrest)
      intro x hx
      rcases List.mem_cons.mp hx with hxq | hxr
      · subst hxq; exact hlt
      · exact lexLt_trans _ _ _ hlt (hk2 x hxr)
    · split
      · rename_i hne heq
        subst heq
        exact List.Pairwise.cons hk2 hrest
      · rename_i hne hneq
        have hlt2 : lexLt k2 k = true := by
          rcases lexLt_total k2 k (fun hc => hneq hc.symm) with h | h
          · exact h
          · exact absurd h (by simp [hne])
        refine List.Pairwise.cons ?_ (ih hrest)
        intro x hx
        -- x is either the inserted (k, v) or an old member of rest
        have hmem : x = (k, v) ∨ x ∈ rest := by
          clear ih hrest hk2
          induction rest with
          | nil =>
            simp only [insertSorted, List.mem_singleton] at hx
            exact Or.inl hx
          | cons q rest2 ih2 =>
            rcases q with ⟨k3, v3⟩
            rw [insertSorted] at hx
            split at hx
            · rcases List.mem_cons.mp hx with h | h
              · exact Or.inl h
              · exact Or.inr h
            · split at hx
              · rcases List.mem_cons.mp hx with h | h
                · exact Or.inl h
                · exact Or.inr (List.mem_cons_of_mem _ h)
              · rcases List.mem_cons.mp hx with h | h
                · exact Or.inr (h ▸ List.mem_cons_self _ _)
                · rcases ih2 h with h2 | h2
                  · exact Or.inl h2
                  · exact Or.inr (List.mem_cons_of_mem _ h2)
        rcases hmem with hxk | hxr
        · subst hxk; exact hlt2
        · exact hk2 x hxr

theorem mem_insertSorted (k : List ℕ) (v : RespFrame) :
    ∀ (l : List (List ℕ × RespFrame)) (p : List ℕ × RespFrame), l.Pairwise entryLt →
      (p ∈ insertSorted k v l ↔ p = (k, v) ∨ (p ∈ l ∧ p.1 ≠ k)) := by
  intro l
  induction l with
  | nil => intro p _; simp [insertSorted]
  | cons q rest ih =>
    rcases q with ⟨k2, v2⟩
    intro p hs
    rcases hs with - | ⟨hk2, hrest⟩
    have hn2 : ∀ x ∈ rest, lexLt k2 x.1 = true := hk2
    rw [insertSorted]
    split
    · rename_i hlt
      constructor
      · intro hp
        rcases List.mem_cons.mp hp with h | hp2
        · exact Or.inl h
        · refine Or.inr ⟨hp2, ?_⟩
          rcases List.mem_cons.mp hp2 with h2 | h2
          · subst h2
            exact fun hc => absurd (hc ▸ hlt) (by simp [lexLt_irrefl])
          · have := hn2 p h2
            intro hc
            have h3 := lexLt_trans _ _ _ hlt this
            exact absurd (hc ▸ h3) (by simp [lexLt_irrefl])
      · rintro (h | ⟨hp2, _⟩)
        · exact h ▸ List.mem_cons_self _ _
        · exact List.mem_cons_of_mem _ hp2
    · split
      · rename_i hne heq
        subst heq
        constructor
        · intro hp
          rcases List.mem_cons.mp hp with h | hp2
          · exact Or.inl h
          · refine Or.inr ⟨List.mem_cons_of_mem _ hp2, ?_⟩
            intro hc
            have := hn2 p hp2
            exact absurd (hc ▸ this) (by simp [lexLt_irrefl])
        · rintro (h | ⟨hp2, hp1⟩)
          · exact h ▸ List.mem_cons_self _ _
          · rcases List.mem_cons.mp hp2 with h2 | h2
            · exact absurd (congrArg Prod.fst h2) hp1
            · exact List.mem_cons_of_mem _ h2
      · rename_i hne hneq
        constructor
        · intro hp
          rcases List.mem_cons.mp hp with h | hp2
          · subst h
            exact Or.inr ⟨List.mem_cons_self _ _, fun hc => hneq hc.symm⟩
          · rcases (ih p hrest).mp hp2 with h2 | ⟨h2, h3⟩
            · exact Or.inl h2
            · exact Or.inr ⟨List.mem_cons_of_mem _ h2, h3⟩
        · rintro (h | ⟨hp2, hp1⟩)
          · exact List.mem_cons_of_mem _ ((ih p hrest).mpr (Or.inl h))
          · rcases List.mem_cons.mp hp2 with h2 | h2
            · exact h2 ▸ List.mem_cons_self _ _
            · exact List.mem_cons_of_mem _ ((ih p hrest).mpr (Or.inr ⟨h2, hp1⟩))

theorem foldl_insertSorted_pairwise :
    ∀ (l acc : List (List ℕ × RespFrame)), acc.Pairwise entryLt →
      (l.foldl (fun a p => insertSorted p.1 p.2 a) acc).Pairwise entryLt := by
  intro l
  induction l with
  | nil => intro acc h; exact h
  | cons p rest ih =>
    intro acc h
    exact ih _ (insertSorted_pairwise p.1 p.2 acc h)

theorem mapFromList_pairwise (l : List (List ℕ × RespFrame)) :
    (mapFromList l).Pairwise entryLt :=
  foldl_insertSorted_pairwise l [] (by simp)

theorem mem_foldl_insertSorted :
    ∀ (l acc : List (List ℕ × RespFrame)) (p : List ℕ × RespFrame),
      (l.map Prod.fst).Nodup → acc.Pairwise entryLt →
      (p ∈ l.foldl (fun a q => insertSorted q.1 q.2 a) acc ↔
        p ∈ l ∨ (p ∈ acc ∧ p.1 ∉ l.map Prod.fst)) := by
  intro l
  induction l with
  | nil => intro acc p _ _; simp
  | cons q rest ih =>
    rcases q with ⟨k, v⟩
    intro acc p hnd hacc
    simp only [List.map_cons, List.nodup_cons] at hnd
    obtain ⟨hk, hnd2⟩ := hnd
    rw [List.foldl_cons, ih _ p hnd2 (insertSorted_pairwise _ _ _ hacc),
      mem_insertSorted _ _ _ p hacc]
    simp only [List.mem_cons, List.map_cons]
    constructor
    · rintro (h | ⟨(h1 | ⟨h1, h2⟩), h3⟩)
      · exact Or.inl (Or.inr h)
      · exact Or.inl (Or.inl h1)
      · refine Or.inr ⟨h1, ?_⟩
        rintro (hc | hc)
        · exact h2 hc
        · exact h3 hc
    · rintro (h1 | ⟨h1, h2⟩)
      · rcases h1 with h1 | h1
        · refine Or.inr ⟨Or.inl h1, ?_⟩
          subst h1
          exact hk
        · exact Or.inl h1
      · push_neg at h2
        exact Or.inr ⟨Or.inr ⟨h1, h2.1⟩, h2.2⟩

instance : IsAntisymm (List ℕ × RespFrame) entryLt where
  antisymm a c h1 h2 := by
    have := lexLt_ne h1
    rcases lexLt_total a.1 c.1 this with h | h
    · exact absurd (lexLt_trans _ _ _ h1 h2) (by simp [lexLt_irrefl])
    · exact absurd (lexLt_trans _ _ _ h1 h2) (by simp [lexLt_irrefl])

theorem pairwise_entryLt_nodup {l : List (List ℕ × RespFrame)}
    (h : l.Pairwise entryLt) : l.Nodup :=
  h.imp (fun hpq => lexLt_ne hpq ∘ congrArg Prod.fst)

theorem mapFromList_perm_eq (l1 l2 : List (List ℕ × RespFrame))
    (hperm : l1.Perm l2) (hnd : (l1.map Prod.fst).Nodup) :
    mapFromList l1 = mapFromList l2 := by
  have hnd2 : (l2.map Prod.fst).Nodup := (hperm.map Prod.fst).nodup_iff.mp hnd
  have hs1 := mapFromList_pairwise l1
  have hs2 := mapFromList_pairwise l2
  have hmem : ∀ p, p ∈ mapFromList l1 ↔ p ∈ mapFromList l2 := by
    intro p
    rw [mapFromList, mapFromList, mem_foldl_insertSorted l1 [] p hnd (by simp),
      mem_foldl_insertSorted l2 [] p hnd2 (by simp)]
    simp only [List.not_mem_nil, false_and, or_false]
    exact ⟨fun h => hperm.mem_iff.mp h, fun h => hperm.mem_iff.mpr h⟩
  exact List.eq_of_perm_of_sorted
    ((List.perm_ext_iff_of_nodup (pairwise_entryLt_nodup hs1)
      (pairwise_entryLt_nodup hs2)).mpr hmem) hs1 hs2

/-- C5: the Map encoder walks the `BTreeMap` in sorted key order — the map
built by any insertion sequence is key-sorted — emitting `%`, the entry
count and CRLF, then for each entry the key as a SimpleString frame
(`+key\r\n`) followed by the value's encoding; and two insertion sequences
holding the same bindings (in any order, keys distinct) build identical
maps, so their encodings are byte-for-byte equal. -/
theorem map_encode_insertion_order_independent :
    (∀ l : List (List ℕ × RespFrame), keysSorted (mapFromList l) = true) ∧
    (∀ entries body, encodeEntries entries = some body →
      RespFrame.encode (.map entries) =
        some ([37] ++ natToDec entries.length ++ CRLF ++ body)) ∧
    (∀ k v rest evv er, RespFrame.encode v = some evv → encodeEntries rest = some er →
      encodeEntries ((k, v) :: rest) = some (([43] ++ k ++ CRLF) ++ evv ++ er)) ∧
    (∀ l1 l2 : List (List ℕ × RespFrame), l1.Perm l2 → (l1.map Prod.fst).Nodup →
      mapFromList l1 = mapFromList l2 ∧
      RespFrame.encode (.map (mapFromList l1)) =
        RespFrame.encode (.map (mapFromList l2))) := by
  refine ⟨?_, ?_, ?_, ?_⟩
  · intro l
    exact (keysSorted_iff_pairwise _).mpr (mapFromList_pairwise l)
  · intro entries body henc
    simp only [RespFrame.encode, henc]
  · intro k v rest evv er hv hr
    simp only [encodeEntries, hv, hr, simpleStringEncode]
  · intro l1 l2 hperm hnd
    have := mapFromList_perm_eq l1 l2 hperm hnd
    exact ⟨this, by rw [this]⟩

/-- C5 witness: inserting the two bindings `key2 ↦ Integer 2`,
`key1 ↦ Integer 1` in either order builds the same sorted map, hence the
same encoding. -/
theorem map_encode_insertion_order_independent_witness :
    mapFromList [(b "key2", .integer 2), (b "key1", .integer 1)] =
      mapFromList [(b "key1", .integer 1), (b "key2", .integer 2)] ∧
    RespFrame.encode (.map (mapFromList [(b "key2", .integer 2), (b "key1", .integer 1)])) =
      RespFrame.encode (.map (mapFromList [(b "key1", .integer 1), (b "key2", .integer 2)])) :=
  (map_encode_insertion_order_independent.2.2.2
    [(b "key2", .integer 2), (b "key1", .integer 1)]
    [(b "key1", .integer 1), (b "key2", .integer 2)]
    (List.Perm.swap _ _ _) (by decide))

/-! ### Specification of the fuel-based logarithm loops -/

theorem logUpB_spec (bb : ℕ) (hbb : 2 ≤ bb) : ∀ (fuel : ℕ) (q : QR) (acc : ℤ),
    0 < q.d → 1 ≤ q.toQ → q.toQ < (bb : ℚ) ^ (fuel : ℤ) →
    (bb : ℚ) ^ (logUpB bb fuel q acc - acc) ≤ q.toQ ∧
      q.toQ < (bb : ℚ) ^ (logUpB bb fuel q acc - acc + 1) := by
  have hb1 : (1 : ℚ) < (bb : ℚ) := by exact_mod_cast (by omega : (1 : ℕ) < bb)
  have hb0 : (0 : ℚ) < (bb : ℚ) := by linarith
  have hbne : ((bb : ℚ)) ≠ 0 := hb0.ne'
  intro fuel
  induction fuel with
  | zero =>
    intro q acc hd h1 h2
    rw [Nat.cast_zero, zpow_zero] at h2
    exact absurd h1 (not_le.mpr h2)
  | succ fuel ih =>
    intro q acc hd h1 h2
    rw [logUpB]
    split
    · rename_i hblt
      have hq : q.toQ < (bb : ℚ) := by
        have := (QR.blt_iff hd (QR.ofInt_d_pos _)).mp hblt
        rwa [QR.toQ_ofInt, Int.cast_natCast] at this
      constructor
      · simpa using h1
      · simpa using hq
    · rename_i hblt
      have hq : (bb : ℚ) ≤ q.toQ := by
        by_contra hc
        exact hblt ((QR.blt_iff hd (QR.ofInt_d_pos _)).mpr
          (by rw [QR.toQ_ofInt, Int.cast_natCast]; linarith))
      have hd2 : 0 < (QR.scale bb (-1) q).d := QR.scale_d_pos bb (-1) (by omega) hd
      have ht : (QR.scale bb (-1) q).toQ = q.toQ * (bb : ℚ)⁻¹ := by
        rw [QR.scale_toQ bb (-1) (by omega) hd, zpow_neg, zpow_one]
      have h1a : 1 ≤ (QR.scale bb (-1) q).toQ := by
        rw [ht, ← div_eq_mul_inv, le_div_iff hb0, one_mul]
        exact hq
      have h2a : (QR.scale bb (-1) q).toQ < (bb : ℚ) ^ (fuel : ℤ) := by
        rw [ht, ← div_eq_mul_inv, div_lt_iff hb0, ← zpow_add_one₀ hbne]
        have : ((fuel : ℤ) + 1) = ((fuel + 1 : ℕ) : ℤ) := by push_cast; ring
        rw [this]
        exact h2
      obtain ⟨ih1, ih2⟩ := ih (QR.scale bb (-1) q) (acc + 1) hd2 h1a h2a
      set r := logUpB bb fuel (QR.scale bb (-1) q) (acc + 1) with hr
      rw [ht, ← div_eq_mul_inv] at ih1 ih2
      rw [le_div_iff hb0] at ih1
      rw [div_lt_iff hb0] at ih2
      rw [← zpow_add_one₀ hbne] at ih1 ih2
      constructor
      · have : r - (acc + 1) + 1 = r - acc := by ring
        rwa [this] at ih1
      · have : r - (acc + 1) + 1 + 1 = r - acc + 1 := by ring
        rwa [this] at ih2

theorem logDownB_spec (bb : ℕ) (hbb : 2 ≤ bb) : ∀ (fuel : ℕ) (q : QR) (acc : ℤ),
    0 < q.d → (bb : ℚ) ^ (-(fuel : ℤ)) ≤ q.toQ → q.toQ < (bb : ℚ) →
    (bb : ℚ) ^ (logDownB bb fuel q acc - acc) ≤ q.toQ ∧
      q.toQ < (bb : ℚ) ^ (logDownB bb fuel q acc - acc + 1) := by
  have hb1 : (1 : ℚ) < (bb : ℚ) := by exact_mod_cast (by omega : (1 : ℕ) < bb)
  have hb0 : (0 : ℚ) < (bb : ℚ) := by linarith
  have hbne : ((bb : ℚ)) ≠ 0 := hb0.ne'
  intro fuel
  induction fuel with
  | zero =>
    intro q acc hd h1 h2
    rw [Nat.cast_zero, neg_zero, zpow_zero] at h1
    rw [logDownB]
    constructor
    · simpa using h1
    · simpa using h2
  | succ fuel ih =>
    intro q acc hd h1 h2
    rw [logDownB]
    split
    · rename_i hble
      have hq : (1 : ℚ) ≤ q.toQ := by
        have := (QR.ble_iff (QR.ofInt_d_pos _) hd).mp hble
        rwa [QR.toQ_ofInt, Int.cast_one] at this
      constructor
      · simpa using hq
      · simpa using h2
    · rename_i hble
      have hq : q.toQ < 1 := by
        by_contra hc
        exact hble ((QR.ble_iff (QR.ofInt_d_pos _) hd).mpr
          (by rw [QR.toQ_ofInt, Int.cast_one]; linarith))
      have hd2 : 0 < (QR.scale bb 1 q).d := QR.scale_d_pos bb 1 (by omega) hd
      have ht : (QR.scale bb 1 q).toQ = q.toQ * (bb : ℚ) := by
        rw [QR.scale_toQ bb 1 (by omega) hd, zpow_one]
      have h1a : (bb : ℚ) ^ (-(fuel : ℤ)) ≤ (QR.scale bb 1 q).toQ := by
        rw [ht]
        have step : (bb : ℚ) ^ (-((fuel : ℕ) + 1 : ℤ)) * (bb : ℚ) = (bb : ℚ) ^ (-(fuel : ℤ)) := by
          rw [← zpow_add_one₀ hbne]
          congr 1
          ring
        calc (bb : ℚ) ^ (-(fuel : ℤ)) = (bb : ℚ) ^ (-((fuel : ℕ) + 1 : ℤ)) * (bb : ℚ) := step.symm
          _ ≤ q.toQ * (bb : ℚ) := by
              apply mul_le_mul_of_nonneg_right _ hb0.le
              have : (-((fuel : ℕ) + 1 : ℤ)) = (-(((fuel + 1 : ℕ)) : ℤ)) := by push_cast; ring
              rw [this]
              exact h1
      have h2a : (QR.scale bb 1 q).toQ < (bb : ℚ) := by
        rw [ht]
        calc q.toQ * (bb : ℚ) < 1 * (bb : ℚ) := by
              exact mul_lt_mul_of_pos_right hq hb0
          _ = (bb : ℚ) := one_mul _
      obtain ⟨ih1, ih2⟩ := ih (QR.scale bb 1 q) (acc - 1) hd2 h1a h2a
      set r := logDownB bb fuel (QR.scale bb 1 q) (acc - 1) with hr
      rw [ht] at ih1 ih2
      constructor
      · have e1 : r - (acc - 1) = r - acc + 1 := by ring
        rw [e1, zpow_add_one₀ hbne] at ih1
        exact le_of_mul_le_mul_right ih1 hb0
      · have e2 : r - (acc - 1) + 1 = r - acc + 1 + 1 := by ring
        rw [e2, zpow_add_one₀ hbne] at ih2
        exact lt_of_mul_lt_mul_right ih2 hb0.le

theorem logB_spec (bb fuel : ℕ) (hbb : 2 ≤ bb) (q : QR)
    (hd : 0 < q.d) (hpos : 0 < q.toQ)
    (hlo : (bb : ℚ) ^ (-(fuel : ℤ) + 1) ≤ q.toQ) (hhi : q.toQ < (bb : ℚ) ^ (fuel : ℤ)) :
    (bb : ℚ) ^ (logB bb fuel q) ≤ q.toQ ∧ q.toQ < (bb : ℚ) ^ (logB bb fuel q + 1) := by
  have hb1 : (1 : ℚ) < (bb : ℚ) := by exact_mod_cast (by omega : (1 : ℕ) < bb)
  have hb0 : (0 : ℚ) < (bb : ℚ) := by linarith
  have hbne : ((bb : ℚ)) ≠ 0 := hb0.ne'
  rw [logB]
  split
  · rename_i hble
    have hq : (1 : ℚ) ≤ q.toQ := by
      have := (QR.ble_iff (QR.ofInt_d_pos _) hd).mp hble
      rwa [QR.toQ_ofInt, Int.cast_one] at this
    have := logUpB_spec bb hbb fuel q 0 hd hq hhi
    simpa using this
  · rename_i hble
    have hq : q.toQ < 1 := by
      by_contra hc
      exact hble ((QR.ble_iff (QR.ofInt_d_pos _) hd).mpr
        (by rw [QR.toQ_ofInt, Int.cast_one]; linarith))
    have hd2 : 0 < (QR.scale bb 1 q).d := QR.scale_d_pos bb 1 (by omega) hd
    have ht : (QR.scale bb 1 q).toQ = q.toQ * (bb : ℚ) := by
      rw [QR.scale_toQ bb 1 (by omega) hd, zpow_one]
    have h1a : (bb : ℚ) ^ (-(fuel : ℤ)) ≤ (QR.scale bb 1 q).toQ := by
      rw [ht]
      calc (bb : ℚ) ^ (-(fuel : ℤ)) = (bb : ℚ) ^ (-(fuel : ℤ) + 1) * (bb : ℚ)⁻¹ := by
            rw [zpow_add_one₀ hbne, mul_assoc, mul_inv_cancel₀ hbne, mul_one]
        _ ≤ q.toQ * (bb : ℚ)⁻¹ := by
            apply mul_le_mul_of_nonneg_right hlo
            positivity
        _ ≤ q.toQ * (bb : ℚ) := by
            apply mul_le_mul_of_nonneg_left _ hpos.le
            calc ((bb : ℚ))⁻¹ ≤ 1 := by
                  rw [inv_le_one_iff₀]
                  right; linarith
              _ ≤ (bb : ℚ) := hb1.le
    have h2a : (QR.scale bb 1 q).toQ < (bb : ℚ) := by
      rw [ht]
      calc q.toQ * (bb : ℚ) < 1 * (bb : ℚ) := mul_lt_mul_of_pos_right hq hb0
        _ = (bb : ℚ) := one_mul _
    obtain ⟨ih1, ih2⟩ := logDownB_spec bb hbb fuel (QR.scale bb 1 q) (-1) hd2 h1a h2a
    set r := logDownB bb fuel (QR.scale bb 1 q) (-1) with hr
    rw [ht] at ih1 ih2
    constructor
    · have e1 : r - (-1) = r + 1 := by ring
      rw [e1, zpow_add_one₀ hbne] at ih1
      exact le_of_mul_le_mul_right ih1 hb0
    · have e2 : r - (-1) + 1 = r + 1 + 1 := by ring
      rw [e2, zpow_add_one₀ hbne] at ih2
      exact lt_of_mul_lt_mul_right ih2 hb0.le

/-! ### Rounding and the double's rounding interval -/

theorem QR.round_bound {x : QR} (hd : 0 < x.d) :
    x.toQ - 1 / 2 < (QR.round x : ℚ) ∧ (QR.round x : ℚ) ≤ x.toQ + 1 / 2 := by
  rw [QR.round_eq hd]
  constructor
  · have := Int.sub_one_lt_floor (x.toQ + 1 / 2)
    linarith
  · have := Int.floor_le (x.toQ + 1 / 2)
    linarith

theorem QR.round_spec {x : QR} (hd : 0 < x.d) (m : ℤ)
    (hlo : (m : ℚ) - 1 / 2 < x.toQ) (hhi : x.toQ < (m : ℚ) + 1 / 2) :
    QR.round x = m := by
  rw [QR.round_eq hd]
  rw [Int.floor_eq_iff]
  constructor <;> push_cast <;> linarith

theorem F64.deltaLo_toQ (x : F64) :
    x.deltaLo.toQ = if x.m = 2 ^ 52 ∧ -1074 < x.e then (2 : ℚ) ^ (x.e - 2)
      else (2 : ℚ) ^ (x.e - 1) := by
  rw [F64.deltaLo]
  split
  · rw [QR.scale_toQ 2 _ two_pos (QR.ofInt_d_pos _), QR.toQ_ofInt]
    push_cast
    ring
  · rw [QR.scale_toQ 2 _ two_pos (QR.ofInt_d_pos _), QR.toQ_ofInt]
    push_cast
    ring

theorem F64.deltaHi_toQ (x : F64) : x.deltaHi.toQ = (2 : ℚ) ^ (x.e - 1) := by
  rw [F64.deltaHi, QR.scale_toQ 2 _ two_pos (QR.ofInt_d_pos _), QR.toQ_ofInt]
  push_cast
  ring

theorem F64.deltaLo_d_pos (x : F64) : 0 < x.deltaLo.d := by
  rw [F64.deltaLo]
  split
  · exact QR.scale_d_pos 2 _ two_pos (QR.ofInt_d_pos _)
  · exact QR.scale_d_pos 2 _ two_pos (QR.ofInt_d_pos _)

theorem F64.deltaHi_d_pos (x : F64) : 0 < x.deltaHi.d :=
  QR.scale_d_pos 2 _ two_pos (QR.ofInt_d_pos _)

theorem F64.inInterval_iff (x : F64) (q : QR) (hq : 0 < q.d) :
    x.inInterval q = true ↔
      (x.absVal - x.deltaLo.toQ < q.toQ ∧ q.toQ < x.absVal + x.deltaHi.toQ) := by
  rw [F64.inInterval, Bool.and_eq_true,
    QR.blt_iff (QR.sub_d_pos x.absQR_d_pos x.deltaLo_d_pos) hq,
    QR.blt_iff hq (QR.add_d_pos x.absQR_d_pos x.deltaHi_d_pos),
    QR.sub_toQ x.absQR_d_pos x.deltaLo_d_pos,
    QR.add_toQ x.absQR_d_pos x.deltaHi_d_pos, x.absQR_toQ]

theorem DecDigits.valQR_d_pos (dd : DecDigits) : 0 < dd.valQR.d :=
  QR.scale_d_pos 10 _ (by omega) (QR.ofInt_d_pos _)

theorem DecDigits.valQR_toQ (dd : DecDigits) : dd.valQR.toQ = dd.value := by
  rw [DecDigits.valQR, QR.scale_toQ 10 _ (by omega) (QR.ofInt_d_pos _), QR.toQ_ofInt,
    DecDigits.value]
  push_cast
  ring

/-! ### The shortest-digit search: what a successful probe guarantees -/

theorem tryK_some {x : F64} {v : QR} {t : ℤ} {k : ℕ} {dd : DecDigits}
    (hd : 0 < v.d) (hk : 1 ≤ k)
    (hlo : (10 : ℚ) ^ t ≤ v.toQ) (hhi : v.toQ < (10 : ℚ) ^ (t + 1))
    (h : tryK x v t k = some dd) :
    x.inInterval dd.valQR = true ∧ 1 ≤ dd.k ∧
      10 ^ (dd.k - 1) ≤ dd.d ∧ dd.d < 10 ^ dd.k := by
  have hten : ((10 : ℚ)) ≠ 0 := by norm_num
  rw [tryK] at h
  set y := QR.scale 10 (-(t - (k : ℤ) + 1)) v with hy
  have hyd : 0 < y.d := QR.scale_d_pos 10 _ (by omega) hd
  have hyt : y.toQ = v.toQ * (10 : ℚ) ^ (-(t - (k : ℤ) + 1)) :=
    QR.scale_toQ 10 _ (by omega) hd
  have hy1 : (10 : ℚ) ^ ((k : ℤ) - 1) ≤ y.toQ := by
    rw [hyt]
    have e1 : (10 : ℚ) ^ ((k : ℤ) - 1) = 10 ^ t * (10 : ℚ) ^ (-(t - (k : ℤ) + 1)) := by
      rw [← zpow_add₀ hten]
      congr 1
      ring
    rw [e1]
    exact mul_le_mul_of_nonneg_right hlo (by positivity)
  have hy2 : y.toQ < (10 : ℚ) ^ (k : ℤ) := by
    rw [hyt]
    have e1 : (10 : ℚ) ^ (k : ℤ) = 10 ^ (t + 1) * (10 : ℚ) ^ (-(t - (k : ℤ) + 1)) := by
      rw [← zpow_add₀ hten]
      congr 1
      ring
    rw [e1]
    exact mul_lt_mul_of_pos_right hhi (by positivity)
  have hcast1 : (10 : ℚ) ^ ((k : ℤ) - 1) = (((10 ^ (k - 1) : ℕ)) : ℚ) := by
    have : ((k : ℤ) - 1) = ((k - 1 : ℕ) : ℤ) := by omega
    rw [this, zpow_natCast]
    push_cast
    ring
  have hcast2 : (10 : ℚ) ^ (k : ℤ) = (((10 ^ k : ℕ)) : ℚ) := by
    rw [zpow_natCast]
    push_cast
    ring
  obtain ⟨hrb1, hrb2⟩ := QR.round_bound hyd
  have hc_ge : ((10 ^ (k - 1) : ℕ) : ℤ) ≤ QR.round y := by
    by_contra hc
    push_neg at hc
    have h1 : ((QR.round y : ℚ)) ≤ ((10 ^ (k - 1) : ℕ) : ℚ) - 1 := by
      have : QR.round y ≤ ((10 ^ (k - 1) : ℕ) : ℤ) - 1 := by omega
      exact_mod_cast this
    rw [hcast1] at hy1
    linarith
  have hc_le : QR.round y ≤ ((10 ^ k : ℕ) : ℤ) := by
    by_contra hc
    push_neg at hc
    have h1 : ((10 ^ k : ℕ) : ℚ) + 1 ≤ ((QR.round y : ℚ)) := by
      have : ((10 ^ k : ℕ) : ℤ) + 1 ≤ QR.round y := by omega
      exact_mod_cast this
    rw [hcast2] at hy2
    linarith
  have hpow : ((10 : ℤ) ^ k) = ((10 ^ k : ℕ) : ℤ) := by push_cast; ring
  split at h
  · rename_i hroll
    split at h
    · rename_i hin
      simp only [Option.some.injEq] at h
      subst h
      refine ⟨hin, le_rfl, by norm_num, by norm_num⟩
    · exact absurd h (by simp)
  · rename_i hroll
    split at h
    · rename_i hin
      simp only [Option.some.injEq] at h
      subst h
      refine ⟨hin, hk, ?_, ?_⟩
      · have hnn : (0 : ℤ) ≤ QR.round y := le_trans (by positivity) hc_ge
        have h2 := Int.toNat_of_nonneg hnn
        dsimp only
        omega
      · have hlt : QR.round y < ((10 ^ k : ℕ) : ℤ) := by
          rcases lt_or_eq_of_le hc_le with hlt | heq
          · exact hlt
          · exact absurd (heq.trans hpow.symm) hroll
        have hnn : (0 : ℤ) ≤ QR.round y := le_trans (by positivity) hc_ge
        have h2 := Int.toNat_of_nonneg hnn
        dsimp only
        omega
    · exact absurd h (by simp)

theorem searchLoop_finds {x : F64} {v : QR} {t : ℤ} :
    ∀ (fuel k : ℕ), (∃ j, k ≤ j ∧ j < k + fuel ∧ tryK x v t j ≠ none) →
      ∃ j dd, k ≤ j ∧ tryK x v t j = some dd ∧ searchLoop x v t k fuel = dd := by
  intro fuel
  induction fuel with
  | zero =>
    rintro k ⟨j, hj1, hj2, -⟩
    omega
  | succ fuel ih =>
    rintro k ⟨j, hj1, hj2, hj3⟩
    rw [searchLoop]
    cases hk : tryK x v t k with
    | some r => exact ⟨k, r, le_rfl, hk, rfl⟩
    | none =>
      have hjk : k + 1 ≤ j := by
        rcases eq_or_lt_of_le hj1 with he | hl
        · exact absurd (he ▸ hk) hj3
        · omega
      obtain ⟨j2, dd, hj2a, hj2b, hj2c⟩ := ih (k + 1) ⟨j, hjk, by omega, hj3⟩
      exact ⟨j2, dd, by omega, hj2b, hj2c⟩

theorem F64.absVal_pos {x : F64} (hm : 0 < x.m) : 0 < x.absVal := by
  rw [F64.absVal]
  have : (0 : ℚ) < (x.m : ℚ) := by exact_mod_cast hm
  positivity

theorem F64.m_lt {x : F64} (hval : x.IsValid) : x.m < 2 ^ 53 := by
  rcases hval with ⟨-, h⟩ | ⟨-, h, -⟩
  · calc x.m < 2 ^ 52 := h
      _ ≤ 2 ^ 53 := by norm_num
  · exact h

theorem F64.absVal_lt {x : F64} (hval : x.IsValid) : x.absVal < (2 : ℚ) ^ (x.e + 53) := by
  rw [F64.absVal, zpow_add₀ (two_ne_zero), mul_comm ((2:ℚ) ^ x.e)]
  apply mul_lt_mul_of_pos_right _ (by positivity)
  calc (x.m : ℚ) < ((2 ^ 53 : ℕ) : ℚ) := by exact_mod_cast x.m_lt hval
    _ = (2 : ℚ) ^ (53 : ℤ) := by push_cast; norm_num

theorem F64.absVal_ge {x : F64} (hm : 0 < x.m) : (2 : ℚ) ^ x.e ≤ x.absVal := by
  rw [F64.absVal]
  have : (1 : ℚ) ≤ (x.m : ℚ) := by exact_mod_cast hm
  calc (2 : ℚ) ^ x.e = 1 * (2 : ℚ) ^ x.e := (one_mul _).symm
    _ ≤ (x.m : ℚ) * (2 : ℚ) ^ x.e := by
        apply mul_le_mul_of_nonneg_right this (by positivity)

theorem F64.e_bounds {x : F64} (hval : x.IsValid) : -1074 ≤ x.e ∧ x.e ≤ 971 := by
  rcases hval with ⟨h, -⟩ | ⟨-, -, h1, h2⟩
  · omega
  · exact ⟨h1, h2⟩

/-- The decade the decimal-log loop finds for a nonzero finite double's
magnitude. -/
theorem decLog_spec {x : F64} (hval : x.IsValid) (hm : 0 < x.m) :
    (10 : ℚ) ^ (decLog x.absQR) ≤ x.absVal ∧
      x.absVal < (10 : ℚ) ^ (decLog x.absQR + 1) := by
  have hd := x.absQR_d_pos
  have ht := x.absQR_toQ
  obtain ⟨he1, he2⟩ := x.e_bounds hval
  have hpos : 0 < x.absQR.toQ := ht ▸ x.absVal_pos hm
  have hlo : (10 : ℚ) ^ (-(1200 : ℕ) + 1 : ℤ) ≤ x.absQR.toQ := by
    rw [ht]
    have h1 : (2 : ℚ) ^ (-1074 : ℤ) ≤ (2 : ℚ) ^ x.e :=
      zpow_le_zpow_right₀ (by norm_num) he1
    have h2 : (10 : ℚ) ^ (-(1200 : ℕ) + 1 : ℤ) ≤ (2 : ℚ) ^ (-1074 : ℤ) := by
      have e1 : (-(1200 : ℕ) + 1 : ℤ) = -(1199 : ℤ) := by norm_num
      rw [e1, zpow_neg, zpow_neg]
      apply inv_le_inv_of_le (by positivity)
      have e2a : ((2 : ℚ)) ^ (1074 : ℤ) = ((2 : ℚ)) ^ (1074 : ℕ) := by
        norm_num [← zpow_natCast]
      have e2b : ((10 : ℚ)) ^ (1199 : ℤ) = ((10 : ℚ)) ^ (1199 : ℕ) := by
        norm_num [← zpow_natCast]
      rw [e2a, e2b]
      norm_num
    calc (10 : ℚ) ^ (-(1200 : ℕ) + 1 : ℤ) ≤ (2 : ℚ) ^ (-1074 : ℤ) := h2
      _ ≤ (2 : ℚ) ^ x.e := h1
      _ ≤ x.absVal := x.absVal_ge hm
  have hhi : x.absQR.toQ < (10 : ℚ) ^ ((1200 : ℕ) : ℤ) := by
    rw [ht]
    calc x.absVal < (2 : ℚ) ^ (x.e + 53) := x.absVal_lt hval
      _ ≤ (2 : ℚ) ^ (1024 : ℤ) := zpow_le_zpow_right₀ (by norm_num) (by omega)
      _ ≤ (10 : ℚ) ^ ((1200 : ℕ) : ℤ) := by
          have e1 : ((2 : ℚ)) ^ (1024 : ℤ) = ((2 : ℚ)) ^ (1024 : ℕ) := by
            norm_num [← zpow_natCast]
          have e2 : ((10 : ℚ)) ^ ((1200 : ℕ) : ℤ) = ((10 : ℚ)) ^ (1200 : ℕ) := by
            norm_num [← zpow_natCast]
          rw [e1, e2]
          norm_num
  have := logB_spec 10 1200 (by norm_num) x.absQR hd hpos (by exact_mod_cast hlo)
    (by exact_mod_cast hhi)
  rw [ht] at this
  exact this

/-- Probing 60 significant digits always succeeds: the nearest 60-digit
decimal is closer to the magnitude than half the double's own spacing. -/
theorem tryK_60_succeeds {x : F64} (hval : x.IsValid) (hm : 0 < x.m) :
    tryK x x.absQR (decLog x.absQR) 60 ≠ none := by
  have hten : ((10 : ℚ)) ≠ 0 := by norm_num
  have hd := x.absQR_d_pos
  obtain ⟨hlo, hhi⟩ := decLog_spec hval hm
  set t := decLog x.absQR with htdef
  set v := x.absQR with hvdef
  have hvt : v.toQ = x.absVal := x.absQR_toQ
  -- the probe value and its distance to the magnitude
  set y := QR.scale 10 (-(t - (60 : ℤ) + 1)) v with hy
  have hyd : 0 < y.d := QR.scale_d_pos 10 _ (by omega) hd
  have hyt : y.toQ = v.toQ * (10 : ℚ) ^ (-(t - (60 : ℤ) + 1)) :=
    QR.scale_toQ 10 _ (by omega) hd
  set c := QR.round y with hc
  obtain ⟨hrb1, hrb2⟩ := QR.round_bound hyd
  rw [← hc] at hrb1 hrb2
  set s : ℚ := (10 : ℚ) ^ (t - 59) with hs
  have hspos : 0 < s := by rw [hs]; positivity
  have hys : y.toQ = x.absVal / s := by
    rw [hyt, hvt, hs, div_eq_mul_inv, ← zpow_neg]
    congr 2
    ring
  have hw1 : x.absVal - s / 2 < (c : ℚ) * s := by
    have h := mul_lt_mul_of_pos_right hrb1 hspos
    have e : (y.toQ - 1 / 2) * s = x.absVal - s / 2 := by
      rw [hys]
      field_simp
      all_goals ring
    rw [e] at h
    exact h
  have hw2 : (c : ℚ) * s ≤ x.absVal + s / 2 := by
    have h := mul_le_mul_of_nonneg_right hrb2 hspos.le
    have e : (y.toQ + 1 / 2) * s = x.absVal + s / 2 := by
      rw [hys]
      field_simp
      all_goals ring
    rw [e] at h
    exact h
  -- half the probe grid step is below half the double's spacing
  have hkey : s / 2 < (2 : ℚ) ^ (x.e - 2) := by
    have h10t : (10 : ℚ) ^ t < (2 : ℚ) ^ (x.e + 53) := lt_of_le_of_lt hlo (x.absVal_lt hval)
    have hstep : s < (2 : ℚ) ^ (x.e - 1) := by
      have e1 : s = (10 : ℚ) ^ t * (10 : ℚ) ^ (-59 : ℤ) := by
        rw [hs, ← zpow_add₀ hten]
        all_goals norm_num [sub_eq_add_neg]
      have h2 : (10 : ℚ) ^ t * (10 : ℚ) ^ (-59 : ℤ) <
          (2 : ℚ) ^ (x.e + 53) * (10 : ℚ) ^ (-59 : ℤ) :=
        mul_lt_mul_of_pos_right h10t (by positivity)
      have h3 : (2 : ℚ) ^ (x.e + 53) * (10 : ℚ) ^ (-59 : ℤ) ≤
          (2 : ℚ) ^ (x.e + 53) * (2 : ℚ) ^ (-54 : ℤ) := by
        apply mul_le_mul_of_nonneg_left _ (by positivity)
        rw [zpow_neg, zpow_neg]
        apply inv_le_inv_of_le (by positivity)
        have e2 : ((2 : ℚ)) ^ (54 : ℤ) = ((2 : ℚ)) ^ (54 : ℕ) := by
          norm_num [← zpow_natCast]
        have e3 : ((10 : ℚ)) ^ (59 : ℤ) = ((10 : ℚ)) ^ (59 : ℕ) := by
          norm_num [← zpow_natCast]
        rw [e2, e3]
        norm_num
      have e4 : (2 : ℚ) ^ (x.e + 53) * (2 : ℚ) ^ (-54 : ℤ) = (2 : ℚ) ^ (x.e - 1) := by
        rw [← zpow_add₀ (two_ne_zero : (2:ℚ) ≠ 0)]
        congr 1
        ring
      rw [e1]
      calc (10 : ℚ) ^ t * (10 : ℚ) ^ (-59 : ℤ) <
          (2 : ℚ) ^ (x.e + 53) * (10 : ℚ) ^ (-59 : ℤ) := h2
        _ ≤ (2 : ℚ) ^ (x.e + 53) * (2 : ℚ) ^ (-54 : ℤ) := h3
        _ = (2 : ℚ) ^ (x.e - 1) := e4
    have e5 : (2 : ℚ) ^ (x.e - 1) = 2 * (2 : ℚ) ^ (x.e - 2) := by
      rw [show x.e - 1 = (x.e - 2) + 1 from by ring, zpow_add_one₀ (two_ne_zero : (2:ℚ) ≠ 0)]
      ring
    rw [e5] at hstep
    linarith
  have hdlo : (2 : ℚ) ^ (x.e - 2) ≤ x.deltaLo.toQ := by
    rw [F64.deltaLo_toQ]
    split
    · exact le_rfl
    · exact zpow_le_zpow_right₀ (by norm_num) (by omega)
  have hdhi : (2 : ℚ) ^ (x.e - 2) ≤ x.deltaHi.toQ := by
    rw [F64.deltaHi_toQ]
    exact zpow_le_zpow_right₀ (by norm_num) (by omega)
  -- membership of the checked value, in both branches of the probe
  have hmem : ∀ dd : DecDigits, dd.value = (c : ℚ) * s → x.inInterval dd.valQR = true := by
    intro dd hdd
    rw [F64.inInterval_iff x dd.valQR dd.valQR_d_pos, dd.valQR_toQ, hdd]
    constructor
    · linarith
    · linarith
  rw [tryK, show QR.scale 10 (-(t - ((60 : ℕ) : ℤ) + 1)) v = y from by rw [hy]; norm_num,
    ← hc]
  split
  · rename_i hroll
    rw [if_pos]
    · simp
    · apply hmem
      rw [DecDigits.value, hroll, hs]
      have e7 : (((10 : ℤ) ^ 60 : ℤ) : ℚ) = (10 : ℚ) ^ ((60 : ℕ) : ℤ) := by
        push_cast
        norm_num [← zpow_natCast]
      rw [e7, ← zpow_add₀ hten]
      have e8 : ((60 : ℕ) : ℤ) + (t - 59) = t + 1 - 1 + 1 := by omega
      rw [e8]
      norm_num
  · rename_i hroll
    rw [if_pos]
    · simp
    · apply hmem
      rw [DecDigits.value]
      have hcnn : (0 : ℤ) ≤ c := by
        by_contra hcneg
        push_neg at hcneg
        have hcq : (c : ℚ) < 0 := by exact_mod_cast hcneg
        have hsle : s ≤ x.absVal := by
          calc s = (10 : ℚ) ^ (t - 59) := hs
            _ ≤ (10 : ℚ) ^ t := zpow_le_zpow_right₀ (by norm_num) (by omega)
            _ ≤ x.absVal := hlo
        have hyge : (1 : ℚ) ≤ y.toQ := by
          rw [hys, le_div_iff hspos, one_mul]
          exact hsle
        linarith
      have e6 : ((c.toNat : ℕ) : ℚ) = (c : ℚ) := by
        exact_mod_cast Int.toNat_of_nonneg hcnn
      dsimp only
      rw [hs, e6]
      have e9 : t - ((60 : ℕ) : ℤ) + 1 = t - 59 := by omega
      rw [e9]

/-- What the shortest-digit search returns for a nonzero finite double: a
significand that lies inside the rounding interval, with its digit count
consistent. -/
theorem shortestDigits_spec {x : F64} (hval : x.IsValid) (hm : 0 < x.m) :
    x.inInterval (shortestDigits x).valQR = true ∧ 1 ≤ (shortestDigits x).k ∧
      10 ^ ((shortestDigits x).k - 1) ≤ (shortestDigits x).d ∧
      (shortestDigits x).d < 10 ^ (shortestDigits x).k := by
  obtain ⟨hlo, hhi⟩ := decLog_spec hval hm
  obtain ⟨j, dd, hj1, hj2, hj3⟩ := searchLoop_finds 60 1
    ⟨60, by omega, by omega, tryK_60_succeeds hval hm⟩
  rw [shortestDigits, hj3]
  exact tryK_some x.absQR_d_pos hj1 (by rw [x.absQR_toQ]; exact hlo)
    (by rw [x.absQR_toQ]; exact hhi) hj2

/-! ### Correctness of nearest-double rounding on the interval -/

theorem zpow_binade_unique {qq : ℚ} {L a : ℤ} (h1 : (2 : ℚ) ^ L ≤ qq)
    (h2 : qq < (2 : ℚ) ^ (L + 1)) (h3 : (2 : ℚ) ^ a ≤ qq)
    (h4 : qq < (2 : ℚ) ^ (a + 1)) : L = a := by
  by_contra hne
  rcases lt_or_gt_of_ne hne with hl | hl
  · have : (2 : ℚ) ^ (L + 1) ≤ (2 : ℚ) ^ a := zpow_le_zpow_right₀ (by norm_num) (by omega)
    linarith
  · have : (2 : ℚ) ^ (a + 1) ≤ (2 : ℚ) ^ L := zpow_le_zpow_right₀ (by norm_num) (by omega)
    linarith

theorem mul_zpow_neg_cancel (a : ℚ) (e : ℤ) : a * (2 : ℚ) ^ e * (2 : ℚ) ^ (-e) = a := by
  rw [mul_assoc, ← zpow_add₀ (two_ne_zero : (2 : ℚ) ≠ 0), add_neg_cancel, zpow_zero, mul_one]

theorem two_zpow_split (e : ℤ) : (2 : ℚ) ^ e = 2 * (2 : ℚ) ^ (e - 1) := by
  have h : (2 : ℚ) ^ e = (2 : ℚ) ^ (e - 1) * (2 : ℚ) ^ (1 : ℤ) := by
    rw [← zpow_add₀ (two_ne_zero : (2 : ℚ) ≠ 0)]
    congr 1
    ring
  rw [h, zpow_one]
  ring

/-- Any value strictly inside the rounding interval of a nonzero finite
double is parsed back to exactly that double by the nearest-double
computation (whatever the sign flag). -/
theorem nearestF64_correct {x : F64} (hval : x.IsValid) (hm : 0 < x.m) (sg : Bool)
    {q : QR} (hd : 0 < q.d) (hin : x.inInterval q = true) :
    nearestF64 sg q = some ⟨sg, x.m, x.e⟩ := by
  have h2ne : ((2 : ℚ)) ≠ 0 := two_ne_zero
  obtain ⟨h1, h2⟩ := (x.inInterval_iff q hd).mp hin
  rw [F64.deltaHi_toQ] at h2
  rw [F64.deltaLo_toQ] at h1
  have habs : x.absVal = (x.m : ℚ) * (2 : ℚ) ^ x.e := rfl
  obtain ⟨he1, he2⟩ := x.e_bounds hval
  have hm1 : (1 : ℚ) ≤ (x.m : ℚ) := by exact_mod_cast hm
  have hdlo_le : (if x.m = 2 ^ 52 ∧ -1074 < x.e then (2 : ℚ) ^ (x.e - 2)
      else (2 : ℚ) ^ (x.e - 1)) ≤ (2 : ℚ) ^ (x.e - 1) := by
    split
    · exact zpow_le_zpow_right₀ (by norm_num) (by omega)
    · exact le_rfl
  have hqlo : (2 : ℚ) ^ (x.e - 1) ≤ q.toQ := by
    have hlow : x.absVal - (2 : ℚ) ^ (x.e - 1) ≥ (2 : ℚ) ^ (x.e - 1) := by
      rw [habs]
      have e5 : (2 : ℚ) ^ x.e = 2 * (2 : ℚ) ^ (x.e - 1) := two_zpow_split x.e
      have : (1 : ℚ) * (2 : ℚ) ^ x.e ≤ (x.m : ℚ) * (2 : ℚ) ^ x.e :=
        mul_le_mul_of_nonneg_right hm1 (by positivity)
      rw [one_mul] at this
      nlinarith [zpow_pos (show (0:ℚ) < 2 from by norm_num) (x.e - 1)]
    linarith
  have hqpos : 0 < q.toQ := lt_of_lt_of_le (by positivity) hqlo
  have hqn : ¬ q.n = 0 := by
    intro h0
    rw [QR.toQ, h0] at hqpos
    norm_num at hqpos
  have hqhi : q.toQ < (2 : ℚ) ^ (x.e + 53) := by
    have := x.absVal_lt hval
    have h52 : (2 : ℚ) ^ (x.e - 1) ≤ (2 : ℚ) ^ (x.e + 52) :=
      zpow_le_zpow_right₀ (by norm_num) (by omega)
    have e5 : (2 : ℚ) ^ (x.e + 53) = 2 * (2 : ℚ) ^ (x.e + 52) := by
      rw [show x.e + 53 = (x.e + 52) + 1 from by ring, zpow_add_one₀ h2ne]
      ring
    have habslt : x.absVal < (2 : ℚ) ^ (x.e + 52) ∨
        x.absVal < (2 : ℚ) ^ (x.e + 53) := Or.inr this
    -- q < absVal + 2^(e-1) ≤ absVal + 2^(e+52) < 2^(e+53) + 2^(e+52): too weak;
    -- use absVal < 2^(e+53) = 2·2^(e+52) and δhi = 2^(e-1) ≤ 2^(e+52) is no good
    -- directly: absVal = m·2^e ≤ (2^53-1)·2^e so absVal + 2^(e-1) < 2^53·2^e
    have hmlt : x.m < 2 ^ 53 := x.m_lt hval
    have hmle : (x.m : ℚ) ≤ (2 : ℚ) ^ (53 : ℕ) - 1 := by
      have : (x.m : ℚ) ≤ ((2 ^ 53 - 1 : ℕ) : ℚ) := by exact_mod_cast (by omega : x.m ≤ 2 ^ 53 - 1)
      calc (x.m : ℚ) ≤ ((2 ^ 53 - 1 : ℕ) : ℚ) := this
        _ = (2 : ℚ) ^ (53 : ℕ) - 1 := by push_cast; ring
    have hhalf : (2 : ℚ) ^ (x.e - 1) < (2 : ℚ) ^ x.e := by
      have := zpow_le_zpow_right₀ (show (1:ℚ) ≤ 2 from by norm_num)
        (show x.e - 1 ≤ x.e - 1 from le_rfl)
      have h2 : (2 : ℚ) ^ x.e = 2 * (2 : ℚ) ^ (x.e - 1) := by
        rw [show x.e = (x.e - 1) + 1 from by ring, zpow_add_one₀ h2ne]
        ring
      have hp := zpow_pos (show (0:ℚ) < 2 from by norm_num) (x.e - 1)
      linarith
    have e6 : (2 : ℚ) ^ (x.e + 53) = (2 : ℚ) ^ (53 : ℕ) * (2 : ℚ) ^ x.e := by
      rw [show x.e + 53 = (53 : ℤ) + x.e from by ring, zpow_add₀ h2ne]
      congr 1
      norm_num [← zpow_natCast]
    have hp := zpow_pos (show (0:ℚ) < 2 from by norm_num) x.e
    calc q.toQ < x.absVal + (2 : ℚ) ^ (x.e - 1) := h2
      _ ≤ ((2 : ℚ) ^ (53 : ℕ) - 1) * (2 : ℚ) ^ x.e + (2 : ℚ) ^ x.e := by
          rw [habs]
          have := mul_le_mul_of_nonneg_right hmle hp.le
          linarith
      _ = (2 : ℚ) ^ (53 : ℕ) * (2 : ℚ) ^ x.e := by ring
      _ = (2 : ℚ) ^ (x.e + 53) := e6.symm
  -- the binary logarithm of q
  have hlogspec := logB_spec 2 2200 (le_rfl) q hd hqpos
    (by
      calc (2 : ℚ) ^ (-(2200 : ℕ) + 1 : ℤ) ≤ (2 : ℚ) ^ (x.e - 1) :=
            zpow_le_zpow_right₀ (by norm_num) (by omega)
        _ ≤ q.toQ := hqlo)
    (by
      calc q.toQ < (2 : ℚ) ^ (x.e + 53) := hqhi
        _ ≤ (2 : ℚ) ^ ((2200 : ℕ) : ℤ) := zpow_le_zpow_right₀ (by norm_num) (by omega))
  obtain ⟨hL1, hL2⟩ := hlogspec
  push_cast at hL1 hL2
  rw [nearestF64, if_neg hqn]
  set L := logB 2 2200 q with hLdef
  have hL2Q : L = log2QR q := by rw [log2QR]
  rw [← hL2Q]
  -- helper: value of the scaled fraction
  have hscale : ∀ i : ℤ, (QR.scale 2 i q).toQ = q.toQ * (2 : ℚ) ^ i := fun i =>
    QR.scale_toQ 2 i (by norm_num) hd
  have hscaled : ∀ i : ℤ, 0 < (QR.scale 2 i q).d := fun i =>
    QR.scale_d_pos 2 i (by norm_num) hd
  by_cases hcase : x.m = 2 ^ 52 ∧ -1074 < x.e
  · -- just above a power of two: the interval dips into the lower binade
    obtain ⟨hm52, helow⟩ := hcase
    rw [if_pos ⟨hm52, helow⟩] at h1
    rw [habs, hm52] at h1 h2
    have hcast52 : ((2 ^ 52 : ℕ) : ℚ) = (2 : ℚ) ^ (52 : ℕ) := by push_cast; ring
    rw [hcast52] at h1 h2
    by_cases hup : (2 : ℚ) ^ (x.e + 52) ≤ q.toQ
    · -- upper part: same binade as x
      have hLval : L = x.e + 52 := by
        apply zpow_binade_unique hL1 hL2 hup
        calc q.toQ < (2 : ℚ) ^ (52 : ℕ) * (2 : ℚ) ^ x.e + (2 : ℚ) ^ (x.e - 1) := h2
          _ ≤ (2 : ℚ) ^ (x.e + 52) + (2 : ℚ) ^ (x.e + 52) := by
              have e7 : (2 : ℚ) ^ (52 : ℕ) * (2 : ℚ) ^ x.e = (2 : ℚ) ^ (x.e + 52) := by
                rw [show x.e + 52 = (52 : ℤ) + x.e from by ring, zpow_add₀ h2ne]
                congr 1
                norm_num [← zpow_natCast]
              have e8 : (2 : ℚ) ^ (x.e - 1) ≤ (2 : ℚ) ^ (x.e + 52) :=
                zpow_le_zpow_right₀ (by norm_num) (by omega)
              linarith [e7.le, e7.ge]
          _ = (2 : ℚ) ^ (x.e + 52 + 1) := by
              rw [zpow_add_one₀ h2ne]
              ring
      rw [hLval]
      rw [if_neg (by omega)]
      have hy : (QR.scale 2 (-(x.e + 52 - 52)) q).toQ = q.toQ * (2 : ℚ) ^ (-x.e) := by
        rw [hscale]
        congr 1
        congr 1
        ring
      have hround : QR.round (QR.scale 2 (-(x.e + 52 - 52)) q) = ((2 ^ 52 : ℕ) : ℤ) := by
        apply QR.round_spec (hscaled _)
        · rw [hy]
          have e7 : ((2 : ℚ) ^ (52 : ℕ) * (2 : ℚ) ^ x.e - (2 : ℚ) ^ (x.e - 2)) * (2:ℚ)^(-x.e) <
              q.toQ * (2 : ℚ) ^ (-x.e) :=
            mul_lt_mul_of_pos_right (by linarith) (by positivity)
          have e8 : ((2 : ℚ) ^ (52 : ℕ) * (2 : ℚ) ^ x.e - (2 : ℚ) ^ (x.e - 2)) * (2:ℚ)^(-x.e) =
              (2 : ℚ) ^ (52 : ℕ) - (2 : ℚ) ^ (-2 : ℤ) := by
            rw [sub_mul, mul_zpow_neg_cancel ((2:ℚ) ^ (52 : ℕ)) x.e,
              ← zpow_add₀ h2ne]
            congr 2
            ring
          rw [e8] at e7
          have : ((((2 ^ 52 : ℕ) : ℤ) : ℚ)) = (2 : ℚ) ^ (52 : ℕ) := by push_cast; ring
          rw [this]
          rw [show ((2 : ℚ) ^ (-2 : ℤ)) = 1 / 4 from by norm_num] at e7
          linarith
        · rw [hy]
          have e7 : q.toQ * (2:ℚ)^(-x.e) <
              ((2 : ℚ) ^ (52 : ℕ) * (2 : ℚ) ^ x.e + (2 : ℚ) ^ (x.e - 1)) * (2:ℚ)^(-x.e) :=
            mul_lt_mul_of_pos_right h2 (by positivity)
          have e8 : ((2 : ℚ) ^ (52 : ℕ) * (2 : ℚ) ^ x.e + (2 : ℚ) ^ (x.e - 1)) * (2:ℚ)^(-x.e) =
              (2 : ℚ) ^ (52 : ℕ) + (2 : ℚ) ^ (-1 : ℤ) := by
            rw [add_mul, mul_zpow_neg_cancel ((2:ℚ) ^ (52 : ℕ)) x.e, ← zpow_add₀ h2ne]
            congr 2
            ring
          rw [e8] at e7
          have : ((((2 ^ 52 : ℕ) : ℤ) : ℚ)) = (2 : ℚ) ^ (52 : ℕ) := by push_cast; ring
          rw [this]
          rw [show ((2 : ℚ) ^ (-1 : ℤ)) = 1 / 2 from by norm_num] at e7
          linarith
      rw [hround]
      rw [if_neg (by norm_num)]
      rw [if_pos (by omega)]
      rw [show ((2 ^ 52 : ℕ) : ℤ).toNat = x.m from by rw [hm52]; simp]
      rw [show x.e + 52 - 52 = x.e from by ring]
    · -- lower part: the binade below x
      push_neg at hup
      have hqlo2 : (2 : ℚ) ^ (x.e + 51) ≤ q.toQ := by
        have e7 : (2 : ℚ) ^ (52 : ℕ) * (2 : ℚ) ^ x.e - (2 : ℚ) ^ (x.e - 2) ≥
            (2 : ℚ) ^ (x.e + 51) := by
          have e8 : (2 : ℚ) ^ (52 : ℕ) * (2 : ℚ) ^ x.e = (2 : ℚ) ^ (x.e + 52) := by
            rw [show x.e + 52 = (52 : ℤ) + x.e from by ring, zpow_add₀ h2ne]
            congr 1
            norm_num [← zpow_natCast]
          have e9 : (2 : ℚ) ^ (x.e + 52) = 2 * (2 : ℚ) ^ (x.e + 51) := by
            rw [show x.e + 52 = (x.e + 51) + 1 from by ring, zpow_add_one₀ h2ne]
            ring
          have e10 : (2 : ℚ) ^ (x.e - 2) ≤ (2 : ℚ) ^ (x.e + 51) :=
            zpow_le_zpow_right₀ (by norm_num) (by omega)
          rw [e8, e9]
          linarith
        linarith
      have hLval : L = x.e + 51 := by
        apply zpow_binade_unique hL1 hL2 hqlo2
        rw [show x.e + 51 + 1 = x.e + 52 from by ring]
        exact hup
      rw [hLval]
      rw [if_neg (by omega)]
      have hy : (QR.scale 2 (-(x.e + 51 - 52)) q).toQ = q.toQ * (2 : ℚ) ^ (-(x.e - 1)) := by
        rw [hscale]
        congr 1
        congr 1
        ring
      have hround : QR.round (QR.scale 2 (-(x.e + 51 - 52)) q) = ((2 ^ 53 : ℕ) : ℤ) := by
        apply QR.round_spec (hscaled _)
        · rw [hy]
          have e7 : ((2 : ℚ) ^ (52 : ℕ) * (2 : ℚ) ^ x.e - (2 : ℚ) ^ (x.e - 2)) *
              (2:ℚ)^(-(x.e - 1)) < q.toQ * (2:ℚ)^(-(x.e - 1)) :=
            mul_lt_mul_of_pos_right (by linarith) (by positivity)
          have e8 : ((2 : ℚ) ^ (52 : ℕ) * (2 : ℚ) ^ x.e - (2 : ℚ) ^ (x.e - 2)) *
              (2:ℚ)^(-(x.e - 1)) = (2 : ℚ) ^ (53 : ℕ) - (2 : ℚ) ^ (-1 : ℤ) := by
            rw [sub_mul]
            have c1 : (2 : ℚ) ^ (52 : ℕ) * (2 : ℚ) ^ x.e * (2:ℚ)^(-(x.e - 1)) =
                (2 : ℚ) ^ (53 : ℕ) := by
              rw [mul_assoc, ← zpow_add₀ h2ne]
              rw [show x.e + -(x.e - 1) = (1 : ℤ) from by ring]
              rw [zpow_one]
              norm_num [pow_succ]
            have c2 : (2 : ℚ) ^ (x.e - 2) * (2:ℚ)^(-(x.e - 1)) = (2 : ℚ) ^ (-1 : ℤ) := by
              rw [← zpow_add₀ h2ne]
              congr 1
              ring
            rw [c1, c2]
          rw [e8] at e7
          have : ((((2 ^ 53 : ℕ) : ℤ) : ℚ)) = (2 : ℚ) ^ (53 : ℕ) := by push_cast; ring
          rw [this]
          rw [show ((2 : ℚ) ^ (-1 : ℤ)) = 1 / 2 from by norm_num] at e7
          linarith
        · rw [hy]
          have e7 : q.toQ * (2:ℚ)^(-(x.e - 1)) < (2 : ℚ) ^ (x.e + 52) * (2:ℚ)^(-(x.e - 1)) :=
            mul_lt_mul_of_pos_right hup (by positivity)
          have e8 : (2 : ℚ) ^ (x.e + 52) * (2:ℚ)^(-(x.e - 1)) = (2 : ℚ) ^ (53 : ℕ) := by
            rw [← zpow_add₀ h2ne]
            rw [show x.e + 52 + -(x.e - 1) = (53 : ℤ) from by ring]
            norm_num [← zpow_natCast]
          rw [e8] at e7
          have : ((((2 ^ 53 : ℕ) : ℤ) : ℚ)) = (2 : ℚ) ^ (53 : ℕ) := by push_cast; ring
          rw [this]
          linarith
      rw [hround]
      rw [if_pos (by norm_num)]
      rw [if_pos (by omega)]
      rw [show x.e + 51 - 52 + 1 = x.e from by ring, hm52]
  · -- uniform spacing on both sides
    rw [if_neg hcase] at h1
    rcases hval with ⟨hesub, hmsub⟩ | ⟨hmge, hmlt, -, -⟩
    · -- subnormal
      have hup : q.toQ < (2 : ℚ) ^ (-1022 : ℤ) := by
        rw [habs, hesub] at h2
        have e7 : (x.m : ℚ) * (2 : ℚ) ^ (-1074 : ℤ) + (2 : ℚ) ^ ((-1074 : ℤ) - 1) ≤
            (2 : ℚ) ^ (-1022 : ℤ) := by
          have hmle : (x.m : ℚ) ≤ (2 : ℚ) ^ (52 : ℕ) - 1 := by
            have : (x.m : ℚ) ≤ ((2 ^ 52 - 1 : ℕ) : ℚ) := by
              exact_mod_cast (by omega : x.m ≤ 2 ^ 52 - 1)
            calc (x.m : ℚ) ≤ ((2 ^ 52 - 1 : ℕ) : ℚ) := this
              _ = (2 : ℚ) ^ (52 : ℕ) - 1 := by push_cast; ring
          have hp := zpow_pos (show (0:ℚ) < 2 from by norm_num) (-1074 : ℤ)
          have e8 : ((2 : ℚ) ^ (52 : ℕ) - 1) * (2 : ℚ) ^ (-1074 : ℤ) +
              (2 : ℚ) ^ ((-1074 : ℤ) - 1) ≤ (2 : ℚ) ^ (-1022 : ℤ) := by
            have c1 : (2 : ℚ) ^ (52 : ℕ) * (2 : ℚ) ^ (-1074 : ℤ) = (2 : ℚ) ^ (-1022 : ℤ) := by
              rw [show ((2:ℚ) ^ (52 : ℕ)) = (2:ℚ) ^ ((52:ℕ) : ℤ) from by
                norm_num [← zpow_natCast], ← zpow_add₀ h2ne]
              norm_num
            have c2 : (0:ℚ) < (2 : ℚ) ^ ((-1074 : ℤ) - 1) := by positivity
            have c3 : (2 : ℚ) ^ ((-1074 : ℤ) - 1) ≤ (2 : ℚ) ^ (-1074 : ℤ) :=
              zpow_le_zpow_right₀ (by norm_num) (by omega)
            nlinarith
          have := mul_le_mul_of_nonneg_right hmle hp.le
          linarith
        exact lt_of_lt_of_le h2 e7
      have hLle : L ≤ -1023 := by
        by_contra hc
        push_neg at hc
        have : (2 : ℚ) ^ (-1022 : ℤ) ≤ (2 : ℚ) ^ L := zpow_le_zpow_right₀ (by norm_num) (by omega)
        linarith
      rw [if_pos (by omega)]
      have hy : (QR.scale 2 1074 q).toQ = q.toQ * (2 : ℚ) ^ (1074 : ℤ) := hscale 1074
      have hround : QR.round (QR.scale 2 1074 q) = (x.m : ℤ) := by
        apply QR.round_spec (hscaled _)
        · rw [hy]
          rw [habs, hesub] at h1
          have e7 : ((x.m : ℚ) * (2 : ℚ) ^ (-1074 : ℤ) - (2 : ℚ) ^ ((-1074 : ℤ) - 1)) *
              (2 : ℚ) ^ (1074 : ℤ) < q.toQ * (2 : ℚ) ^ (1074 : ℤ) := by
            apply mul_lt_mul_of_pos_right _ (by positivity)
            linarith
          have e8 : ((x.m : ℚ) * (2 : ℚ) ^ (-1074 : ℤ) - (2 : ℚ) ^ ((-1074 : ℤ) - 1)) *
              (2 : ℚ) ^ (1074 : ℤ) = (x.m : ℚ) - (2 : ℚ) ^ (-1 : ℤ) := by
            rw [sub_mul, mul_assoc, ← zpow_add₀ h2ne, ← zpow_add₀ h2ne]
            norm_num
          rw [e8] at e7
          rw [show ((2 : ℚ) ^ (-1 : ℤ)) = 1 / 2 from by norm_num] at e7
          have hcast : (((x.m : ℤ)) : ℚ) = (x.m : ℚ) := by push_cast; ring
          rw [hcast]
          linarith
        · rw [hy]
          rw [habs, hesub] at h2
          have e7 : q.toQ * (2 : ℚ) ^ (1074 : ℤ) <
              ((x.m : ℚ) * (2 : ℚ) ^ (-1074 : ℤ) + (2 : ℚ) ^ ((-1074 : ℤ) - 1)) *
                (2 : ℚ) ^ (1074 : ℤ) := by
            apply mul_lt_mul_of_pos_right _ (by positivity)
            linarith
          have e8 : ((x.m : ℚ) * (2 : ℚ) ^ (-1074 : ℤ) + (2 : ℚ) ^ ((-1074 : ℤ) - 1)) *
              (2 : ℚ) ^ (1074 : ℤ) = (x.m : ℚ) + (2 : ℚ) ^ (-1 : ℤ) := by
            rw [add_mul, mul_assoc, ← zpow_add₀ h2ne, ← zpow_add₀ h2ne]
            norm_num
          rw [e8] at e7
          rw [show ((2 : ℚ) ^ (-1 : ℤ)) = 1 / 2 from by norm_num] at e7
          have hcast : (((x.m : ℤ)) : ℚ) = (x.m : ℚ) := by push_cast; ring
          rw [hcast]
          linarith
      rw [hround]
      rw [hesub, show ((x.m : ℤ)).toNat = x.m from by simp]
    · -- normal, with uniform spacing: m > 2^52, or m = 2^52 at the bottom exponent
      have hmgt : 2 ^ 52 < x.m ∨ (x.m = 2 ^ 52 ∧ x.e = -1074) := by
        rcases Nat.lt_or_ge (2 ^ 52) x.m with h | h
        · exact Or.inl h
        · have : x.m = 2 ^ 52 := by omega
          refine Or.inr ⟨this, ?_⟩
          by_contra hc
          exact hcase ⟨this, by omega⟩
      -- q is within half a spacing of m·2^e on both sides
      rw [habs] at h1 h2
      by_cases hup : (2 : ℚ) ^ (x.e + 52) ≤ q.toQ
      · -- same binade: the plain normal computation
        have hLval : L = x.e + 52 := by
          apply zpow_binade_unique hL1 hL2 hup
          have hmle : (x.m : ℚ) ≤ (2 : ℚ) ^ (53 : ℕ) - 1 := by
            have : (x.m : ℚ) ≤ ((2 ^ 53 - 1 : ℕ) : ℚ) := by
              exact_mod_cast (by omega : x.m ≤ 2 ^ 53 - 1)
            calc (x.m : ℚ) ≤ ((2 ^ 53 - 1 : ℕ) : ℚ) := this
              _ = (2 : ℚ) ^ (53 : ℕ) - 1 := by push_cast; ring
          have hp := zpow_pos (show (0:ℚ) < 2 from by norm_num) x.e
          have c1 : (2 : ℚ) ^ (53 : ℕ) * (2 : ℚ) ^ x.e = (2 : ℚ) ^ (x.e + 52 + 1) := by
            rw [show x.e + 52 + 1 = (53 : ℤ) + x.e from by ring, zpow_add₀ h2ne]
            congr 1
            norm_num [← zpow_natCast]
          have c2 : (2 : ℚ) ^ (x.e - 1) < (2 : ℚ) ^ x.e :=
            by
              have := zpow_le_zpow_right₀ (show (1:ℚ) ≤ 2 from by norm_num)
                (show x.e - 1 ≤ x.e from by omega)
              have h2e : (2 : ℚ) ^ x.e = 2 * (2 : ℚ) ^ (x.e - 1) := by
                rw [show x.e = (x.e - 1) + 1 from by ring, zpow_add_one₀ h2ne]
                ring
              have hp2 := zpow_pos (show (0:ℚ) < 2 from by norm_num) (x.e - 1)
              linarith
          have := mul_le_mul_of_nonneg_right hmle hp.le
          calc q.toQ < (x.m : ℚ) * (2 : ℚ) ^ x.e + (2 : ℚ) ^ (x.e - 1) := h2
            _ ≤ ((2 : ℚ) ^ (53 : ℕ) - 1) * (2 : ℚ) ^ x.e + (2 : ℚ) ^ x.e := by linarith
            _ = (2 : ℚ) ^ (53 : ℕ) * (2 : ℚ) ^ x.e := by ring
            _ = (2 : ℚ) ^ (x.e + 52 + 1) := c1
        rw [hLval]
        rw [if_neg (by omega)]
        have hy : (QR.scale 2 (-(x.e + 52 - 52)) q).toQ = q.toQ * (2 : ℚ) ^ (-x.e) := by
          rw [hscale]
          congr 1
          congr 1
          ring
        have hround : QR.round (QR.scale 2 (-(x.e + 52 - 52)) q) = (x.m : ℤ) := by
          apply QR.round_spec (hscaled _)
          · rw [hy]
            have e7 : ((x.m : ℚ) * (2 : ℚ) ^ x.e - (2 : ℚ) ^ (x.e - 1)) * (2:ℚ)^(-x.e) <
                q.toQ * (2:ℚ)^(-x.e) :=
              mul_lt_mul_of_pos_right (by linarith) (by positivity)
            have e8 : ((x.m : ℚ) * (2 : ℚ) ^ x.e - (2 : ℚ) ^ (x.e - 1)) * (2:ℚ)^(-x.e) =
                (x.m : ℚ) - (2 : ℚ) ^ (-1 : ℤ) := by
              rw [sub_mul, mul_zpow_neg_cancel ((x.m : ℚ)) x.e, ← zpow_add₀ h2ne]
              congr 2
              ring
            rw [e8] at e7
            rw [show ((2 : ℚ) ^ (-1 : ℤ)) = 1 / 2 from by norm_num] at e7
            have hcast : (((x.m : ℤ)) : ℚ) = (x.m : ℚ) := by push_cast; ring
            rw [hcast]
            linarith
          · rw [hy]
            have e7 : q.toQ * (2:ℚ)^(-x.e) <
                ((x.m : ℚ) * (2 : ℚ) ^ x.e + (2 : ℚ) ^ (x.e - 1)) * (2:ℚ)^(-x.e) :=
              mul_lt_mul_of_pos_right h2 (by positivity)
            have e8 : ((x.m : ℚ) * (2 : ℚ) ^ x.e + (2 : ℚ) ^ (x.e - 1)) * (2:ℚ)^(-x.e) =
                (x.m : ℚ) + (2 : ℚ) ^ (-1 : ℤ) := by
              rw [add_mul, mul_zpow_neg_cancel ((x.m : ℚ)) x.e, ← zpow_add₀ h2ne]
              congr 2
              ring
            rw [e8] at e7
            rw [show ((2 : ℚ) ^ (-1 : ℤ)) = 1 / 2 from by norm_num] at e7
            have hcast : (((x.m : ℤ)) : ℚ) = (x.m : ℚ) := by push_cast; ring
            rw [hcast]
            linarith
        rw [hround]
        rw [if_neg (by
          intro hcontra
          have hcontra2 : ((x.m : ℤ)) = 2 ^ 53 := hcontra
          omega)]
        rw [if_pos (by omega)]
        rw [show ((x.m : ℤ)).toNat = x.m from by simp]
        rw [show x.e + 52 - 52 = x.e from by ring]
      · -- below the binade: only possible for m = 2^52 at the bottom exponent
        push_neg at hup
        have hm52e : x.m = 2 ^ 52 ∧ x.e = -1074 := by
          rcases hmgt with hgt | hpair
          · exfalso
            have hq1 : (2 : ℚ) ^ (x.e + 52) ≤ (x.m : ℚ) * (2 : ℚ) ^ x.e - (2 : ℚ) ^ (x.e - 1) := by
              have hmge2 : ((2 : ℚ) ^ (52 : ℕ)) + 1 ≤ (x.m : ℚ) := by
                have : ((2 ^ 52 + 1 : ℕ) : ℚ) ≤ (x.m : ℚ) := by
                  exact_mod_cast (by omega : 2 ^ 52 + 1 ≤ x.m)
                calc ((2 : ℚ) ^ (52 : ℕ)) + 1 = ((2 ^ 52 + 1 : ℕ) : ℚ) := by push_cast; ring
                  _ ≤ (x.m : ℚ) := this
              have hp := zpow_pos (show (0:ℚ) < 2 from by norm_num) x.e
              have c1 : (2 : ℚ) ^ (52 : ℕ) * (2 : ℚ) ^ x.e = (2 : ℚ) ^ (x.e + 52) := by
                rw [show x.e + 52 = (52 : ℤ) + x.e from by ring, zpow_add₀ h2ne]
                congr 1
                norm_num [← zpow_natCast]
              have c2 : (2 : ℚ) ^ (x.e - 1) < (2 : ℚ) ^ x.e := by
                have h2e : (2 : ℚ) ^ x.e = 2 * (2 : ℚ) ^ (x.e - 1) := by
                  rw [show x.e = (x.e - 1) + 1 from by ring, zpow_add_one₀ h2ne]
                  ring
                have hp2 := zpow_pos (show (0:ℚ) < 2 from by norm_num) (x.e - 1)
                linarith
              have := mul_le_mul_of_nonneg_right hmge2 hp.le
              calc (2 : ℚ) ^ (x.e + 52) = (2 : ℚ) ^ (52 : ℕ) * (2 : ℚ) ^ x.e := c1.symm
                _ ≤ (x.m : ℚ) * (2 : ℚ) ^ x.e - (2 : ℚ) ^ x.e := by linarith
                _ ≤ (x.m : ℚ) * (2 : ℚ) ^ x.e - (2 : ℚ) ^ (x.e - 1) := by linarith
            linarith
          · exact hpair
        obtain ⟨hm52, he1074⟩ := hm52e
        rw [hm52, he1074] at h1 h2
        have hcast52 : ((2 ^ 52 : ℕ) : ℚ) = (2 : ℚ) ^ (52 : ℕ) := by push_cast; ring
        rw [hcast52] at h1 h2
        have hqlo2 : (2 : ℚ) ^ ((-1074 : ℤ) + 51) ≤ q.toQ := by
          have c1 : (2 : ℚ) ^ (52 : ℕ) * (2 : ℚ) ^ (-1074 : ℤ) = (2 : ℚ) ^ ((-1074 : ℤ) + 52) := by
            rw [show (-1074 : ℤ) + 52 = (52 : ℤ) + -1074 from by ring, zpow_add₀ h2ne]
            congr 1
            norm_num [← zpow_natCast]
          have c2 : (2 : ℚ) ^ ((-1074 : ℤ) + 52) = 2 * (2 : ℚ) ^ ((-1074 : ℤ) + 51) := by
            rw [show (-1074 : ℤ) + 52 = ((-1074 : ℤ) + 51) + 1 from by ring, zpow_add_one₀ h2ne]
            ring
          have c3 : (2 : ℚ) ^ ((-1074 : ℤ) - 1) ≤ (2 : ℚ) ^ ((-1074 : ℤ) + 51) :=
            zpow_le_zpow_right₀ (by norm_num) (by omega)
          rw [c1, c2] at h1
          linarith
        have hLval : L = (-1074 : ℤ) + 51 := by
          apply zpow_binade_unique hL1 hL2 hqlo2
          rw [show (-1074 : ℤ) + 51 + 1 = (-1074 : ℤ) + 52 from by ring]
          rw [he1074] at hup
          exact hup
        rw [hLval]
        rw [if_pos (by omega)]
        have hy : (QR.scale 2 1074 q).toQ = q.toQ * (2 : ℚ) ^ (1074 : ℤ) := hscale 1074
        have hround : QR.round (QR.scale 2 1074 q) = ((2 ^ 52 : ℕ) : ℤ) := by
          apply QR.round_spec (hscaled _)
          · rw [hy]
            have e7 : ((2 : ℚ) ^ (52 : ℕ) * (2 : ℚ) ^ (-1074 : ℤ) -
                (2 : ℚ) ^ ((-1074 : ℤ) - 1)) * (2 : ℚ) ^ (1074 : ℤ) <
                q.toQ * (2 : ℚ) ^ (1074 : ℤ) :=
              mul_lt_mul_of_pos_right (by linarith) (by positivity)
            have e8 : ((2 : ℚ) ^ (52 : ℕ) * (2 : ℚ) ^ (-1074 : ℤ) -
                (2 : ℚ) ^ ((-1074 : ℤ) - 1)) * (2 : ℚ) ^ (1074 : ℤ) =
                (2 : ℚ) ^ (52 : ℕ) - (2 : ℚ) ^ (-1 : ℤ) := by
              rw [sub_mul, mul_assoc, ← zpow_add₀ h2ne, ← zpow_add₀ h2ne]
              norm_num
            rw [e8] at e7
            rw [show ((2 : ℚ) ^ (-1 : ℤ)) = 1 / 2 from by norm_num] at e7
            have hcast : ((((2 ^ 52 : ℕ) : ℤ)) : ℚ) = (2 : ℚ) ^ (52 : ℕ) := by push_cast; ring
            rw [hcast]
            linarith
          · rw [hy]
            have e7 : q.toQ * (2 : ℚ) ^ (1074 : ℤ) <
                ((2 : ℚ) ^ (52 : ℕ) * (2 : ℚ) ^ (-1074 : ℤ) +
                  (2 : ℚ) ^ ((-1074 : ℤ) - 1)) * (2 : ℚ) ^ (1074 : ℤ) :=
              mul_lt_mul_of_pos_right (by linarith) (by positivity)
            have e8 : ((2 : ℚ) ^ (52 : ℕ) * (2 : ℚ) ^ (-1074 : ℤ) +
                (2 : ℚ) ^ ((-1074 : ℤ) - 1)) * (2 : ℚ) ^ (1074 : ℤ) =
                (2 : ℚ) ^ (52 : ℕ) + (2 : ℚ) ^ (-1 : ℤ) := by
              rw [add_mul, mul_assoc, ← zpow_add₀ h2ne, ← zpow_add₀ h2ne]
              norm_num
            rw [e8] at e7
            rw [show ((2 : ℚ) ^ (-1 : ℤ)) = 1 / 2 from by norm_num] at e7
            have hcast : ((((2 ^ 52 : ℕ) : ℤ)) : ℚ) = (2 : ℚ) ^ (52 : ℕ) := by push_cast; ring
            rw [hcast]
            linarith
        rw [hround]
        rw [he1074, hm52, show ((2 ^ 52 : ℕ) : ℤ).toNat = (2 ^ 52 : ℕ) from by simp]

/-! ### Digit runs, split helpers and integer-line inverses -/

theorem take_len_append (p t : List ℕ) : (p ++ t).take p.length = p := by
  simp

theorem drop_len_append (p t : List ℕ) : (p ++ t).drop p.length = t := by
  simp

theorem splitOnByte_no_sep (sep : ℕ) : ∀ (l : List ℕ), (∀ c ∈ l, c ≠ sep) →
    splitOnByte sep l = (l, none) := by
  intro l
  induction l with
  | nil => intro _; rfl
  | cons c cs ih =>
    intro h
    rw [splitOnByte, if_neg (h c (by simp)), ih (fun x hx => h x (by simp [hx]))]

theorem splitOnByte_append (sep : ℕ) : ∀ (l1 l2 : List ℕ), (∀ c ∈ l1, c ≠ sep) →
    splitOnByte sep (l1 ++ sep :: l2) = (l1, some l2) := by
  intro l1
  induction l1 with
  | nil => intro l2 _; simp [splitOnByte]
  | cons c cs ih =>
    intro l2 h
    rw [List.cons_append, splitOnByte, if_neg (h c (by simp)),
      ih l2 (fun x hx => h x (by simp [hx]))]

theorem foldl_ms_acc : ∀ (l : List ℕ) (acc : ℕ),
    l.foldl (fun a d => a * 10 + d) acc =
      acc * 10 ^ l.length + l.foldl (fun a d => a * 10 + d) 0 := by
  intro l
  induction l with
  | nil => intro acc; simp
  | cons d ds ih =>
    intro acc
    simp only [List.foldl_cons, List.length_cons]
    rw [ih (acc * 10 + d), ih (0 * 10 + d)]
    ring

theorem foldl_ms_append (l1 l2 : List ℕ) :
    (l1 ++ l2).foldl (fun a d => a * 10 + d) 0 =
      (l1.foldl (fun a d => a * 10 + d) 0) * 10 ^ l2.length +
        l2.foldl (fun a d => a * 10 + d) 0 := by
  rw [List.foldl_append, foldl_ms_acc]

theorem foldl_ms_replicate (z : ℕ) :
    (List.replicate z 0).foldl (fun a d : ℕ => a * 10 + d) 0 = 0 := by
  induction z with
  | zero => rfl
  | succ z ih => simpa [List.replicate_succ] using ih

/-- Parse of a pure mapped digit run. -/
theorem parseNat_digits (ds : List ℕ) (hlt : ∀ d ∈ ds, d < 10) (hne : ds ≠ []) :
    parseNat (ds.map (fun d => d + 48)) = some (ds.foldl (fun a d => a * 10 + d) 0) := by
  obtain ⟨c, cs, hl⟩ := List.exists_cons_of_ne_nil hne
  subst hl
  simp only [List.map_cons]
  rw [show parseNat ((c + 48) :: cs.map (fun d => d + 48)) =
      parseNatAux ((c + 48) :: cs.map (fun d => d + 48)) 0 from rfl]
  have := parseNatAux_digits (c :: cs) 0 hlt
  simpa using this

/-- The decimal digit list (most significant first) underlying `natToDec`
of a positive number. -/
theorem natToDec_digits (n : ℕ) (hn : 0 < n) :
    natToDec n = ((natDigitsRevAux n n).reverse).map (fun d => d + 48) ∧
    (∀ d ∈ (natDigitsRevAux n n).reverse, d < 10) ∧
    (natDigitsRevAux n n).reverse ≠ [] ∧
    ((natDigitsRevAux n n).reverse).foldl (fun a d => a * 10 + d) 0 = n := by
  refine ⟨by rw [natToDec, if_neg hn.ne'], ?_, ?_, ?_⟩
  · intro d hd
    exact natDigitsRevAux_lt_ten n n d (List.mem_reverse.mp hd)
  · simp only [ne_eq, List.reverse_eq_nil_iff]
    exact natDigitsRevAux_ne_nil n n hn hn
  · have := foldl_reverse_digitsVal (natDigitsRevAux n n) 0
    rw [this]
    simpa using natDigitsRevAux_val n n le_rfl

/-- `natToDec` padded with `z` ASCII zeros parses as `n * 10^z`. -/
theorem parseNat_natToDec_pad (n z : ℕ) (hn : 0 < n) :
    parseNat (natToDec n ++ List.replicate z 48) = some (n * 10 ^ z) := by
  obtain ⟨hrepr, hlt, hne, hval⟩ := natToDec_digits n hn
  have hzrep : List.replicate z 48 = (List.replicate z 0).map (fun d => d + 48) := by
    simp [List.map_replicate]
  rw [hrepr, hzrep, ← List.map_append]
  rw [parseNat_digits _ (by
    intro d hd
    rcases List.mem_append.mp hd with h | h
    · exact hlt d h
    · have := List.eq_of_mem_replicate h
      omega) (by simp [hne])]
  rw [foldl_ms_append, hval, foldl_ms_replicate]
  simp

/-- The digit count of `n` is `k` exactly when `10^(k-1) ≤ n < 10^k`. -/
theorem natDigitsRevAux_length : ∀ (k : ℕ), 0 < k → ∀ (fuel n : ℕ), n ≤ fuel →
    10 ^ (k - 1) ≤ n → n < 10 ^ k → (natDigitsRevAux fuel n).length = k := by
  intro k
  induction k with
  | zero => omega
  | succ k ih =>
    intro _ fuel n hfuel hlo hhi
    have hnpos : 0 < n := lt_of_lt_of_le (Nat.pos_pow_of_pos _ (by norm_num)) hlo
    rcases fuel with _ | f
    · omega
    rcases n with _ | m
    · omega
    rw [natDigitsRevAux]
    simp only [List.length_cons]
    rcases Nat.eq_zero_or_pos k with hk0 | hkpos
    · subst hk0
      have hdiv : (m + 1) / 10 = 0 := Nat.div_eq_of_lt (by simpa using hhi)
      rw [hdiv]
      match f with
      | 0 => rfl
      | _ + 1 => rfl
    · have hdlo : 10 ^ (k - 1) ≤ (m + 1) / 10 := by
        have hle : 10 ^ k ≤ m + 1 := by simpa using hlo
        have h10 : 10 ^ k = 10 ^ (k - 1) * 10 := by
          rw [← pow_succ]
          congr 1
          omega
        rw [Nat.le_div_iff_mul_le (by norm_num)]
        omega
      have hdhi : (m + 1) / 10 < 10 ^ k := by
        rw [Nat.div_lt_iff_lt_mul (by norm_num)]
        calc m + 1 < 10 ^ (k + 1) := hhi
          _ = 10 ^ k * 10 := by rw [pow_succ]
      have hdfuel : (m + 1) / 10 ≤ f := by
        have := Nat.div_lt_self (Nat.succ_pos m) (show 1 < 10 by norm_num)
        omega
      rw [ih hkpos f ((m + 1) / 10) hdfuel hdlo hdhi]

theorem natToDec_length (n k : ℕ) (hk : 0 < k) (hlo : 10 ^ (k - 1) ≤ n)
    (hhi : n < 10 ^ k) : (natToDec n).length = k := by
  have hnpos : 0 < n := lt_of_lt_of_le (Nat.pos_pow_of_pos _ (by norm_num)) hlo
  rw [natToDec, if_neg hnpos.ne']
  simp only [List.length_map, List.length_reverse]
  exact natDigitsRevAux_length k hk n n le_rfl hlo hhi

/-- Parsing the decimal of a natural as a signed integer line. -/
theorem parseIntLine_natToDec (n : ℕ) : parseIntLine (natToDec n) = some (n : ℤ) := by
  have hne : natToDec n ≠ [] := by
    rw [natToDec]
    split
    · simp
    · simp only [ne_eq, List.map_eq_nil_iff, List.reverse_eq_nil_iff]
      exact natDigitsRevAux_ne_nil n n (by omega) (by omega)
  obtain ⟨c, cs, hl⟩ := List.exists_cons_of_ne_nil hne
  have hc : 48 ≤ c ∧ c ≤ 57 := natToDec_no_cr_lf n c (by rw [hl]; simp)
  rw [hl, parseIntLine, if_neg (by omega), if_neg (by omega), ← hl, parseNat_natToDec]
  rfl

/-- Parsing an explicitly signed decimal integer line. -/
theorem parseIntLine_signed (n : ℤ) :
    parseIntLine ((if n < 0 then [45] else [43]) ++ natToDec n.natAbs) = some n := by
  by_cases hn : n < 0
  · rw [if_pos hn, List.cons_append, List.nil_append, parseIntLine, if_pos rfl,
      show parseNat (natToDec n.natAbs) = some n.natAbs from parseNat_natToDec _]
    show some (-(n.natAbs : ℤ)) = some n
    congr 1
    omega
  · rw [if_neg hn, List.cons_append, List.nil_append, parseIntLine,
      if_neg (by norm_num), if_pos rfl,
      show parseNat (natToDec n.natAbs) = some n.natAbs from parseNat_natToDec _]
    show some ((n.natAbs : ℤ)) = some n
    congr 1
    omega

/-- Parsing both halves of a digit run split at position `j`, and how the
two values recombine. -/
theorem parse_digits_split (dsr : List ℕ) (j : ℕ) (hlt : ∀ d ∈ dsr, d < 10)
    (hj1 : 1 ≤ j) (hjlt : j < dsr.length) :
    parseNat ((dsr.map (fun d => d + 48)).take j) =
      some ((dsr.take j).foldl (fun a d => a * 10 + d) 0) ∧
    parseNat ((dsr.map (fun d => d + 48)).drop j) =
      some ((dsr.drop j).foldl (fun a d => a * 10 + d) 0) ∧
    ((dsr.take j).foldl (fun a d => a * 10 + d) 0) * 10 ^ (dsr.length - j) +
      (dsr.drop j).foldl (fun a d => a * 10 + d) 0 =
        dsr.foldl (fun a d => a * 10 + d) 0 := by
  refine ⟨?_, ?_, ?_⟩
  · rw [← List.map_take]
    exact parseNat_digits _ (fun d hd => hlt d (List.take_subset _ _ hd)) (by
      intro h
      have h2 := congrArg List.length h
      simp only [List.length_take, List.length_nil] at h2
      omega)
  · rw [← List.map_drop]
    exact parseNat_digits _ (fun d hd => hlt d (List.drop_subset _ _ hd)) (by
      intro h
      have h2 := congrArg List.length h
      simp only [List.length_drop, List.length_nil] at h2
      omega)
  · conv_rhs => rw [← List.take_append_drop j dsr]
    rw [foldl_ms_append, List.length_drop]

/-- Parsing the decimal of an integer (`-`-prefixed when negative). -/
theorem parseIntLine_intToDec (z : ℤ) : parseIntLine (intToDec z) = some z := by
  rw [intToDec]
  by_cases hz : z < 0
  · rw [if_pos hz, parseIntLine, if_pos rfl,
      show parseNat (natToDec z.natAbs) = some z.natAbs from parseNat_natToDec _]
    show some (-(z.natAbs : ℤ)) = some z
    congr 1
    omega
  · rw [if_neg hz]
    rw [parseIntLine_natToDec]
    congr 1
    omega

/-! ### Byte ranges of the float renderings -/

theorem renderPos_bytes (dd : DecDigits) : ∀ c ∈ renderPos dd, 46 ≤ c ∧ c ≤ 57 := by
  intro c hc
  simp only [renderPos] at hc
  split at hc
  · rcases List.mem_append.mp hc with h | h
    · have := natToDec_no_cr_lf dd.d c h
      omega
    · have := List.eq_of_mem_replicate h
      omega
  · split at hc
    · rcases List.mem_append.mp hc with h | h
      · rcases List.mem_append.mp h with h2 | h2
        · have := natToDec_no_cr_lf dd.d c (List.take_subset _ _ h2)
          omega
        · simp at h2
          omega
      · have := natToDec_no_cr_lf dd.d c (List.drop_subset _ _ h)
        omega
    · rcases List.mem_append.mp hc with h | h
      · rcases List.mem_append.mp h with h2 | h2
        · simp at h2
          omega
        · have := List.eq_of_mem_replicate h2
          omega
      · have := natToDec_no_cr_lf dd.d c h
        omega

theorem intToDec_bytes (z : ℤ) : ∀ c ∈ intToDec z, c = 45 ∨ (48 ≤ c ∧ c ≤ 57) := by
  intro c hc
  rw [intToDec] at hc
  split at hc
  · rcases List.mem_cons.mp hc with h | h
    · exact Or.inl h
    · exact Or.inr (natToDec_no_cr_lf _ c h)
  · exact Or.inr (natToDec_no_cr_lf _ c hc)

theorem renderExp_bytes (dd : DecDigits) :
    ∀ c ∈ renderExp dd, c = 101 ∨ c = 46 ∨ c = 45 ∨ (48 ≤ c ∧ c ≤ 57) := by
  intro c hc
  simp only [renderExp, List.mem_append] at hc
  rcases hc with ((h | h) | h) | h
  · exact Or.inr (Or.inr (Or.inr (natToDec_no_cr_lf _ c (List.take_subset _ _ h))))
  · split at h
    · simp at h
    · rcases List.mem_cons.mp h with h3 | h3
      · exact Or.inr (Or.inl h3)
      · exact Or.inr (Or.inr (Or.inr (natToDec_no_cr_lf _ c (List.drop_subset _ _ h3))))
  · simp only [List.mem_singleton] at h
    exact Or.inl h
  · rcases intToDec_bytes _ c h with h3 | h3
    · exact Or.inr (Or.inr (Or.inl h3))
    · exact Or.inr (Or.inr (Or.inr h3))

/-! ### Parsing back the two float renderings -/

/-- Positional rendering parses back to an exact fraction of the denoted
magnitude. -/
theorem parseF64Mag_renderPos (dd : DecDigits) (hk : 1 ≤ dd.k)
    (hdlo : 10 ^ (dd.k - 1) ≤ dd.d) (hdhi : dd.d < 10 ^ dd.k) :
    ∃ q', parseF64Mag (renderPos dd) = some q' ∧ 0 < q'.d ∧ q'.toQ = dd.value := by
  have hdpos : 0 < dd.d := lt_of_lt_of_le (Nat.pos_pow_of_pos _ (by norm_num)) hdlo
  have hlen : (natToDec dd.d).length = dd.k := natToDec_length _ _ (by omega) hdlo hdhi
  by_cases h1 : (dd.k : ℤ) - 1 ≤ dd.t
  · -- all digits before the point, zero-padded
    have hr : renderPos dd = natToDec dd.d ++ List.replicate (dd.t - dd.k + 1).toNat 48 := by
      simp only [renderPos]
      rw [if_pos h1]
    have hb : ∀ c ∈ natToDec dd.d ++ List.replicate (dd.t - dd.k + 1).toNat 48,
        48 ≤ c ∧ c ≤ 57 := by
      intro c hc
      rcases List.mem_append.mp hc with h | h
      · exact natToDec_no_cr_lf _ c h
      · have := List.eq_of_mem_replicate h
        omega
    rw [hr]
    have hsp101 : splitOnByte 101 (natToDec dd.d ++ List.replicate (dd.t - dd.k + 1).toNat 48) =
        (natToDec dd.d ++ List.replicate (dd.t - dd.k + 1).toNat 48, none) :=
      splitOnByte_no_sep _ _ (fun c hc => by have := hb c hc; omega)
    have hsp46 : splitOnByte 46 (natToDec dd.d ++ List.replicate (dd.t - dd.k + 1).toNat 48) =
        (natToDec dd.d ++ List.replicate (dd.t - dd.k + 1).toNat 48, none) :=
      splitOnByte_no_sep _ _ (fun c hc => by have := hb c hc; omega)
    have hpn : parseNat (natToDec dd.d ++ List.replicate (dd.t - dd.k + 1).toNat 48) =
        some (dd.d * 10 ^ (dd.t - dd.k + 1).toNat) :=
      parseNat_natToDec_pad _ _ hdpos
    refine ⟨QR.scale 10 0 (.ofInt ((dd.d * 10 ^ (dd.t - dd.k + 1).toNat : ℕ) : ℤ)), ?_,
      QR.scale_d_pos 10 0 (by norm_num) (QR.ofInt_d_pos _), ?_⟩
    · simp only [parseF64Mag, hsp101, hsp46, hpn]
    · rw [QR.scale_toQ 10 0 (by norm_num) (QR.ofInt_d_pos _), QR.toQ_ofInt, DecDigits.value,
        zpow_zero, mul_one]
      push_cast
      rw [show ((10:ℚ) ^ ((dd.t - dd.k + 1).toNat : ℕ)) =
          (10:ℚ) ^ (((dd.t - dd.k + 1).toNat : ℕ) : ℤ) from by norm_num [← zpow_natCast]]
      rw [show (((dd.t - dd.k + 1).toNat : ℕ) : ℤ) = dd.t - dd.k + 1 from by omega]
  · by_cases h2 : 0 ≤ dd.t
    · -- a decimal point inside the digit run
      obtain ⟨hrepr, hltd, hned, hvald⟩ := natToDec_digits dd.d hdpos
      set j := dd.t.toNat + 1 with hj
      have hdsrlen : ((natDigitsRevAux dd.d dd.d).reverse).length = dd.k := by
        have h3 := congrArg List.length hrepr
        simp only [List.length_map] at h3
        omega
      have hjlt : j < dd.k := by omega
      obtain ⟨hA, hB, hAB⟩ := parse_digits_split _ j hltd (by omega) (by omega)
      rw [← hrepr] at hA hB
      set A := (((natDigitsRevAux dd.d dd.d).reverse).take j).foldl (fun a d => a * 10 + d) 0
        with hAdef
      set B := (((natDigitsRevAux dd.d dd.d).reverse).drop j).foldl (fun a d => a * 10 + d) 0
        with hBdef
      have hr : renderPos dd = (natToDec dd.d).take j ++ 46 :: (natToDec dd.d).drop j := by
        simp only [renderPos]
        rw [if_neg h1, if_pos h2]
        simp
      rw [hr]
      have hbtake : ∀ c ∈ (natToDec dd.d).take j, 48 ≤ c ∧ c ≤ 57 := fun c hc =>
        natToDec_no_cr_lf _ c (List.take_subset _ _ hc)
      have hbdrop : ∀ c ∈ (natToDec dd.d).drop j, 48 ≤ c ∧ c ≤ 57 := fun c hc =>
        natToDec_no_cr_lf _ c (List.drop_subset _ _ hc)
      have hsp101 : splitOnByte 101 ((natToDec dd.d).take j ++ 46 :: (natToDec dd.d).drop j) =
          ((natToDec dd.d).take j ++ 46 :: (natToDec dd.d).drop j, none) :=
        splitOnByte_no_sep _ _ (by
          intro c hc
          rcases List.mem_append.mp hc with h | h
          · have := hbtake c h
            omega
          · rcases List.mem_cons.mp h with h3 | h3
            · omega
            · have := hbdrop c h3
              omega)
      have hsp46 : splitOnByte 46 ((natToDec dd.d).take j ++ 46 :: (natToDec dd.d).drop j) =
          ((natToDec dd.d).take j, some ((natToDec dd.d).drop j)) :=
        splitOnByte_append _ _ _ (fun c hc => by have := hbtake c hc; omega)
      refine ⟨QR.scale 10 ((0 : ℤ) - ((((natToDec dd.d).drop j).length : ℕ) : ℤ))
          (.ofInt ((A : ℤ) * 10 ^ ((natToDec dd.d).drop j).length + (B : ℤ))), ?_,
        QR.scale_d_pos 10 _ (by norm_num) (QR.ofInt_d_pos _), ?_⟩
      · simp only [parseF64Mag, hsp101, hsp46, hA, hB]
      · rw [QR.scale_toQ 10 _ (by norm_num) (QR.ofInt_d_pos _), QR.toQ_ofInt, DecDigits.value]
        have hFlen : ((natToDec dd.d).drop j).length = dd.k - j := by
          rw [List.length_drop, hlen]
        have hABd : A * 10 ^ (dd.k - j) + B = dd.d := by
          rw [hdsrlen, hvald] at hAB
          exact hAB
        rw [hFlen]
        rw [show (0:ℤ) - ((dd.k - j : ℕ) : ℤ) = dd.t - dd.k + 1 from by omega]
        have hc1 : ((((A : ℤ) * 10 ^ (dd.k - j) + (B : ℤ) : ℤ)) : ℚ) = (dd.d : ℚ) := by
          exact_mod_cast hABd
        rw [hc1]
        norm_num
    · -- leading `0.` and zero padding before the digits
      push_neg at h2
      obtain ⟨hrepr, hltd, hned, hvald⟩ := natToDec_digits dd.d hdpos
      set z := (-dd.t - 1).toNat with hz
      have hr : renderPos dd = 48 :: 46 :: (List.replicate z 48 ++ natToDec dd.d) := by
        simp only [renderPos]
        rw [if_neg h1, if_neg (by omega)]
        simp
        omega
      rw [hr]
      have hbfp : ∀ c ∈ List.replicate z 48 ++ natToDec dd.d, 48 ≤ c ∧ c ≤ 57 := by
        intro c hc
        rcases List.mem_append.mp hc with h | h
        · have := List.eq_of_mem_replicate h
          omega
        · exact natToDec_no_cr_lf _ c h
      have hsp101 : splitOnByte 101 (48 :: 46 :: (List.replicate z 48 ++ natToDec dd.d)) =
          (48 :: 46 :: (List.replicate z 48 ++ natToDec dd.d), none) :=
        splitOnByte_no_sep _ _ (by
          intro c hc
          rcases List.mem_cons.mp hc with h | h
          · omega
          rcases List.mem_cons.mp h with h3 | h3
          · omega
          · have := hbfp c h3
            omega)
      have hsp46 : splitOnByte 46 (48 :: 46 :: (List.replicate z 48 ++ natToDec dd.d)) =
          ([48], some (List.replicate z 48 ++ natToDec dd.d)) := by
        have h4 := splitOnByte_append 46 [48] (List.replicate z 48 ++ natToDec dd.d)
          (by intro c hc; simp at hc; omega)
        simpa using h4
      have hip : parseNat [48] = some 0 := rfl
      have hfp : parseNat (List.replicate z 48 ++ natToDec dd.d) = some dd.d := by
        have heq : List.replicate z 48 ++ natToDec dd.d =
            (List.replicate z 0 ++ (natDigitsRevAux dd.d dd.d).reverse).map
              (fun d => d + 48) := by
          rw [List.map_append, List.map_replicate, hrepr]
        rw [heq, parseNat_digits _ (by
            intro d hd
            rcases List.mem_append.mp hd with h | h
            · have := List.eq_of_mem_replicate h
              omega
            · exact hltd d h) (by simp [hned])]
        rw [foldl_ms_append, foldl_ms_replicate, hvald]
        simp
      have hfplen : (List.replicate z 48 ++ natToDec dd.d).length = z + dd.k := by
        simp [hlen]
      refine ⟨QR.scale 10 ((0:ℤ) - (((List.replicate z 48 ++ natToDec dd.d).length : ℕ) : ℤ))
          (.ofInt (((0 : ℕ) : ℤ) * 10 ^ (List.replicate z 48 ++ natToDec dd.d).length +
            (dd.d : ℤ))), ?_,
        QR.scale_d_pos 10 _ (by norm_num) (QR.ofInt_d_pos _), ?_⟩
      · simp only [parseF64Mag, hsp101, hsp46, hip, hfp]
      · rw [QR.scale_toQ 10 _ (by norm_num) (QR.ofInt_d_pos _), QR.toQ_ofInt, DecDigits.value]
        rw [hfplen]
        rw [show (0:ℤ) - ((z + dd.k : ℕ) : ℤ) = dd.t - dd.k + 1 from by omega]
        push_cast
        ring

/-- Scientific rendering parses back to an exact fraction of the denoted
magnitude. -/
theorem parseF64Mag_renderExp (dd : DecDigits) (hk : 1 ≤ dd.k)
    (hdlo : 10 ^ (dd.k - 1) ≤ dd.d) (hdhi : dd.d < 10 ^ dd.k) :
    ∃ q', parseF64Mag (renderExp dd) = some q' ∧ 0 < q'.d ∧ q'.toQ = dd.value := by
  have hdpos : 0 < dd.d := lt_of_lt_of_le (Nat.pos_pow_of_pos _ (by norm_num)) hdlo
  have hlen : (natToDec dd.d).length = dd.k := natToDec_length _ _ (by omega) hdlo hdhi
  by_cases hk1 : dd.k ≤ 1
  · -- a single significant digit, no decimal point
    have htake : (natToDec dd.d).take 1 = natToDec dd.d := by
      apply List.take_of_length_le
      omega
    have hr : renderExp dd = natToDec dd.d ++ 101 :: intToDec dd.t := by
      simp only [renderExp]
      rw [if_pos hk1, htake]
      simp
    rw [hr]
    have hsp101 : splitOnByte 101 (natToDec dd.d ++ 101 :: intToDec dd.t) =
        (natToDec dd.d, some (intToDec dd.t)) :=
      splitOnByte_append _ _ _ (fun c hc => by have := natToDec_no_cr_lf _ c hc; omega)
    have hsp46 : splitOnByte 46 (natToDec dd.d) = (natToDec dd.d, none) :=
      splitOnByte_no_sep _ _ (fun c hc => by have := natToDec_no_cr_lf _ c hc; omega)
    have hpn : parseNat (natToDec dd.d) = some dd.d := parseNat_natToDec _
    have hex : parseIntLine (intToDec dd.t) = some dd.t := parseIntLine_intToDec _
    refine ⟨QR.scale 10 dd.t (.ofInt ((dd.d : ℕ) : ℤ)), ?_,
      QR.scale_d_pos 10 _ (by norm_num) (QR.ofInt_d_pos _), ?_⟩
    · simp only [parseF64Mag, hsp101, hsp46, hpn, hex]
    · rw [QR.scale_toQ 10 _ (by norm_num) (QR.ofInt_d_pos _), QR.toQ_ofInt, DecDigits.value]
      rw [show dd.t - (dd.k : ℤ) + 1 = dd.t from by omega]
      norm_num
  · -- leading digit, decimal point, remaining digits
    push_neg at hk1
    obtain ⟨hrepr, hltd, hned, hvald⟩ := natToDec_digits dd.d hdpos
    have hdsrlen : ((natDigitsRevAux dd.d dd.d).reverse).length = dd.k := by
      have h3 := congrArg List.length hrepr
      simp only [List.length_map] at h3
      omega
    obtain ⟨hA, hB, hAB⟩ := parse_digits_split _ 1 hltd le_rfl (by omega)
    rw [← hrepr] at hA hB
    set A := (((natDigitsRevAux dd.d dd.d).reverse).take 1).foldl (fun a d => a * 10 + d) 0
      with hAdef
    set B := (((natDigitsRevAux dd.d dd.d).reverse).drop 1).foldl (fun a d => a * 10 + d) 0
      with hBdef
    have hr : renderExp dd =
        ((natToDec dd.d).take 1 ++ 46 :: (natToDec dd.d).drop 1) ++ 101 :: intToDec dd.t := by
      simp only [renderExp]
      rw [if_neg (by omega)]
      simp
    rw [hr]
    have hbtake : ∀ c ∈ (natToDec dd.d).take 1, 48 ≤ c ∧ c ≤ 57 := fun c hc =>
      natToDec_no_cr_lf _ c (List.take_subset _ _ hc)
    have hbdrop : ∀ c ∈ (natToDec dd.d).drop 1, 48 ≤ c ∧ c ≤ 57 := fun c hc =>
      natToDec_no_cr_lf _ c (List.drop_subset _ _ hc)
    have hsp101 : splitOnByte 101
        (((natToDec dd.d).take 1 ++ 46 :: (natToDec dd.d).drop 1) ++ 101 :: intToDec dd.t) =
        ((natToDec dd.d).take 1 ++ 46 :: (natToDec dd.d).drop 1, some (intToDec dd.t)) :=
      splitOnByte_append _ _ _ (by
        intro c hc
        rcases List.mem_append.mp hc with h | h
        · have := hbtake c h
          omega
        · rcases List.mem_cons.mp h with h3 | h3
          · omega
          · have := hbdrop c h3
            omega)
    have hsp46 : splitOnByte 46 ((natToDec dd.d).take 1 ++ 46 :: (natToDec dd.d).drop 1) =
        ((natToDec dd.d).take 1, some ((natToDec dd.d).drop 1)) :=
      splitOnByte_append _ _ _ (fun c hc => by have := hbtake c hc; omega)
    have hex : parseIntLine (intToDec dd.t) = some dd.t := parseIntLine_intToDec _
    refine ⟨QR.scale 10 (dd.t - ((((natToDec dd.d).drop 1).length : ℕ) : ℤ))
        (.ofInt ((A : ℤ) * 10 ^ ((natToDec dd.d).drop 1).length + (B : ℤ))), ?_,
      QR.scale_d_pos 10 _ (by norm_num) (QR.ofInt_d_pos _), ?_⟩
    · simp only [parseF64Mag, hsp101, hsp46, hA, hB, hex]
    · rw [QR.scale_toQ 10 _ (by norm_num) (QR.ofInt_d_pos _), QR.toQ_ofInt, DecDigits.value]
      have hFlen : ((natToDec dd.d).drop 1).length = dd.k - 1 := by
        rw [List.length_drop, hlen]
      have hABd : A * 10 ^ (dd.k - 1) + B = dd.d := by
        rw [hdsrlen, hvald] at hAB
        exact hAB
      rw [hFlen]
      rw [show dd.t - ((dd.k - 1 : ℕ) : ℤ) = dd.t - dd.k + 1 from by omega]
      have hc1 : ((((A : ℤ) * 10 ^ (dd.k - 1) + (B : ℤ) : ℤ)) : ℚ) = (dd.d : ℚ) := by
        exact_mod_cast hABd
      rw [hc1]
      norm_num

theorem natToDec_ne_nil (n : ℕ) : natToDec n ≠ [] := by
  rw [natToDec]
  by_cases h : n = 0
  · rw [if_pos h]
    simp
  · rw [if_neg h]
    simp only [ne_eq, List.map_eq_nil_iff, List.reverse_eq_nil_iff]
    exact natDigitsRevAux_ne_nil n n (by omega) (by omega)

theorem renderPos_ne_nil (dd : DecDigits) : renderPos dd ≠ [] := by
  simp only [renderPos]
  split
  · simp [natToDec_ne_nil]
  · split
    · simp
    · simp

theorem renderExp_head (dd : DecDigits) :
    ∃ c cs, renderExp dd = c :: cs ∧ 48 ≤ c ∧ c ≤ 57 := by
  obtain ⟨c, cs2, hds⟩ := List.exists_cons_of_ne_nil (natToDec_ne_nil dd.d)
  have hc := natToDec_no_cr_lf dd.d c (by rw [hds]; simp)
  refine ⟨c, ((if dd.k ≤ 1 then [] else 46 :: List.drop 1 (c :: cs2)) ++ [101] ++
    intToDec dd.t : List ℕ), ?_, hc.1, hc.2⟩
  rw [renderExp, hds]
  simp

/-- Stripping the optional sign of a float line. -/
theorem parseF64Line_sign_mag (sg : Bool) (body : List ℕ) (hne : body ≠ [])
    (hhead : ∀ c ∈ body.take 1, c ≠ 45 ∧ c ≠ 43) :
    parseF64Line ((if sg then [45] else []) ++ body) =
      (parseF64Mag body).bind (nearestF64 sg) := by
  cases sg
  · show parseF64Line ([] ++ body) = _
    rw [List.nil_append]
    obtain ⟨c, cs, hcs⟩ := List.exists_cons_of_ne_nil hne
    have hc := hhead c (by rw [hcs]; simp)
    rw [hcs, parseF64Line, if_neg hc.1, if_neg hc.2, ← hcs]
  · show parseF64Line (45 :: body) = _
    rw [parseF64Line, if_pos rfl]

/-- `format!("{}")` of a finite double parses back to exactly that double. -/
theorem parseF64Line_fmtDisplay {x : F64} (hval : x.IsValid) :
    parseF64Line (fmtDisplay x) = some x := by
  by_cases hm : x.m = 0
  · obtain ⟨s, m, e⟩ := x
    simp only at hm
    subst hm
    have he : e = -1074 := by
      rcases hval with ⟨he, -⟩ | ⟨hge, -, -, -⟩
      · exact he
      · exfalso
        simp at hge
    subst he
    cases s <;> rfl
  · have hmpos : 0 < x.m := Nat.pos_of_ne_zero hm
    obtain ⟨hin, hk, hdlo, hdhi⟩ := shortestDigits_spec hval hmpos
    obtain ⟨q', hq1, hq2, hq3⟩ := parseF64Mag_renderPos _ hk hdlo hdhi
    have hfmt : fmtDisplay x = (if x.sign then [45] else []) ++ renderPos (shortestDigits x) := by
      rw [fmtDisplay, if_neg hm]
    have hin' : x.inInterval q' = true := by
      rw [x.inInterval_iff q' hq2, hq3, ← DecDigits.valQR_toQ]
      exact (x.inInterval_iff _ (DecDigits.valQR_d_pos _)).mp hin
    have hnear : nearestF64 x.sign q' = some ⟨x.sign, x.m, x.e⟩ :=
      nearestF64_correct hval hmpos x.sign hq2 hin'
    rw [hfmt, parseF64Line_sign_mag _ _ (renderPos_ne_nil _) (fun c hc => by
      have := renderPos_bytes _ c (List.take_subset _ _ hc)
      omega), hq1]
    show nearestF64 x.sign q' = some x
    rw [hnear]

/-- `format!("{:e}")` of a finite double parses back to exactly that double. -/
theorem parseF64Line_fmtExp {x : F64} (hval : x.IsValid) :
    parseF64Line (fmtExp x) = some x := by
  by_cases hm : x.m = 0
  · obtain ⟨s, m, e⟩ := x
    simp only at hm
    subst hm
    have he : e = -1074 := by
      rcases hval with ⟨he, -⟩ | ⟨hge, -, -, -⟩
      · exact he
      · exfalso
        simp at hge
    subst he
    cases s <;> rfl
  · have hmpos : 0 < x.m := Nat.pos_of_ne_zero hm
    obtain ⟨hin, hk, hdlo, hdhi⟩ := shortestDigits_spec hval hmpos
    obtain ⟨q', hq1, hq2, hq3⟩ := parseF64Mag_renderExp _ hk hdlo hdhi
    have hfmt : fmtExp x = (if x.sign then [45] else []) ++ renderExp (shortestDigits x) := by
      rw [fmtExp, if_neg hm]
    have hin' : x.inInterval q' = true := by
      rw [x.inInterval_iff q' hq2, hq3, ← DecDigits.valQR_toQ]
      exact (x.inInterval_iff _ (DecDigits.valQR_d_pos _)).mp hin
    have hnear : nearestF64 x.sign q' = some ⟨x.sign, x.m, x.e⟩ :=
      nearestF64_correct hval hmpos x.sign hq2 hin'
    obtain ⟨c, cs, hcs, hc1, hc2⟩ := renderExp_head (shortestDigits x)
    rw [hfmt, parseF64Line_sign_mag _ _ (by rw [hcs]; simp) (fun d hd => by
      rw [hcs] at hd
      simp at hd
      omega), hq1]
    show nearestF64 x.sign q' = some x
    rw [hnear]

/-! ### Rebuilding a sorted map is the identity -/

theorem insertSorted_gt_all (k : List ℕ) (v : RespFrame) :
    ∀ l : List (List ℕ × RespFrame), (∀ p ∈ l, lexLt p.1 k = true) →
      insertSorted k v l = l ++ [(k, v)] := by
  intro l
  induction l with
  | nil => intro _; rfl
  | cons p rest ih =>
    intro h
    have hp : lexLt p.1 k = true := h p (by simp)
    rw [insertSorted]
    rw [if_neg (by
      intro hlt
      have := lexLt_trans _ _ _ hlt hp
      rw [lexLt_irrefl] at this
      exact absurd this (by simp))]
    rw [if_neg (by
      intro hkp
      exact absurd hp (by rw [hkp, lexLt_irrefl]; simp))]
    rw [ih (fun q hq => h q (by simp [hq]))]
    rfl

theorem foldl_insert_sorted_acc :
    ∀ (l acc : List (List ℕ × RespFrame)), (acc ++ l).Pairwise entryLt →
      l.foldl (fun m p => insertSorted p.1 p.2 m) acc = acc ++ l := by
  intro l
  induction l with
  | nil => intro acc _; simp
  | cons p rest ih =>
    intro acc hpw
    have hgt : ∀ q ∈ acc, lexLt q.1 p.1 = true := by
      intro q hq
      have := (List.pairwise_append.mp hpw).2.2 q hq p (by simp)
      exact this
    have hstep : insertSorted p.1 p.2 acc = acc ++ [p] := by
      rw [insertSorted_gt_all _ _ _ hgt]
    rw [List.foldl_cons, hstep, ih (acc ++ [p]) (by simpa using hpw)]
    simp

/-- Rebuilding a map whose entries are already strictly key-sorted is the
identity: the `BTreeMap` of a sorted association list has exactly those
entries in that order. -/
theorem mapFromList_of_sorted (l : List (List ℕ × RespFrame))
    (h : keysSorted l = true) : mapFromList l = l := by
  rw [mapFromList, foldl_insert_sorted_acc l []
    (by simpa using (keysSorted_iff_pairwise l).mp h)]
  simp

/-! ### Wire safety of the line payloads -/

theorem noCRLF_mem {s : List ℕ} (h : noCRLF s = true) : ∀ c ∈ s, c ≠ 13 ∧ c ≠ 10 := by
  intro c hc
  rw [noCRLF] at h
  simp at h
  exact ⟨fun he => h.1 (he ▸ hc), fun he => h.2 (he ▸ hc)⟩

theorem fmtDisplay_no13 (x : F64) : ∀ c ∈ fmtDisplay x, c ≠ 13 := by
  intro c hc
  rw [fmtDisplay] at hc
  rcases List.mem_append.mp hc with h | h
  · split at h
    · simp at h
      omega
    · simp at h
  · split at h
    · simp at h
      omega
    · have := renderPos_bytes _ c h
      omega

theorem fmtExp_no13 (x : F64) : ∀ c ∈ fmtExp x, c ≠ 13 := by
  intro c hc
  rw [fmtExp] at hc
  rcases List.mem_append.mp hc with h | h
  · split at h
    · simp at h
      omega
    · simp at h
  · split at h
    · simp at h
      omega
    · rcases renderExp_bytes _ c h with h3 | h3 | h3 | h3 <;> omega

/-! ### Totality of the encoder on well-formed frames -/

theorem encodeTotalAux : ∀ n : ℕ,
    (∀ v : RespFrame, v.weight ≤ n → v.wf = true →
      ∃ out, RespFrame.encode v = some out ∧ v.weight + 2 ≤ out.length) ∧
    (∀ xs, weightFrames xs ≤ n → wfFrames xs = true →
      ∃ body, encodeFrames xs = some body ∧ weightFrames xs ≤ body.length + 1) ∧
    (∀ es, weightEntries es ≤ n → wfEntries es = true →
      ∃ body, encodeEntries es = some body ∧ weightEntries es ≤ body.length + 1) := by
  intro n
  induction n with
  | zero =>
    refine ⟨fun v hw => absurd hw (by have := v.weight_pos; omega),
      fun xs hw => absurd hw (by have := weightFrames_pos xs; omega),
      fun es hw => absurd hw (by have := weightEntries_pos es; omega)⟩
  | succ n ih =>
    obtain ⟨ihV, ihF, ihE⟩ := ih
    have hnd : ∀ m : ℕ, 1 ≤ (natToDec m).length :=
      fun m => List.length_pos.mpr (natToDec_ne_nil m)
    refine ⟨?_, ?_, ?_⟩
    · intro v hw hwf
      cases v with
      | simpleString s =>
        exact ⟨simpleStringEncode s, rfl, by simp [simpleStringEncode, RespFrame.weight, CRLF]⟩
      | simpleError s =>
        exact ⟨simpleErrorEncode s, rfl, by simp [simpleErrorEncode, RespFrame.weight, CRLF]⟩
      | integer z =>
        rw [RespFrame.wf] at hwf
        have hz := of_decide_eq_true hwf
        refine ⟨[58] ++ (if z < 0 then [45] else [43]) ++ natToDec z.natAbs ++ CRLF, ?_, ?_⟩
        · rw [RespFrame.encode, i64encode, if_neg (by omega)]
        · rw [show (RespFrame.integer z).weight = 1 from rfl]
          split <;> (simp [CRLF]; try omega)
      | bulkString p =>
        rw [RespFrame.wf] at hwf
        refine ⟨[36] ++ natToDec p.length ++ CRLF ++ p ++ CRLF, ?_, ?_⟩
        · rw [RespFrame.encode, bulkStringEncode, if_pos hwf]
        · simp [RespFrame.weight, CRLF]
          omega
      | array xs =>
        rw [RespFrame.wf] at hwf
        have hxw : weightFrames xs ≤ n := by
          rw [RespFrame.weight] at hw
          omega
        obtain ⟨body, hb, hbl⟩ := ihF xs hxw hwf
        refine ⟨[42] ++ natToDec xs.length ++ CRLF ++ body, ?_, ?_⟩
        · rw [RespFrame.encode, hb]
        · have := hnd xs.length
          simp [RespFrame.weight, CRLF]
          omega
      | null => exact ⟨[95] ++ CRLF, rfl, by simp [RespFrame.weight, CRLF]⟩
      | nullArray => exact ⟨[42, 45, 49] ++ CRLF, rfl, by simp [RespFrame.weight, CRLF]⟩
      | nullBulkString => exact ⟨[36, 45, 49] ++ CRLF, rfl, by simp [RespFrame.weight, CRLF]⟩
      | boolean bv =>
        refine ⟨[35] ++ (if bv then [116] else [102]) ++ CRLF, rfl, ?_⟩
        cases bv <;> simp [RespFrame.weight, CRLF]
      | double x =>
        refine ⟨f64encode x, rfl, ?_⟩
        rw [f64encode]
        split <;> simp [RespFrame.weight, CRLF]
      | bulkError s =>
        refine ⟨[33] ++ natToDec s.length ++ CRLF ++ s ++ CRLF, rfl, ?_⟩
        simp [RespFrame.weight, CRLF]
        omega
      | map es =>
        rw [RespFrame.wf, Bool.and_eq_true] at hwf
        have hew : weightEntries es ≤ n := by
          rw [RespFrame.weight] at hw
          omega
        obtain ⟨body, hb, hbl⟩ := ihE es hew hwf.2
        refine ⟨[37] ++ natToDec es.length ++ CRLF ++ body, ?_, ?_⟩
        · rw [RespFrame.encode, hb]
        · have := hnd es.length
          simp [RespFrame.weight, CRLF]
          omega
      | set es =>
        rw [RespFrame.wf] at hwf
        have hes : es = [] := List.isEmpty_iff.mp hwf
        subst hes
        refine ⟨[126] ++ natToDec 0 ++ CRLF ++ [], rfl, ?_⟩
        simp [RespFrame.weight, weightEntries, CRLF, natToDec]
    · intro xs hw hwf
      cases xs with
      | nil => exact ⟨[], rfl, by simp [weightFrames]⟩
      | cons x xs =>
        rw [wfFrames, Bool.and_eq_true] at hwf
        rw [weightFrames] at hw
        have hx := x.weight_pos
        have hxs := weightFrames_pos xs
        obtain ⟨ex, hex, hexl⟩ := ihV x (by omega) hwf.1
        obtain ⟨exs, hexs, hexsl⟩ := ihF xs (by omega) hwf.2
        refine ⟨ex ++ exs, ?_, ?_⟩
        · rw [encodeFrames, hex, hexs]
        · rw [weightFrames]
          simp only [List.length_append]
          omega
    · intro es hw hwf
      cases es with
      | nil => exact ⟨[], rfl, by simp [weightEntries]⟩
      | cons e es =>
        obtain ⟨k, v⟩ := e
        rw [wfEntries, Bool.and_eq_true, Bool.and_eq_true, Bool.and_eq_true] at hwf
        rw [weightEntries] at hw
        have hv := v.weight_pos
        have hes := weightEntries_pos es
        obtain ⟨ev, hev, hevl⟩ := ihV v (by omega) hwf.1.2
        obtain ⟨er, her, herl⟩ := ihE es (by omega) hwf.2
        refine ⟨simpleStringEncode k ++ ev ++ er, ?_, ?_⟩
        · rw [encodeEntries, hev, her]
        · rw [weightEntries]
          simp only [List.length_append, simpleStringEncode, CRLF]
          omega
/-! ### The wire round-trip, by induction on the decoding fuel -/

theorem decodeFrame_t43 (F : ℕ) (r : List ℕ) :
    decodeFrame (F + 1) (43 :: r) =
      match splitLine r with
      | none => .incomplete
      | some (line, _) =>
        if isValidUtf8 line then .complete (.simpleString line) (1 + line.length + 2)
        else .malformed := rfl

theorem decodeFrame_t45 (F : ℕ) (r : List ℕ) :
    decodeFrame (F + 1) (45 :: r) =
      match splitLine r with
      | none => .incomplete
      | some (line, _) =>
        if isValidUtf8 line then .complete (.simpleError line) (1 + line.length + 2)
        else .malformed := rfl

theorem decodeFrame_t58 (F : ℕ) (r : List ℕ) :
    decodeFrame (F + 1) (58 :: r) =
      match splitLine r with
      | none => .incomplete
      | some (line, _) =>
        match parseIntLine line with
        | some z =>
          if -(2 ^ 63) ≤ z ∧ z < 2 ^ 63 then .complete (.integer z) (1 + line.length + 2)
          else .malformed
        | none => .malformed := rfl

theorem decodeFrame_t35 (F : ℕ) (r : List ℕ) :
    decodeFrame (F + 1) (35 :: r) =
      match splitLine r with
      | none => .incomplete
      | some (line, _) =>
        if line = [116] then .complete (.boolean true) (1 + line.length + 2)
        else if line = [102] then .complete (.boolean false) (1 + line.length + 2)
        else .malformed := rfl

theorem decodeFrame_t95 (F : ℕ) (r : List ℕ) :
    decodeFrame (F + 1) (95 :: r) =
      match splitLine r with
      | none => .incomplete
      | some (line, _) =>
        if line = [] then .complete .null (1 + line.length + 2) else .malformed := rfl

theorem decodeFrame_t44 (F : ℕ) (r : List ℕ) :
    decodeFrame (F + 1) (44 :: r) =
      match splitLine r with
      | none => .incomplete
      | some (line, _) =>
        match parseF64Line line with
        | some x => .complete (.double x) (1 + line.length + 2)
        | none => .malformed := rfl

theorem decodeFrame_t36 (F : ℕ) (r : List ℕ) :
    decodeFrame (F + 1) (36 :: r) =
      match splitLine r with
      | none => .incomplete
      | some (line, rest2) =>
        match parseIntLine line with
        | none => .malformed
        | some len =>
          if len = -1 then .complete .nullBulkString (1 + line.length + 2)
          else if len < 0 then .malformed
          else if rest2.length < len.toNat + 2 then .incomplete
          else if (rest2.drop len.toNat).take 2 = CRLF then
            .complete (.bulkString (rest2.take len.toNat))
              (1 + line.length + 2 + len.toNat + 2)
          else .malformed := rfl

theorem decodeFrame_t33 (F : ℕ) (r : List ℕ) :
    decodeFrame (F + 1) (33 :: r) =
      match splitLine r with
      | none => .incomplete
      | some (line, rest2) =>
        match parseIntLine line with
        | none => .malformed
        | some len =>
          if len < 0 then .malformed
          else if rest2.length < len.toNat + 2 then .incomplete
          else if (rest2.drop len.toNat).take 2 = CRLF then
            if isValidUtf8 (rest2.take len.toNat) then
              .complete (.bulkError (rest2.take len.toNat))
                (1 + line.length + 2 + len.toNat + 2)
            else .malformed
          else .malformed := rfl

theorem decodeFrame_t42 (F : ℕ) (r : List ℕ) :
    decodeFrame (F + 1) (42 :: r) =
      match splitLine r with
      | none => .incomplete
      | some (line, rest2) =>
        match parseIntLine line with
        | none => .malformed
        | some cnt =>
          if cnt = -1 then .complete .nullArray (1 + line.length + 2)
          else if cnt < 0 then .malformed
          else
            match decodeFrames F cnt.toNat rest2 with
            | .ok xs used => .complete (.array xs) (1 + line.length + 2 + used)
            | .incomplete => .incomplete
            | .malformed => .malformed := rfl

theorem decodeFrame_t37 (F : ℕ) (r : List ℕ) :
    decodeFrame (F + 1) (37 :: r) =
      match splitLine r with
      | none => .incomplete
      | some (line, rest2) =>
        match parseIntLine line with
        | none => .malformed
        | some cnt =>
          if cnt < 0 then .malformed
          else
            match decodeEntries F cnt.toNat rest2 with
            | .ok entries used =>
              .complete (.map (mapFromList entries)) (1 + line.length + 2 + used)
            | .incomplete => .incomplete
            | .malformed => .malformed := rfl

theorem decodeFrame_t126 (F : ℕ) (r : List ℕ) :
    decodeFrame (F + 1) (126 :: r) =
      match splitLine r with
      | none => .incomplete
      | some (line, rest2) =>
        match parseIntLine line with
        | none => .malformed
        | some cnt =>
          if cnt < 0 then .malformed
          else
            match decodeSetElems F cnt.toNat rest2 with
            | .ok entries used =>
              .complete (.set (mapFromList entries)) (1 + line.length + 2 + used)
            | .incomplete => .incomplete
            | .malformed => .malformed := rfl

theorem decodeFrames_zero (F : ℕ) (input : List ℕ) :
    decodeFrames F 0 input = .ok [] 0 := by
  cases F <;> rfl

theorem decodeFrames_succ (F cnt : ℕ) (input : List ℕ) :
    decodeFrames (F + 1) (cnt + 1) input =
      match decodeFrame F input with
      | .complete x used =>
        (match decodeFrames F cnt (input.drop used) with
         | .ok xs used2 => .ok (x :: xs) (used + used2)
         | .incomplete => .incomplete
         | .malformed => .malformed)
      | .incomplete => .incomplete
      | .malformed => .malformed := rfl

theorem decodeEntries_succ (F cnt : ℕ) (input : List ℕ) :
    decodeEntries (F + 1) (cnt + 1) input =
      match decodeFrame F input with
      | .complete (.simpleString k) used =>
        (match decodeFrame F (input.drop used) with
         | .complete v used2 =>
           (match decodeEntries F cnt (input.drop (used + used2)) with
            | .ok entries used3 => .ok ((k, v) :: entries) (used + used2 + used3)
            | .incomplete => .incomplete
            | .malformed => .malformed)
         | .incomplete => .incomplete
         | .malformed => .malformed)
      | .complete _ _ => .malformed
      | .incomplete => .incomplete
      | .malformed => .malformed := rfl

theorem decodeSetElems_zero (F : ℕ) (input : List ℕ) :
    decodeSetElems F 0 input = .ok [] 0 := by
  cases F <;> rfl

theorem decodeAux : ∀ F : ℕ,
    (∀ v : RespFrame, v.wf = true → v.weight ≤ F → ∀ bs rest, RespFrame.encode v = some bs →
      decodeFrame F (bs ++ rest) = .complete v bs.length) ∧
    (∀ xs, wfFrames xs = true → weightFrames xs ≤ F → ∀ bs rest, encodeFrames xs = some bs →
      decodeFrames F xs.length (bs ++ rest) = .ok xs bs.length) ∧
    (∀ es, wfEntries es = true → weightEntries es ≤ F → ∀ bs rest, encodeEntries es = some bs →
      decodeEntries F es.length (bs ++ rest) = .ok es bs.length) := by
  intro F
  induction F with
  | zero =>
    refine ⟨fun v _ hw => absurd hw (by have := v.weight_pos; omega),
      fun xs _ hw => absurd hw (by have := weightFrames_pos xs; omega),
      fun es _ hw => absurd hw (by have := weightEntries_pos es; omega)⟩
  | succ F ih =>
    obtain ⟨ihV, ihF, ihE⟩ := ih
    refine ⟨?_, ?_, ?_⟩
    · intro v hwf hw bs rest henc
      cases v with
      | simpleString s =>
        simp only [RespFrame.encode, Option.some.injEq] at henc
        subst henc
        rw [RespFrame.wf, Bool.and_eq_true] at hwf
        have h13 : ∀ c ∈ s, c ≠ 13 := fun c hc => (noCRLF_mem hwf.1 c hc).1
        have harr : simpleStringEncode s ++ rest = 43 :: (s ++ 13 :: 10 :: rest) := by
          simp [simpleStringEncode, CRLF]
        rw [harr, decodeFrame_t43]
        simp only [splitLine_append s rest h13]
        rw [if_pos hwf.2]
        have hL : (simpleStringEncode s).length = 1 + s.length + 2 := by
          simp only [simpleStringEncode, CRLF, List.length_append, List.length_cons,
            List.length_nil]
          try omega
        rw [hL]
      | simpleError s =>
        simp only [RespFrame.encode, Option.some.injEq] at henc
        subst henc
        rw [RespFrame.wf, Bool.and_eq_true] at hwf
        have h13 : ∀ c ∈ s, c ≠ 13 := fun c hc => (noCRLF_mem hwf.1 c hc).1
        have harr : simpleErrorEncode s ++ rest = 45 :: (s ++ 13 :: 10 :: rest) := by
          simp [simpleErrorEncode, CRLF]
        rw [harr, decodeFrame_t45]
        simp only [splitLine_append s rest h13]
        rw [if_pos hwf.2]
        have hL : (simpleErrorEncode s).length = 1 + s.length + 2 := by
          simp only [simpleErrorEncode, CRLF, List.length_append, List.length_cons,
            List.length_nil]
          try omega
        rw [hL]
      | integer z =>
        rw [RespFrame.wf] at hwf
        have hz := of_decide_eq_true hwf
        rw [RespFrame.encode, i64encode, if_neg (show ¬z = -(2 ^ 63) by omega),
          Option.some.injEq] at henc
        subst henc
        have h13 : ∀ c ∈ (if z < 0 then [45] else [43]) ++ natToDec z.natAbs, c ≠ 13 := by
          intro c hc
          rcases List.mem_append.mp hc with h | h
          · split at h <;> simp at h <;> omega
          · have := natToDec_no_cr_lf _ c h
            omega
        have harr : ([58] ++ (if z < 0 then [45] else [43]) ++ natToDec z.natAbs ++ CRLF) ++
            rest = 58 :: (((if z < 0 then [45] else [43]) ++ natToDec z.natAbs) ++
              13 :: 10 :: rest) := by
          simp [CRLF]
        rw [harr, decodeFrame_t58]
        simp only [splitLine_append ((if z < 0 then [45] else [43]) ++ natToDec z.natAbs)
          rest h13, parseIntLine_signed z]
        rw [if_pos (show -(2 ^ 63) ≤ z ∧ z < 2 ^ 63 from ⟨by omega, by omega⟩)]
        have hL : ([58] ++ (if z < 0 then [45] else [43]) ++ natToDec z.natAbs ++ CRLF).length =
            1 + ((if z < 0 then [45] else [43]) ++ natToDec z.natAbs).length + 2 := by
          split <;>
            (simp only [CRLF, List.length_append, List.length_cons, List.length_nil]; omega)
        rw [hL]
      | bulkString p =>
        rw [RespFrame.wf] at hwf
        rw [RespFrame.encode, bulkStringEncode, if_pos hwf, Option.some.injEq] at henc
        subst henc
        have harr : ([36] ++ natToDec p.length ++ CRLF ++ p ++ CRLF) ++ rest =
            36 :: (natToDec p.length ++ 13 :: 10 :: (p ++ 13 :: 10 :: rest)) := by
          simp [CRLF]
        rw [harr, decodeFrame_t36]
        simp only [splitLine_append (natToDec p.length) (p ++ 13 :: 10 :: rest)
          (fun c hc => by have := natToDec_no_cr_lf p.length c hc; omega),
          parseIntLine_natToDec p.length]
        rw [if_neg (show ¬((p.length : ℤ) = -1) from by omega)]
        rw [if_neg (show ¬((p.length : ℤ) < 0) from by omega)]
        rw [show ((p.length : ℤ)).toNat = p.length from by simp]
        have hlen2 : (p ++ 13 :: 10 :: rest).length = p.length + 2 + rest.length := by
          simp only [List.length_append, List.length_cons]
          omega
        rw [if_neg (show ¬((p ++ 13 :: 10 :: rest).length < p.length + 2) from by omega)]
        rw [drop_len_append p (13 :: 10 :: rest)]
        rw [if_pos (show ((13 : ℕ) :: 10 :: rest).take 2 = CRLF from rfl)]
        rw [take_len_append p (13 :: 10 :: rest)]
        have hL : ([36] ++ natToDec p.length ++ CRLF ++ p ++ CRLF).length =
            1 + (natToDec p.length).length + 2 + p.length + 2 := by
          simp only [CRLF, List.length_append, List.length_cons, List.length_nil]
          try omega
        rw [hL]
      | array xs =>
        rw [RespFrame.wf] at hwf
        rw [RespFrame.encode] at henc
        cases hb : encodeFrames xs with
        | none =>
          rw [hb] at henc
          exact absurd henc (by simp)
        | some body =>
          rw [hb, Option.some.injEq] at henc
          subst henc
          have hxw : weightFrames xs ≤ F := by
            rw [show (RespFrame.array xs).weight = 1 + weightFrames xs from rfl] at hw
            omega
          have harr : ([42] ++ natToDec xs.length ++ CRLF ++ body) ++ rest =
              42 :: (natToDec xs.length ++ 13 :: 10 :: (body ++ rest)) := by
            simp [CRLF]
          rw [harr, decodeFrame_t42]
          simp only [splitLine_append (natToDec xs.length) (body ++ rest)
            (fun c hc => by have := natToDec_no_cr_lf _ c hc; omega),
            parseIntLine_natToDec xs.length]
          rw [if_neg (show ¬((xs.length : ℤ) = -1) from by omega)]
          rw [if_neg (show ¬((xs.length : ℤ) < 0) from by omega)]
          rw [show ((xs.length : ℤ)).toNat = xs.length from by simp]
          simp only [ihF xs hwf hxw body rest hb]
          have hL : ([42] ++ natToDec xs.length ++ CRLF ++ body).length =
              1 + (natToDec xs.length).length + 2 + body.length := by
            simp only [CRLF, List.length_append, List.length_cons, List.length_nil]
            try omega
          rw [hL]
      | null =>
        simp only [RespFrame.encode, Option.some.injEq] at henc
        subst henc
        have harr : ([95] ++ CRLF) ++ rest = 95 :: 13 :: 10 :: rest := by
          simp [CRLF]
        rw [harr]
        rfl
      | nullArray =>
        simp only [RespFrame.encode, Option.some.injEq] at henc
        subst henc
        have harr : ([42, 45, 49] ++ CRLF) ++ rest = 42 :: 45 :: 49 :: 13 :: 10 :: rest := by
          simp [CRLF]
        rw [harr]
        rfl
      | nullBulkString =>
        simp only [RespFrame.encode, Option.some.injEq] at henc
        subst henc
        have harr : ([36, 45, 49] ++ CRLF) ++ rest = 36 :: 45 :: 49 :: 13 :: 10 :: rest := by
          simp [CRLF]
        rw [harr]
        rfl
      | boolean bv =>
        simp only [RespFrame.encode, boolEncode, Option.some.injEq] at henc
        subst henc
        cases bv
        · have harr : ([35] ++ (if false then [116] else [102]) ++ CRLF) ++ rest =
              35 :: 102 :: 13 :: 10 :: rest := by
            simp [CRLF]
          rw [harr]
          rfl
        · have harr : ([35] ++ (if true then [116] else [102]) ++ CRLF) ++ rest =
              35 :: 116 :: 13 :: 10 :: rest := by
            simp [CRLF]
          rw [harr]
          rfl
      | double x =>
        rw [RespFrame.wf] at hwf
        have hval := of_decide_eq_true hwf
        rw [RespFrame.encode, Option.some.injEq] at henc
        subst henc
        rw [f64encode]
        split
        · have harr : ([44] ++ fmtExp x ++ CRLF) ++ rest =
              44 :: (fmtExp x ++ 13 :: 10 :: rest) := by
            simp [CRLF]
          rw [harr, decodeFrame_t44]
          simp only [splitLine_append (fmtExp x) rest (fmtExp_no13 x),
            parseF64Line_fmtExp hval]
          have hL : ([44] ++ fmtExp x ++ CRLF).length = 1 + (fmtExp x).length + 2 := by
            simp only [CRLF, List.length_append, List.length_cons, List.length_nil]
            try omega
          rw [hL]
        · have harr : ([44] ++ fmtDisplay x ++ CRLF) ++ rest =
              44 :: (fmtDisplay x ++ 13 :: 10 :: rest) := by
            simp [CRLF]
          rw [harr, decodeFrame_t44]
          simp only [splitLine_append (fmtDisplay x) rest (fmtDisplay_no13 x),
            parseF64Line_fmtDisplay hval]
          have hL : ([44] ++ fmtDisplay x ++ CRLF).length = 1 + (fmtDisplay x).length + 2 := by
            simp only [CRLF, List.length_append, List.length_cons, List.length_nil]
            try omega
          rw [hL]
      | bulkError s =>
        rw [RespFrame.wf] at hwf
        simp only [RespFrame.encode, bulkErrorEncode, Option.some.injEq] at henc
        subst henc
        have harr : ([33] ++ natToDec s.length ++ CRLF ++ s ++ CRLF) ++ rest =
            33 :: (natToDec s.length ++ 13 :: 10 :: (s ++ 13 :: 10 :: rest)) := by
          simp [CRLF]
        rw [harr, decodeFrame_t33]
        simp only [splitLine_append (natToDec s.length) (s ++ 13 :: 10 :: rest)
          (fun c hc => by have := natToDec_no_cr_lf s.length c hc; omega),
          parseIntLine_natToDec s.length]
        rw [if_neg (show ¬((s.length : ℤ) < 0) from by omega)]
        rw [show ((s.length : ℤ)).toNat = s.length from by simp]
        have hlen2 : (s ++ 13 :: 10 :: rest).length = s.length + 2 + rest.length := by
          simp only [List.length_append, List.length_cons]
          omega
        rw [if_neg (show ¬((s ++ 13 :: 10 :: rest).length < s.length + 2) from by omega)]
        rw [drop_len_append s (13 :: 10 :: rest)]
        rw [if_pos (show ((13 : ℕ) :: 10 :: rest).take 2 = CRLF from rfl)]
        rw [take_len_append s (13 :: 10 :: rest)]
        rw [if_pos hwf]
        have hL : ([33] ++ natToDec s.length ++ CRLF ++ s ++ CRLF).length =
            1 + (natToDec s.length).length + 2 + s.length + 2 := by
          simp only [CRLF, List.length_append, List.length_cons, List.length_nil]
          try omega
        rw [hL]
      | map es =>
        rw [RespFrame.wf, Bool.and_eq_true] at hwf
        rw [RespFrame.encode] at henc
        cases hb : encodeEntries es with
        | none =>
          rw [hb] at henc
          exact absurd henc (by simp)
        | some body =>
          rw [hb, Option.some.injEq] at henc
          subst henc
          have hew : weightEntries es ≤ F := by
            rw [show (RespFrame.map es).weight = 1 + weightEntries es from rfl] at hw
            omega
          have harr : ([37] ++ natToDec es.length ++ CRLF ++ body) ++ rest =
              37 :: (natToDec es.length ++ 13 :: 10 :: (body ++ rest)) := by
            simp [CRLF]
          rw [harr, decodeFrame_t37]
          simp only [splitLine_append (natToDec es.length) (body ++ rest)
            (fun c hc => by have := natToDec_no_cr_lf _ c hc; omega),
            parseIntLine_natToDec es.length]
          rw [if_neg (show ¬((es.length : ℤ) < 0) from by omega)]
          rw [show ((es.length : ℤ)).toNat = es.length from by simp]
          simp only [ihE es hwf.2 hew body rest hb]
          rw [mapFromList_of_sorted es hwf.1]
          have hL : ([37] ++ natToDec es.length ++ CRLF ++ body).length =
              1 + (natToDec es.length).length + 2 + body.length := by
            simp only [CRLF, List.length_append, List.length_cons, List.length_nil]
            try omega
          rw [hL]
      | set es =>
        rw [RespFrame.wf] at hwf
        have hes : es = [] := List.isEmpty_iff.mp hwf
        subst hes
        rw [RespFrame.encode] at henc
        simp only [encodeValues, List.length_nil, List.append_nil, Option.some.injEq] at henc
        subst henc
        have harr : ([126] ++ natToDec 0 ++ CRLF) ++ rest = 126 :: 48 :: 13 :: 10 :: rest := by
          simp [CRLF, natToDec]
        rw [harr, decodeFrame_t126]
        simp only [show splitLine ((48 : ℕ) :: 13 :: 10 :: rest) = some ([48], rest) from rfl,
          show parseIntLine [48] = some (0 : ℤ) from rfl]
        rw [if_neg (show ¬((0 : ℤ) < 0) from by omega)]
        rw [show ((0 : ℤ)).toNat = 0 from rfl]
        simp only [decodeSetElems_zero F rest]
        rw [show mapFromList ([] : List (List ℕ × RespFrame)) = [] from rfl]
        have hL : ([126] ++ natToDec 0 ++ CRLF).length = 1 + [48].length + 2 + 0 := rfl
        rw [hL]
    · intro xs hwf hw bs rest henc
      cases xs with
      | nil =>
        simp only [encodeFrames, Option.some.injEq] at henc
        subst henc
        rfl
      | cons x xs =>
        rw [wfFrames, Bool.and_eq_true] at hwf
        rw [weightFrames] at hw
        rw [encodeFrames] at henc
        cases hx : RespFrame.encode x with
        | none =>
          rw [hx] at henc
          exact absurd henc (by simp)
        | some ex =>
          cases htl : encodeFrames xs with
          | none =>
            rw [hx, htl] at henc
            exact absurd henc (by simp)
          | some exs =>
            rw [hx, htl, Option.some.injEq] at henc
            subst henc
            have hx1 := x.weight_pos
            have hxs1 := weightFrames_pos xs
            rw [show (ex ++ exs) ++ rest = ex ++ (exs ++ rest) from by simp,
              show (x :: xs).length = xs.length + 1 from rfl, decodeFrames_succ]
            simp only [ihV x hwf.1 (by omega) ex (exs ++ rest) hx]
            rw [drop_len_append ex (exs ++ rest)]
            simp only [ihF xs hwf.2 (by omega) exs rest htl]
            rw [show (ex ++ exs).length = ex.length + exs.length from by simp]
    · intro es hwf hw bs rest henc
      cases es with
      | nil =>
        simp only [encodeEntries, Option.some.injEq] at henc
        subst henc
        rfl
      | cons e es =>
        obtain ⟨k, v⟩ := e
        rw [wfEntries, Bool.and_eq_true, Bool.and_eq_true, Bool.and_eq_true] at hwf
        rw [weightEntries] at hw
        rw [encodeEntries] at henc
        cases hv : RespFrame.encode v with
        | none =>
          rw [hv] at henc
          exact absurd henc (by simp)
        | some ev =>
          cases htl : encodeEntries es with
          | none =>
            rw [hv, htl] at henc
            exact absurd henc (by simp)
          | some er =>
            rw [hv, htl, Option.some.injEq] at henc
            subst henc
            have hv1 := v.weight_pos
            have hes1 := weightEntries_pos es
            have hkwf : (RespFrame.simpleString k).wf = true := by
              rw [RespFrame.wf, Bool.and_eq_true]
              exact ⟨hwf.1.1.1, hwf.1.1.2⟩
            have hkb : RespFrame.encode (.simpleString k) = some (simpleStringEncode k) := rfl
            rw [show (simpleStringEncode k ++ ev ++ er) ++ rest =
                simpleStringEncode k ++ (ev ++ (er ++ rest)) from by simp,
              show ((k, v) :: es).length = es.length + 1 from rfl, decodeEntries_succ]
            simp only [ihV (.simpleString k) hkwf
              (by rw [show (RespFrame.simpleString k).weight = 1 from rfl]; omega)
              (simpleStringEncode k) (ev ++ (er ++ rest)) hkb]
            rw [drop_len_append (simpleStringEncode k) (ev ++ (er ++ rest))]
            simp only [ihV v hwf.1.2 (by omega) ev (er ++ rest) hv]
            have hdrop2 : (simpleStringEncode k ++ (ev ++ (er ++ rest))).drop
                ((simpleStringEncode k).length + ev.length) = er ++ rest := by
              rw [show simpleStringEncode k ++ (ev ++ (er ++ rest)) =
                (simpleStringEncode k ++ ev) ++ (er ++ rest) from by simp,
                show (simpleStringEncode k).length + ev.length =
                  (simpleStringEncode k ++ ev).length from by simp]
              exact drop_len_append _ _
            rw [hdrop2]
            simp only [ihE es hwf.2 (by omega) er rest htl]
            rw [show (simpleStringEncode k ++ ev ++ er).length =
              (simpleStringEncode k).length + ev.length + er.length from by
                simp
                try omega]

/-- C9 counterexample to the claim as stated over every frame value: a
SimpleString whose text contains CRLF is a frame value (construction never
rejects it), it encodes, but the decoder stops at the embedded CRLF and
returns a structurally different frame with a smaller consumed count. -/
theorem resp_roundtrip_counterexample :
    RespFrame.encode (.simpleString (b "a\r\nb")) = some (b "+a\r\nb\r\n") ∧
    respDecode (b "+a\r\nb\r\n") = .complete (.simpleString (b "a")) 4 ∧
    ¬(RespFrame.simpleString (b "a") = .simpleString (b "a\r\nb") ∧
      (4 : ℕ) = (b "+a\r\nb\r\n").length) := by
  refine ⟨rfl, rfl, ?_⟩
  intro h
  obtain ⟨h1, -⟩ := h
  injection h1 with h3
  exact absurd h3 (by decide)

/-- C9 (amended): for every well-formed frame — line payloads CR/LF-free
and valid UTF-8, integers strictly inside the i64 range, bulk payloads
valid UTF-8, doubles finite and canonical, map keys strictly sorted and
line-safe, sets empty — encoding succeeds, and decoding the encoded bytes
yields the Complete outcome carrying a structurally equal frame together
with a consumed-byte count equal to the length of the encoding. -/
theorem resp_roundtrip (v : RespFrame) (h : v.wf = true) :
    ∃ bs, RespFrame.encode v = some bs ∧ respDecode bs = .complete v bs.length := by
  obtain ⟨bs, henc, hlen⟩ := (encodeTotalAux v.weight).1 v le_rfl h
  refine ⟨bs, henc, ?_⟩
  have hmain := (decodeAux (bs.length + 1)).1 v h (by omega) bs [] henc
  rw [List.append_nil] at hmain
  rw [respDecode]
  exact hmain

theorem resp_roundtrip_witness :
    (RespFrame.array [.integer 42, .bulkString (b "OK"),
      .map [(b "k", .double ⟨false, 2 ^ 52, -50⟩)]]).wf = true ∧
    ∃ bs, RespFrame.encode (RespFrame.array [.integer 42, .bulkString (b "OK"),
      .map [(b "k", .double ⟨false, 2 ^ 52, -50⟩)]]) = some bs ∧
      respDecode bs = .complete (RespFrame.array [.integer 42, .bulkString (b "OK"),
        .map [(b "k", .double ⟨false, 2 ^ 52, -50⟩)]]) bs.length :=
  ⟨by decide, resp_roundtrip _ (by decide)⟩

end SimpleRedis




